import Mathlib

/-!
# ViewNet: a verification development

Shallow embedding of the scanning engine of `ur-wesley/viewnet`
(`network.go`, `scanner.go`, `scan_state.go`, `main.go`, `types.go`) and of
its vendor lookup (`vendor_enhanced.go`).

* Go `byte` slices (`net.IP`, `net.IPMask`) are lists of naturals, every
  arithmetic step reduced modulo 256 as the machine does.
* Go `string`s are Lean `String`s, except in the vendor lookup, which cuts
  strings by byte and has them as lists of bytes.
* The network (ping, reverse DNS, ARP, TCP connect and read) is an explicit
  environment record `Env`; every call into it is recorded in a trace. The
  files and services of the vendor lookup are a record `VendorEnv`.
* A `regexp` pattern is a syntax tree, run by a backtracking matcher.
* Goroutine interleavings are explicit: a schedule, which turns the order
  in which workers are started into the order in which they complete, is a
  parameter of the function that collects results, and the shared scan
  state is a transition system whose steps are the critical sections of
  the source. Overlapping calls of the vendor lookup are a process whose
  moves are the critical sections of `getEnhancedVendor`.
* A `[]*HostInfo` slice is a header into a heap of backing arrays, so that
  a copy and its original can be told apart.
-/

namespace ViewNet

set_option maxRecDepth 100000

/-! ## `net` package: the parts the enumeration loop uses (IPv4) -/

/-- Go `net.IP` / `net.IPMask`: a slice of bytes. -/
abbrev IP := List Nat

/-- Value of a byte slice read as a big-endian number. -/
def ipVal (ip : IP) : Nat := ip.foldl (fun acc b => acc * 256 + b) 0

/-- The four bytes of a 32-bit value, most significant first. -/
def ofVal (v : Nat) : IP := [v / 2 ^ 24 % 256, v / 2 ^ 16 % 256, v / 2 ^ 8 % 256, v % 256]

/-- Go `net.CIDRMask(ones, 32)`: byte `i` is `0xff` while at least 8 ones
remain, then `^byte(0xff >> n)`, then zero. -/
def cidrMaskFrom : Nat → Nat → List Nat
  | 0, _ => []
  | l + 1, n =>
    if 8 ≤ n then 255 :: cidrMaskFrom l (n - 8)
    else (255 - 255 / 2 ^ n) :: cidrMaskFrom l 0

/-- Go `net.CIDRMask(ones, bits)` for `bits = 32`. -/
def CIDRMask (ones : Nat) : List Nat := cidrMaskFrom 4 ones

/-- Go `IP.Mask` on slices of equal length: byte-wise AND; `none` is Go's
`nil` result on a length mismatch. -/
def IP.Mask (ip : IP) (mask : List Nat) : Option IP :=
  if ip.length ≠ mask.length then none
  else some (List.zipWith (fun a m => a &&& m) ip mask)

/-- Go `net.IPNet`. -/
structure IPNet where
  IP : ViewNet.IP
  Mask : List Nat
deriving DecidableEq, Repr

/-- Go `(*IPNet).Contains` for a four-byte network and a four-byte address:
every byte agrees under the mask. -/
def IPNet.Contains (n : IPNet) (ip : ViewNet.IP) : Bool :=
  if ip.length ≠ n.IP.length then false
  else if n.IP.length ≠ n.Mask.length then false
  else (List.zipWith (fun a m => a &&& m) n.IP n.Mask)
        == (List.zipWith (fun a m => a &&& m) ip n.Mask)

/-- Go `net.ParseCIDR` on the text `a.b.c.d/ones`, after the text has been
read: fails unless the four octets are bytes and `ones ≤ 32`; the network
keeps the masked address. -/
def ParseCIDR (a b c d ones : Nat) : Option IPNet :=
  if a < 256 ∧ b < 256 ∧ c < 256 ∧ d < 256 ∧ ones ≤ 32 then
    match IP.Mask [a, b, c, d] (CIDRMask ones) with
    | some base => some { IP := base, Mask := CIDRMask ones }
    | none => none
  else none

/-- Go `ubtoa`: decimal digits of a byte, no leading zeros. -/
def ubtoa (v : Nat) : List Char :=
  if v < 10 then [Char.ofNat (v + 48)]
  else if v < 100 then [Char.ofNat (v / 10 + 48), Char.ofNat (v % 10 + 48)]
  else [Char.ofNat (v / 100 + 48), Char.ofNat (v / 10 % 10 + 48), Char.ofNat (v % 10 + 48)]

/-- Go `IP.String` on a four-byte address: dotted decimal. Other lengths
do not occur in the enumeration loop and are rendered empty. -/
def ipString (ip : IP) : String :=
  match ip with
  | [a, b, c, d] =>
    ⟨ubtoa (a % 256) ++ '.' :: ubtoa (b % 256) ++ '.' :: ubtoa (c % 256) ++ '.' :: ubtoa (d % 256)⟩
  | _ => ""

/-! ## `network.go` -/

/-- Loop of `inc`, index `j` running from `j+1 - 1` down to `0`:
`ip[j]++` wraps modulo 256, and the loop breaks once the byte is non-zero. -/
def incFrom : Nat → IP → IP
  | 0, ip => ip
  | j + 1, ip =>
    let ip1 := ip.set j ((ip.getD j 0 + 1) % 256)
    if ip1.getD j 0 ≠ 0 then ip1 else incFrom j ip1

/-- Go `inc(ip)`: `for j := len(ip) - 1; j >= 0; j-- { ip[j]++; if ip[j] != 0 { break } }`. -/
def inc (ip : IP) : IP := incFrom ip.length ip

/-- The enumeration loop shared by `ScanSubnet`, `StartTUIScan` and
`runNonInteractiveMode`:
`for ip := base; ipnet.Contains(ip); inc(ip) { ips = append(ips, ip.String()) }`.
`fuel` bounds the number of times the loop condition is evaluated;
`none` means the bound was reached with the loop still running. -/
def enumLoop (n : IPNet) : Nat → IP → List String → Option (List String)
  | 0, _, _ => none
  | fuel + 1, ip, ips =>
    if n.Contains ip then enumLoop n fuel (inc ip) (ips ++ [ipString ip]) else some ips

/-- The loop started as the source starts it: at `ipnet.IP.Mask(ipnet.Mask)`,
with an empty accumulator. -/
def enumerate (n : IPNet) (fuel : Nat) : Option (List String) :=
  match n.IP.Mask n.Mask with
  | some base => enumLoop n fuel base []
  | none => some []

/-! ## Library models: `sort.Slice`, `strings`, `strconv`, `fmt.Sscanf` -/

/-- Insert `x` before the first element it is less than. -/
def insertBy {α : Type} (less : α → α → Bool) (x : α) : List α → List α
  | [] => [x]
  | y :: ys => if less x y then x :: y :: ys else y :: insertBy less x ys

/-- Go `sort.Slice(xs, less)`, as the contents of the slice afterwards.
The library's algorithm is not stable; this stand-in is an insertion sort,
and the theorems below use of it only that the result is a permutation of
the input ordered by `less`. -/
def sortSlice {α : Type} (less : α → α → Bool) (xs : List α) : List α :=
  xs.foldr (insertBy less) []

/-- Go `strings.Split(s, sep)` for a one-character separator: never empty,
`Split("", sep)` is one empty piece. -/
def splitOn (sep : Char) : List Char → List (List Char)
  | [] => [[]]
  | c :: cs =>
    if c = sep then [] :: splitOn sep cs
    else
      match splitOn sep cs with
      | [] => [[c]]
      | p :: ps => (c :: p) :: ps

/-- White space of `unicode.IsSpace`; `fmt`'s scanner uses the same table. -/
def isSpace (c : Char) : Bool :=
  let n := c.toNat
  (9 ≤ n ∧ n ≤ 13) ∨ n = 32 ∨ n = 133 ∨ n = 160 ∨ n = 5760 ∨ (8192 ≤ n ∧ n ≤ 8202)
    ∨ n = 8232 ∨ n = 8233 ∨ n = 8239 ∨ n = 8287 ∨ n = 12288

/-- Go `strings.TrimSpace`. -/
def trimSpace (s : List Char) : List Char :=
  ((s.dropWhile isSpace).reverse.dropWhile isSpace).reverse

/-- Value of a run of decimal digits. -/
def digitsVal (ds : List Char) : Nat := ds.foldl (fun n c => n * 10 + (c.toNat - 48)) 0

/-- Go `strconv.ParseInt(tok, 10, 64)`: an optional sign, then one or more
decimal digits and nothing else, the value within the `int64` range;
`none` is an error. -/
def parseInt (tok : List Char) : Option Int :=
  let neg := tok.head? = some '-'
  let ds := match tok with
    | '+' :: r => r
    | '-' :: r => r
    | r => r
  if ds = [] then none
  else if ds.all Char.isDigit then
    let un := digitsVal ds
    if neg then (if un > 2 ^ 63 then none else some (-(un : Int)))
    else (if un ≥ 2 ^ 63 then none else some (un : Int))
  else none

/-- Go `strconv.Atoi` on a 64-bit platform: the same language and values as
`ParseInt(s, 10, 64)`. -/
def atoi (s : List Char) : Option Int := parseInt s

/-- The `SkipSpace` of `fmt` while scanning a string: leading white space is
dropped, a newline is an error (`none`). -/
def skipSpace : List Char → Option (List Char)
  | [] => some []
  | c :: cs =>
    if c = '\n' then none
    else if isSpace c then skipSpace cs
    else some (c :: cs)

/-- The value left in `val` by `val := 0; fmt.Sscanf(part, "%d", &val)`:
after leading white space an optional sign and the longest run of digits
and underscores are read and handed to `ParseInt`; on any error `val`
keeps its zero. Text after the number is ignored. -/
def sscanfInt (part : List Char) : Int :=
  match skipSpace part with
  | none => 0
  | some rest =>
    let sign := match rest with
      | '+' :: _ => ['+']
      | '-' :: _ => ['-']
      | _ => []
    let rest1 := rest.drop sign.length
    let num := rest1.takeWhile (fun c => c.isDigit || c == '_')
    if num = [] then 0
    else
      match parseInt (sign ++ num) with
      | some v => v
      | none => 0

/-! ## Library model: `regexp`

The patterns of the program use classes of one symbol, literals, sequence,
alternation, greedy `+` on a class, greedy `?`, capturing groups and the two
text anchors. A pattern is written as a tree over the symbols of the text
(runes, or bytes where the program cuts strings by byte), and run by
backtracking in the order of the library: the first alternative before the
second, the longest repetition before a shorter one, the leftmost start
before a later one. -/

/-- A pattern. -/
inductive Re (α : Type) where
  /-- The empty pattern. -/
  | eps
  /-- One symbol of a class. -/
  | set (p : α → Bool)
  /-- The pattern `ab`. -/
  | seq (a b : Re α)
  /-- The pattern `a|b`; `a` is preferred. -/
  | alt (a b : Re α)
  /-- The pattern `c+` for a class `c`, greedy. -/
  | plus (p : α → Bool)
  /-- The pattern `a?`, greedy. -/
  | opt (a : Re α)
  /-- The capturing group number `i` around `a`. -/
  | cap (i : Nat) (a : Re α)
  /-- The anchor `^`: beginning of text. -/
  | bot
  /-- The anchor `$`: end of text. -/
  | eot

/-- A place in the text: how many symbols precede it, and what follows. -/
structure Pos (α : Type) where
  /-- Symbols before this place. -/
  idx : Nat
  /-- Text from this place on. -/
  rest : List α

/-- Texts of the groups closed so far, the latest first. -/
abbrev Caps (α : Type) := List (Nat × List α)

/-- What remains to be matched after a piece of the pattern. -/
abbrev Cont (α : Type) := Pos α → Caps α → Option (Pos α × Caps α)

/-- The first result if there is one, else the second. -/
def firstOf {β : Type} : Option β → Option β → Option β
  | some x, _ => some x
  | none, b => b

/-- The tail of a greedy repetition of a class after its first symbol: one
more symbol if that leads to a match, else stop here. -/
def greedy {α : Type} (p : α → Bool) (k : Cont α) (cs : Caps α) :
    Nat → List α → Option (Pos α × Caps α)
  | idx, [] => k ⟨idx, []⟩ cs
  | idx, c :: r =>
    if p c then firstOf (greedy p k cs (idx + 1) r) (k ⟨idx, c :: r⟩ cs)
    else k ⟨idx, c :: r⟩ cs

/-- Match a pattern at a place, then the continuation. -/
def Re.run {α : Type} : Re α → Pos α → Caps α → Cont α → Option (Pos α × Caps α)
  | .eps, s, cs, k => k s cs
  | .set p, s, cs, k =>
    match s.rest with
    | c :: r => if p c then k ⟨s.idx + 1, r⟩ cs else none
    | [] => none
  | .seq a b, s, cs, k => a.run s cs (fun s1 cs1 => b.run s1 cs1 k)
  | .alt a b, s, cs, k => firstOf (a.run s cs k) (b.run s cs k)
  | .plus p, s, cs, k =>
    match s.rest with
    | c :: r => if p c then greedy p k cs (s.idx + 1) r else none
    | [] => none
  | .opt a, s, cs, k => firstOf (a.run s cs k) (k s cs)
  | .cap i a, s, cs, k =>
    a.run s cs (fun s1 cs1 => k s1 ((i, s.rest.take (s1.idx - s.idx)) :: cs1))
  | .bot, s, cs, k => if s.idx = 0 then k s cs else none
  | .eot, s, cs, k => if s.rest.isEmpty then k s cs else none

/-- A match of the whole pattern, as group 0, starting at a place. -/
def Re.matchAt {α : Type} (re : Re α) (s : Pos α) : Option (Pos α × Caps α) :=
  (Re.cap 0 re).run s [] (fun s1 cs => some (s1, cs))

/-- The leftmost match at or after a place. -/
def Re.searchFrom {α : Type} (re : Re α) : Nat → List α → Option (Pos α × Caps α)
  | idx, [] => re.matchAt ⟨idx, []⟩
  | idx, c :: r => firstOf (re.matchAt ⟨idx, c :: r⟩) (re.searchFrom (idx + 1) r)

/-- The text of group `i` of a match, empty if the group took no part. -/
def groupText {α : Type} (cs : Caps α) (i : Nat) : List α :=
  match cs.lookup i with
  | some t => t
  | none => []

/-- Go `re.FindStringSubmatch(text)` for a pattern with `groups` capturing
groups: `none` is the nil slice of no match, otherwise the match and the
groups, `groups + 1` texts. -/
def findStringSubmatch {α : Type} (re : Re α) (groups : Nat) (text : List α) :
    Option (List (List α)) :=
  match re.searchFrom 0 text with
  | none => none
  | some (_, cs) => some ((List.range (groups + 1)).map (groupText cs))

/-- The successive matches from a place on, each search starting where the
match before it ended. The patterns this is used with match no empty text;
at an empty match the search stops. -/
def Re.findAllFrom {α : Type} (re : Re α) : Nat → Nat → List α → List (List α)
  | 0, _, _ => []
  | fuel + 1, idx, rest =>
    match re.searchFrom idx rest with
    | none => []
    | some (s1, cs) =>
      if (groupText cs 0).isEmpty then [groupText cs 0]
      else groupText cs 0 :: re.findAllFrom fuel s1.idx s1.rest

/-- Go `re.FindAllString(text, -1)`. -/
def findAllString {α : Type} (re : Re α) (text : List α) : List (List α) :=
  re.findAllFrom (text.length + 1) 0 text

/-- Go `strings.Join(parts, sep)`. -/
def joinWith {α : Type} (sep : List α) : List (List α) → List α
  | [] => []
  | [x] => x
  | x :: y :: rest => x ++ sep ++ joinWith sep (y :: rest)

/-- A sequence of patterns. -/
def Re.ofList {α : Type} : List (Re α) → Re α
  | [] => .eps
  | a :: rest => .seq a (Re.ofList rest)

/-- The literal rune `c`. -/
def Re.lit (c : Char) : Re Char := .set (fun x => x == c)

/-- A rune that matches the letter `c` under the flag `i`: the letter in
either case, and the two runes outside ASCII that fold to a letter, U+017F
for `s` and U+212A for `k`. -/
def foldEq (c x : Char) : Bool :=
  x.toLower == c.toLower || (c.toLower == 's' && x.toNat == 0x17F)
    || (c.toLower == 'k' && x.toNat == 0x212A)

/-- A word of letters under the flag `i`. -/
def Re.word (w : String) : Re Char := Re.ofList (w.data.map (fun c => Re.set (foldEq c)))

/-- The class `\s`. -/
def reSpace (c : Char) : Bool :=
  c == '\t' || c == '\n' || c == '\x0c' || c == '\r' || c == ' '

/-- The class `[0-9.]`. -/
def verChar (c : Char) : Bool := c.isDigit || c == '.'

/-- The class `[[:print:]]`: the visible ASCII runes and the blank. -/
def printable (c : Char) : Bool := 32 ≤ c.toNat && c.toNat ≤ 126

/-! ## `network.go`: `ipToInt` -/

/-- Go `ipToInt`: split at the dots, give up with 0 unless there are four
parts, otherwise OR `uint32(val) << (8 * (3 - i))` into the result. -/
def ipToInt (ip : String) : Nat :=
  let parts := splitOn '.' ip.data
  if parts.length ≠ 4 then 0
  else
    parts.enum.foldl
      (fun result (ip : Nat × List Char) =>
        result ||| ((sscanfInt ip.2 % 2 ^ 32).toNat <<< (8 * (3 - ip.1))) % 2 ^ 32)
      0

/-! ## `types.go` -/

/-- Go `ServiceInfo`. `ResponseTime` is a `time.Duration` in nanoseconds. -/
structure ServiceInfo where
  Port : Int
  Protocol : String
  Service : String
  Version : String
  Banner : String
  IsOpen : Bool
  ResponseTime : Int
deriving DecidableEq, Repr

/-- Go `HostInfo`. A `*HostInfo` is never nil on the paths modelled here and
the record is not written after the worker that built it hands it over, so
the pointer is identified with the record. -/
structure HostInfo where
  IP : String
  MAC : String
  Vendor : String
  Hostname : String
  Services : List ServiceInfo
  IsReachable : Bool
  ResponseTime : Int
deriving DecidableEq, Repr

/-- Go `ScanProgress`; times are numbers, zero being the zero `time.Time`. -/
structure ScanProgress where
  CurrentHost : String
  HostsScanned : Int
  TotalHosts : Int
  ActiveHosts : Int
  OpenPorts : Int
  StartTime : Int
  EndTime : Int
deriving DecidableEq, Repr

/-! ## `scanner.go` -/

/-- Go `commonPorts`, the literal in source order. -/
def commonPorts : List (Int × String) :=
  [(21, "FTP"), (22, "SSH"), (23, "Telnet"), (25, "SMTP"), (53, "DNS"), (80, "HTTP"),
   (110, "POP3"), (143, "IMAP"), (443, "HTTPS"), (993, "IMAPS"), (995, "POP3S"),
   (1433, "MSSQL"), (1521, "Oracle"), (3306, "MySQL"), (3389, "RDP"), (5432, "PostgreSQL"),
   (5900, "VNC"), (8080, "HTTP-Alt"), (8443, "HTTPS-Alt")]

/-- Go `getServiceNameNew`. -/
def getServiceNameNew (port : Int) : String :=
  match commonPorts.lookup port with
  | some service => service
  | none => "Unknown"

/-- Go `getCommonPorts`: the keys of `commonPorts`. Go iterates a map in an
unspecified order; the keys are listed here in table order, and what is
proved of the result is invariant under permutation. -/
def getCommonPorts : List Int := commonPorts.map Prod.fst

/-- The pattern `[[:print:]]+` of `getBannerNew`. -/
def printRe : Re Char := .plus printable

/-- Go `getBannerNew`, as a function of what `conn.Read` delivers: `none`
for a failed read, otherwise the text of `buffer[:n]` as the runes the
library decodes from it (one U+FFFD for a byte that is no UTF-8). The
cleaned banner is ASCII, so the length and the cut at 100, which Go takes by
byte, are those of the runes. -/
def getBannerNew (read : Option (List Char)) : String :=
  match read with
  | none => ""
  | some data =>
    if data.isEmpty then ""
    else
      let banner := trimSpace data
      let cleanBanner := joinWith [' '] (findAllString printRe banner)
      if cleanBanner.length > 100 then ⟨cleanBanner.take 100 ++ ['.', '.', '.']⟩
      else ⟨cleanBanner⟩

/-- The pattern `(?i)(Apache|nginx|IIS)/([0-9.]+)`. -/
def httpRe : Re Char :=
  .seq (.cap 1 (.alt (Re.word "Apache") (.alt (Re.word "nginx") (Re.word "IIS"))))
    (.seq (Re.lit '/') (.cap 2 (.plus verChar)))

/-- The pattern `(?i)OpenSSH[_\s]([0-9.]+)`. -/
def sshRe : Re Char :=
  .seq (Re.word "OpenSSH")
    (.seq (.set (fun c => c == '_' || reSpace c)) (.cap 1 (.plus verChar)))

/-- The pattern `(?i)(FileZilla|vsftpd|ProFTPD)\s+([0-9.]+)`. -/
def ftpRe : Re Char :=
  .seq (.cap 1 (.alt (Re.word "FileZilla") (.alt (Re.word "vsftpd") (Re.word "ProFTPD"))))
    (.seq (.plus reSpace) (.cap 2 (.plus verChar)))

/-- The pattern `(?i)(Postfix|Sendmail|Exchange)\s+([0-9.]+)`. -/
def smtpRe : Re Char :=
  .seq (.cap 1 (.alt (Re.word "Postfix") (.alt (Re.word "Sendmail") (Re.word "Exchange"))))
    (.seq (.plus reSpace) (.cap 2 (.plus verChar)))

/-- The pattern `([0-9]+\.[0-9]+(?:\.[0-9]+)?)`. -/
def genericRe : Re Char :=
  .cap 1 (.seq (.plus Char.isDigit) (.seq (Re.lit '.') (.seq (.plus Char.isDigit)
    (.opt (.seq (Re.lit '.') (.plus Char.isDigit))))))

/-- The map `patterns` of `extractVersionNew`, each pattern with the number
of its capturing groups. -/
def versionPatterns : List (String × (Re Char × Nat)) :=
  [("HTTP", (httpRe, 2)), ("SSH", (sshRe, 1)), ("FTP", (ftpRe, 2)), ("SMTP", (smtpRe, 2))]

/-- The first part of `extractVersionNew`: the pattern of the service, if it
has one, and the product and version it finds when `len(matches) > 2`. -/
def specificVersion (banner service : String) : Option String :=
  match versionPatterns.lookup service with
  | none => none
  | some (pattern, groups) =>
    match findStringSubmatch pattern groups banner.data with
    | none => none
    | some found =>
      if found.length > 2 then some ⟨found.getD 1 [] ++ [' '] ++ found.getD 2 []⟩
      else none

/-- Go `extractVersionNew`. -/
def extractVersionNew (banner service : String) : String :=
  if banner = "" then ""
  else
    match specificVersion banner service with
    | some version => version
    | none =>
      match findStringSubmatch genericRe 1 banner.data with
      | none => ""
      | some found => if found.length > 0 then ⟨found.getD 0 []⟩ else ""

/-- A call that leaves the process. -/
inductive Event where
  /-- The ping subprocess of `pingHostNew(ip, _)`. -/
  | ping (ip : String)
  /-- The reverse DNS lookup of `getHostnameNew(ip)`. -/
  | lookupAddr (ip : String)
  /-- The neighbour table lookup and vendor resolution of `getMACAddressNew(ip)`. -/
  | macLookup (ip : String)
  /-- The TCP connect of `scanPortNew(_, ip, port, _)`. -/
  | dial (ip : String) (port : Int)
deriving DecidableEq, Repr

/-- What the network answers. -/
structure Env where
  /-- Result of `pingHostNew(ip, timeout)`. -/
  ping : String → Int → Bool × Int
  /-- Result of `getHostnameNew(ip)`. -/
  hostname : String → String
  /-- Result of `getMACAddressNew(ip)`. -/
  macVendor : String → String × String
  /-- Result of `DialContext` to `ip:port` with `timeout`: the error, if any, and the
  elapsed time. -/
  dial : String → Int → Int → Option String × Int
  /-- What `conn.Read` delivers in `getBannerNew` on the connection to `ip:port`:
  `none` when the read fails, otherwise the text read. -/
  read : String → Int → Int → Option (List Char)

/-- Go `scanPortNew`, returning the record and the error. -/
def scanPortNew (env : Env) (ip : String) (port : Int) (timeout : Int) :
    ServiceInfo × Option String :=
  let r := env.dial ip port timeout
  let responseTime := r.2
  match r.1 with
  | some err =>
    ({ Port := port, Protocol := "TCP", Service := getServiceNameNew port, Version := "",
       Banner := "", IsOpen := false, ResponseTime := responseTime }, some err)
  | none =>
    let banner := getBannerNew (env.read ip port timeout)
    let service := getServiceNameNew port
    let version := extractVersionNew banner service
    ({ Port := port, Protocol := "TCP", Service := service, Version := version,
       Banner := banner, IsOpen := true, ResponseTime := responseTime }, none)

/-- The ports of `for port := startPort; port <= endPort; port++`. -/
def portRange (startPort endPort : Int) : List Int :=
  (List.range (endPort + 1 - startPort).toNat).map (fun i => startPort + (i : Int))

/-- The port workers' critical sections, run in completion order: a worker
appends its record when `err == nil && serviceInfo.IsOpen`. -/
def collectOpen (env : Env) (ip : String) (timeout : Int) (completed : List Int) :
    List ServiceInfo :=
  completed.foldl
    (fun services p =>
      let r := scanPortNew env ip p timeout
      if r.2.isNone && r.1.IsOpen then services ++ [r.1] else services)
    []

/-- The record a port worker appends, if it appends one. -/
def openRecord (env : Env) (ip : String) (timeout : Int) (p : Int) : Option ServiceInfo :=
  if (scanPortNew env ip p timeout).2.isNone && (scanPortNew env ip p timeout).1.IsOpen then
    some (scanPortNew env ip p timeout).1
  else none

/-- The fan-out over `ports` behind a semaphore of `workers` slots, followed
by `wg.Wait()` and the sort by port. `sched` turns the list of started
workers into the order in which they complete. `none`: the call does not
return (`make(chan struct{}, workers)` panics for a negative size, and with
zero slots the first `sem <- struct{}{}` blocks forever). -/
def fanOut (env : Env) (ip : String) (timeout : Int) (workers : Int) (ports : List Int)
    (sched : List Int → List Int) : Option (List ServiceInfo × List Event) :=
  if workers < 0 then none
  else if workers = 0 ∧ ports ≠ [] then none
  else
    let completed := sched ports
    let services := collectOpen env ip timeout completed
    some (sortSlice (fun a b => decide (a.Port < b.Port)) services,
          completed.map (Event.dial ip))

/-- Go `scanHostNew`, with the trace of calls it made. -/
def scanHostNew (env : Env) (ip : String) (startPort endPort : Int) (timeout : Int)
    (workers : Int) (sched : List Int → List Int) : Option (HostInfo × List Event) :=
  let hostInfo : HostInfo :=
    { IP := ip, MAC := "", Vendor := "", Hostname := "", Services := [],
      IsReachable := false, ResponseTime := 0 }
  let r := env.ping ip timeout
  let hostInfo := { hostInfo with IsReachable := r.1, ResponseTime := r.2 }
  if !r.1 then some (hostInfo, [Event.ping ip])
  else
    let hostInfo := { hostInfo with Hostname := env.hostname ip }
    let mv := env.macVendor ip
    let hostInfo := { hostInfo with MAC := mv.1, Vendor := mv.2 }
    match fanOut env ip timeout workers (portRange startPort endPort) sched with
    | none => none
    | some (services, dials) =>
      some ({ hostInfo with Services := services },
            [Event.ping ip, Event.lookupAddr ip, Event.macLookup ip] ++ dials)

/-- Go `scanHostCustom`, with the trace of calls it made. -/
def scanHostCustom (env : Env) (ip : String) (startPort endPort : Int) (timeout : Int)
    (workers : Int) (customPorts : List Int) (ipsOnly : Bool) (sched : List Int → List Int) :
    Option (HostInfo × List Event) :=
  let hostInfo : HostInfo :=
    { IP := ip, MAC := "", Vendor := "", Hostname := "", Services := [],
      IsReachable := false, ResponseTime := 0 }
  let r := env.ping ip timeout
  let hostInfo := { hostInfo with IsReachable := r.1, ResponseTime := r.2 }
  if !r.1 then some (hostInfo, [Event.ping ip])
  else
    let hostInfo := { hostInfo with Hostname := env.hostname ip }
    let mv := env.macVendor ip
    let hostInfo := { hostInfo with MAC := mv.1, Vendor := mv.2 }
    if ipsOnly then
      some (hostInfo, [Event.ping ip, Event.lookupAddr ip, Event.macLookup ip])
    else
      let portsToScan :=
        if customPorts.length > 0 then customPorts else portRange startPort endPort
      match fanOut env ip timeout workers portsToScan sched with
      | none => none
      | some (services, dials) =>
        some ({ hostInfo with Services := services },
              [Event.ping ip, Event.lookupAddr ip, Event.macLookup ip] ++ dials)

/-- Go `PortScanner`. -/
structure PortScanner where
  hostWorkers : Int
  portWorkers : Int
deriving DecidableEq, Repr

/-- Go `NewPortScanner`. -/
def NewPortScanner (hostWorkers portWorkers : Int) : PortScanner :=
  { hostWorkers := hostWorkers, portWorkers := portWorkers }

/-- Host workers run to completion one after the other in the given order,
each result appended to the collected list, the traces concatenated; `none`
if a worker never finishes. -/
def runWorkers (scan : String → Option (HostInfo × List Event)) :
    List String → Option (List HostInfo × List Event)
  | [] => some ([], [])
  | ip :: rest =>
    match scan ip, runWorkers scan rest with
    | some (h, t), some (hs, ts) => some (h :: hs, t ++ ts)
    | _, _ => none

/-- Go `(*PortScanner).scanHosts`: one goroutine per address behind a
semaphore of `hostWorkers` slots; the results arrive on the channel in
completion order, which `hostSched` derives from the start order. Each host
has its own port schedule. -/
def PortScanner.scanHosts (ps : PortScanner) (env : Env) (ips : List String)
    (startPort endPort : Int) (timeout : Int) (hostSched : List String → List String)
    (portSched : String → List Int → List Int) : Option (List HostInfo × List Event) :=
  if ps.hostWorkers < 0 then none
  else if ps.hostWorkers = 0 ∧ ips ≠ [] then none
  else
    runWorkers
      (fun hostIP => scanHostNew env hostIP startPort endPort timeout ps.portWorkers
        (portSched hostIP))
      (hostSched ips)

/-- The text of a subnet `a.b.c.d/ones`, cut into its five decimal fields. -/
structure Subnet where
  a : Nat
  b : Nat
  c : Nat
  d : Nat
  ones : Nat
deriving DecidableEq, Repr

/-- The call `net.ParseCIDR(subnet)`. -/
def Subnet.parse (s : Subnet) : Option IPNet := ParseCIDR s.a s.b s.c s.d s.ones

/-- Go `(*PortScanner).ScanSubnet`: a parse error returns `nil` (here the
empty list); otherwise the enumeration loop runs (within `fuel`) and the
addresses go to `scanHosts`. -/
def PortScanner.ScanSubnet (ps : PortScanner) (env : Env) (subnet : Subnet)
    (startPort endPort : Int) (timeout : Int) (fuel : Nat)
    (hostSched : List String → List String) (portSched : String → List Int → List Int) :
    Option (List HostInfo × List Event) :=
  match subnet.parse with
  | none => some ([], [])
  | some ipnet =>
    match enumerate ipnet fuel with
    | none => none
    | some ips => ps.scanHosts env ips startPort endPort timeout hostSched portSched

/-! ## `main.go` -/

/-- The two errors of `parsePortList`. -/
inductive PortError where
  /-- The error `invalid port`: `strconv.Atoi` failed on the token. -/
  | invalid (token : String)
  /-- The error `port %d out of range (1-65535)`. -/
  | outOfRange (port : Int)
deriving DecidableEq, Repr

/-- Loop body of `parsePortList` over the comma-separated pieces. -/
def parsePortTokens : List (List Char) → List Int → Except PortError (List Int)
  | [], ports => .ok ports
  | tok :: rest, ports =>
    let portStr := trimSpace tok
    if portStr = [] then parsePortTokens rest ports
    else
      match atoi portStr with
      | none => .error (PortError.invalid ⟨portStr⟩)
      | some port =>
        if port < 1 ∨ port > 65535 then .error (PortError.outOfRange port)
        else parsePortTokens rest (ports ++ [port])

/-- Go `parsePortList`. -/
def parsePortList (portStr : String) : Except PortError (List Int) :=
  if portStr = "" then .ok []
  else parsePortTokens (splitOn ',' portStr.data) []

/-- The command-line flags of `main` after `flag.Parse()`. -/
structure Flags where
  subnet : String
  startPort : Int
  endPort : Int
  portList : String
  ipsOnly : Bool
  timeoutMs : Int
  focusedSearch : Bool
  searchTerm : String
  csvOutput : String
deriving DecidableEq, Repr

/-- The defaults declared in `main`. -/
def defaultFlags : Flags :=
  { subnet := "", startPort := 1, endPort := 1024, portList := "", ipsOnly := false,
    timeoutMs := 200, focusedSearch := false, searchTerm := "", csvOutput := "" }

/-- Lines 232–242 of `main`: the custom port list handed to both paths. An
error ends the process. -/
def mainCustomPorts (f : Flags) : Except PortError (List Int) :=
  if f.portList ≠ "" then parsePortList f.portList
  else if !f.ipsOnly then .ok getCommonPorts
  else .ok []

/-- Go `scanHostsNonInteractive`: ten workers take addresses from a channel
and call `scanHostCustom` with 20 port workers; results are collected in
completion order. -/
def scanHostsNonInteractive (env : Env) (ips : List String) (startPort endPort : Int)
    (timeout : Int) (customPorts : List Int) (ipsOnly : Bool)
    (hostSched : List String → List String) (portSched : String → List Int → List Int) :
    Option (List HostInfo × List Event) :=
  runWorkers
    (fun ip => scanHostCustom env ip startPort endPort timeout 20 customPorts ipsOnly
      (portSched ip))
    (hostSched ips)

/-- The scan of `runNonInteractiveMode` (lines 134–155): enumerate, then
`scanHostsNonInteractive` when `ipsOnly || len(customPorts) > 0`, else
`NewPortScanner(10, 50).ScanSubnet`. A parse error exits the process
(`none`). -/
def runNonInteractiveScan (env : Env) (targetSubnet : Subnet) (startPort endPort : Int)
    (timeoutMs : Int) (customPorts : List Int) (ipsOnly : Bool) (fuel : Nat)
    (hostSched : List String → List String) (portSched : String → List Int → List Int) :
    Option (List HostInfo × List Event) :=
  let timeout := timeoutMs * 1000000
  match targetSubnet.parse with
  | none => none
  | some ipnet =>
    match enumerate ipnet fuel with
    | none => none
    | some ips =>
      if ipsOnly ∨ customPorts.length > 0 then
        scanHostsNonInteractive env ips startPort endPort timeout customPorts ipsOnly
          hostSched portSched
      else
        (NewPortScanner 10 50).ScanSubnet env targetSubnet startPort endPort timeout fuel
          hostSched portSched

/-- The ports a trace shows as dialled on `ip`. -/
def probedPorts (trace : List Event) (ip : String) : List Int :=
  trace.filterMap (fun e =>
    match e with
    | Event.dial ip1 port => if ip1 = ip then some port else none
    | _ => none)

/-- A sample network: only `10.255.255.1` answers the ping, and only its
ports 22 and 80 accept a connection. -/
def sampleEnv : Env :=
  { ping := fun ip _ => (decide (ip = "10.255.255.1"), 5)
    hostname := fun _ => "gateway"
    macVendor := fun _ => ("00:11:22:33:44:55", "Acme")
    dial := fun _ port _ => (if port = 22 ∨ port = 80 then none else some "refused", 1)
    read := fun _ _ _ => none }

/-- The text of address number `k` of the `/30` block that holds `a.b.c.d`. -/
def slash30 (a b c d k : Nat) : String :=
  ipString (ofVal (ipVal [a, b, c, d] / 2 ^ (32 - 30) * 2 ^ (32 - 30) + k))

/-- The record of a host that does not answer. -/
def downRecord (env : Env) (ip : String) (timeout : Int) : HostInfo :=
  { IP := ip, MAC := "", Vendor := "", Hostname := "", Services := [], IsReachable := false,
    ResponseTime := (env.ping ip timeout).2 }

/-! ## Memory: backing arrays of `[]*HostInfo` slices -/

/-- Go slice header of a `[]*HostInfo` whose offset into its backing array is
zero (nothing in the program reslices): the address of the backing array
(`none` for the nil slice), length and capacity. -/
structure Slice where
  arr : Option Nat
  len : Nat
  cap : Nat
deriving DecidableEq, Repr

/-- The nil slice. -/
def Slice.nil : Slice := { arr := none, len := 0, cap := 0 }

/-- The heap of backing arrays. An address is an index into the list; an
array is the list of its initialised slots. -/
abbrev Mem := List (List HostInfo)

/-- The elements a slice shows: the first `len` slots of its backing array. -/
def Mem.read (m : Mem) (s : Slice) : List HostInfo :=
  match s.arr with
  | none => []
  | some a => (m.getD a []).take s.len

/-- Allocation of a new backing array with the given contents, at a fresh
address. -/
def Mem.alloc (m : Mem) (xs : List HostInfo) : Mem × Nat := (m ++ [xs], m.length)

/-- Go `s[i] = v`; `none` is the index-out-of-range panic. -/
def Mem.writeAt (m : Mem) (s : Slice) (i : Nat) (v : HostInfo) : Option Mem :=
  if i < s.len then
    match s.arr with
    | none => none
    | some a => some (m.set a ((m.getD a []).set i v))
  else none

/-- Go `append(s, v)` for one element: written in place behind the last
element while the capacity allows, else into a newly allocated array that
receives a copy of the elements. `grow` is the run time's growth policy,
which the language leaves open; the new capacity is at least `len + 1`. -/
def appendSlice (grow : Nat → Nat) (m : Mem) (s : Slice) (v : HostInfo) : Mem × Slice :=
  match s.arr with
  | some a =>
    if s.len < s.cap then
      (m.set a ((m.getD a []).take s.len ++ [v]), { s with len := s.len + 1 })
    else
      (m ++ [m.read s ++ [v]],
       { arr := some m.length, len := s.len + 1, cap := max (s.len + 1) (grow s.cap) })
  | none =>
    (m ++ [[v]], { arr := some m.length, len := 1, cap := max 1 (grow 0) })

/-- Go `sort.Slice(s, less)`: the elements of the slice are permuted within
its backing array. -/
def sortInPlace (less : HostInfo → HostInfo → Bool) (m : Mem) (s : Slice) : Mem :=
  match s.arr with
  | none => m
  | some a => m.set a (sortSlice less (m.read s) ++ (m.getD a []).drop s.len)

/-- The idiom `dst := make([]*HostInfo, len(src)); copy(dst, src)`: a new
array of exactly `len(src)` slots holding the elements of `src`. -/
def cloneSlice (m : Mem) (src : Slice) : Mem × Slice :=
  (m ++ [m.read src], { arr := some m.length, len := src.len, cap := src.len })

/-! ## `scan_state.go` -/

/-- Go `ScanState` without its mutex: each function below is one critical
section. -/
structure ScanState where
  isScanning : Bool
  scanStart : Int
  hostsScanned : Int
  totalHosts : Int
  activeHosts : Int
  openPorts : Int
  currentHost : String
  results : Slice
deriving DecidableEq, Repr

/-- The heap together with `globalScanState`. -/
structure World where
  mem : Mem
  gs : ScanState
deriving DecidableEq, Repr

/-- The state at program start: `globalScanState = &ScanState{}`. -/
def World.init : World :=
  { mem := [],
    gs :=
      { isScanning := false,
        scanStart := 0,
        hostsScanned := 0,
        totalHosts := 0,
        activeHosts := 0,
        openPorts := 0,
        currentHost := "",
        results := Slice.nil } }

/-- The state's own result list. -/
def World.results (w : World) : List HostInfo := w.mem.read w.gs.results

/-- Go `GetScanProgress`. -/
def GetScanProgress (w : World) : ScanProgress :=
  { CurrentHost := w.gs.currentHost, HostsScanned := w.gs.hostsScanned,
    TotalHosts := w.gs.totalHosts, ActiveHosts := w.gs.activeHosts,
    OpenPorts := w.gs.openPorts, StartTime := w.gs.scanStart, EndTime := 0 }

/-- Go `GetScanResults`: the copy is allocated on the heap, the state is
not touched. -/
def GetScanResults (w : World) : World × Slice :=
  let r := cloneSlice w.mem w.gs.results
  ({ w with mem := r.1 }, r.2)

/-- Go `IsScanComplete`. -/
def IsScanComplete (w : World) : Bool := !w.gs.isScanning

/-- First critical section of `StartTUIScan` (lines 56–63): the reset.
`[]*HostInfo{}` is a non-nil empty slice. -/
def beginScan (now : Int) (w : World) : World :=
  { mem := w.mem ++ [[]],
    gs :=
      { w.gs with
        isScanning := true,
        scanStart := now,
        hostsScanned := 0,
        activeHosts := 0,
        openPorts := 0,
        results := { arr := some w.mem.length, len := 0, cap := 0 } } }

/-- The critical section `isScanning = false` (lines 67–69 and 83–85). -/
def endScan (w : World) : World := { w with gs := { w.gs with isScanning := false } }

/-- The critical section `totalHosts = len(ips)` (lines 78–80). -/
def setTotal (ips : List String) (w : World) : World :=
  { w with gs := { w.gs with totalHosts := ips.length } }

/-- The worker's first critical section (lines 104–106). -/
def setCurrentHost (hostIP : String) (w : World) : World :=
  { w with gs := { w.gs with currentHost := hostIP } }

/-- The comparison of the `sort.Slice` call in `scanHostsWithTUIUpdates`. -/
def ipLess (a b : HostInfo) : Bool := decide (ipToInt a.IP < ipToInt b.IP)

/-- The worker's second critical section (lines 109–121). -/
def recordHost (grow : Nat → Nat) (hostInfo : HostInfo) (w : World) : World :=
  let gs := { w.gs with hostsScanned := w.gs.hostsScanned + 1 }
  if hostInfo.IsReachable then
    let gs :=
      { gs with
        activeHosts := gs.activeHosts + 1,
        openPorts := gs.openPorts + hostInfo.Services.length }
    let r := appendSlice grow w.mem gs.results hostInfo
    { mem := sortInPlace ipLess r.1 r.2, gs := { gs with results := r.2 } }
  else { mem := w.mem, gs := gs }

/-- The arguments of `StartTUIScan`. -/
structure ScanParams where
  targetSubnet : Subnet
  startPort : Int
  endPort : Int
  timeout : Int
  customPorts : List Int
  ipsOnly : Bool
deriving DecidableEq, Repr

/-- The call a worker of `scanHostsWithTUIUpdates` makes (line 107), with
`portWorkers = 100`. -/
def tuiScanHost (env : Env) (p : ScanParams) (hostIP : String) (sched : List Int → List Int) :
    Option (HostInfo × List Event) :=
  scanHostCustom env hostIP p.startPort p.endPort p.timeout 100 p.customPorts p.ipsOnly sched

/-- Where the goroutine of `StartTUIScan` stands. -/
inductive Phase where
  /-- No scan goroutine is running. -/
  | idle
  /-- After the reset, before `ParseCIDR` and the enumeration loop are done. -/
  | enumerating (p : ScanParams)
  /-- Inside `scanHostsWithTUIUpdates`: addresses whose worker is not yet
  started, workers started that have not yet set `currentHost`, and workers
  scanning their host. -/
  | scanning (p : ScanParams) (todo started running : List String)
deriving DecidableEq, Repr

/-- The program state: heap and scan state, the scan goroutine's position, and
the slices `GetScanResults` has handed to callers. -/
structure Config where
  world : World
  phase : Phase
  handed : List Slice
deriving DecidableEq, Repr

/-- The configuration at program start. -/
def Config.init : Config := { world := World.init, phase := Phase.idle, handed := [] }

/-- What a caller does to a slice it got from `GetScanResults`. -/
inductive CallerOp where
  /-- Assignment `s[i] = v`. -/
  | write (i : Nat) (v : HostInfo)
  /-- A call `sort.Slice(s, less)`, such as `sortHostsByIP(s)`. -/
  | sort (less : HostInfo → HostInfo → Bool)

/-- One caller operation on slice `s`; `none` is a panic. -/
def CallerOp.apply (m : Mem) (s : Slice) : CallerOp → Option Mem
  | CallerOp.write i v => m.writeAt s i v
  | CallerOp.sort less => some (sortInPlace less m s)

/-- A sequence of caller operations on slice `s`. -/
def applyOps (m : Mem) (s : Slice) : List CallerOp → Option Mem
  | [] => some m
  | op :: ops =>
    match op.apply m s with
    | none => none
    | some m1 => applyOps m1 s ops

/-- The atomic steps of the program around the shared scan state. A scan is
started only when none is running (the dashboard offers the rescan once the
previous scan is complete). -/
inductive Step : Config → Config → Prop where
  /-- A call of `StartTUIScan`: the goroutine performs the reset. -/
  | start (c : Config) (p : ScanParams) (now : Int) (h : c.phase = Phase.idle) :
      Step c { c with world := beginScan now c.world, phase := Phase.enumerating p }
  /-- Failure of `ParseCIDR`: the goroutine clears `isScanning` and ends. -/
  | parseFail (c : Config) (p : ScanParams) (h : c.phase = Phase.enumerating p)
      (hp : p.targetSubnet.parse = none) :
      Step c { c with world := endScan c.world, phase := Phase.idle }
  /-- The enumeration loop has returned `ips`: `totalHosts` is set. -/
  | enumerated (c : Config) (p : ScanParams) (ipnet : IPNet) (fuel : Nat) (ips : List String)
      (h : c.phase = Phase.enumerating p) (hp : p.targetSubnet.parse = some ipnet)
      (he : enumerate ipnet fuel = some ips) :
      Step c { c with world := setTotal ips c.world, phase := Phase.scanning p ips [] [] }
  /-- The loop of `scanHostsWithTUIUpdates` takes a semaphore slot (ten at
  most are taken) and starts the worker of the next address. -/
  | spawn (c : Config) (p : ScanParams) (ip : String) (todo started running : List String)
      (h : c.phase = Phase.scanning p (ip :: todo) started running)
      (hsem : started.length + running.length < 10) :
      Step c { c with phase := Phase.scanning p todo (started ++ [ip]) running }
  /-- A started worker sets `currentHost` and goes on to scan its host. -/
  | announce (c : Config) (p : ScanParams) (ip : String) (todo started running : List String)
      (h : c.phase = Phase.scanning p todo started running) (hip : ip ∈ started) :
      Step c
        { c with
          world := setCurrentHost ip c.world,
          phase := Phase.scanning p todo (started.erase ip) (running ++ [ip]) }
  /-- A worker's `scanHostCustom` has returned `hostInfo`: the worker records
  it and releases its slot. Workers complete in any order. -/
  | complete (c : Config) (p : ScanParams) (ip : String) (todo started running : List String)
      (env : Env) (sched : List Int → List Int) (grow : Nat → Nat) (hostInfo : HostInfo)
      (tr : List Event)
      (h : c.phase = Phase.scanning p todo started running) (hip : ip ∈ running)
      (hscan : tuiScanHost env p ip sched = some (hostInfo, tr)) :
      Step c
        { c with
          world := recordHost grow hostInfo c.world,
          phase := Phase.scanning p todo started (running.erase ip) }
  /-- All workers are done (`wg.Wait()` returns): `isScanning` is cleared. -/
  | finish (c : Config) (p : ScanParams) (h : c.phase = Phase.scanning p [] [] []) :
      Step c { c with world := endScan c.world, phase := Phase.idle }
  /-- A caller obtains a copy of the results. -/
  | observe (c : Config) :
      Step c
        { c with
          world := (GetScanResults c.world).1,
          handed := (GetScanResults c.world).2 :: c.handed }
  /-- A caller writes to or sorts a slice it obtained earlier. -/
  | caller (c : Config) (s : Slice) (op : CallerOp) (m : Mem) (hs : s ∈ c.handed)
      (hop : op.apply c.world.mem s = some m) :
      Step c { c with world := { c.world with mem := m } }

/-- The configurations the program can be in. -/
inductive Reachable : Config → Prop where
  /-- The program starts in the initial configuration. -/
  | init : Reachable Config.init
  /-- A step leads from a reachable configuration to a reachable one. -/
  | step (c c1 : Config) (hc : Reachable c) (hs : Step c c1) : Reachable c1

/-- Heap discipline: the state's result slice points into the heap, and so
does every slice handed to a caller, at an address other than the state's. -/
def Config.memOk (c : Config) : Prop :=
  (∀ a, c.world.gs.results.arr = some a → a < c.world.mem.length) ∧
  (∀ s ∈ c.handed, ∃ b, s.arr = some b ∧ b < c.world.mem.length ∧
    c.world.gs.results.arr ≠ some b)

/-- The counters, phase by phase: while workers are outstanding, the hosts
scanned and the hosts outstanding add up to the total. -/
def Config.countersOk (c : Config) : Prop :=
  0 ≤ c.world.gs.activeHosts ∧ c.world.gs.activeHosts ≤ c.world.gs.hostsScanned ∧
  match c.phase with
  | Phase.idle => c.world.gs.hostsScanned ≤ c.world.gs.totalHosts
  | Phase.enumerating _ => c.world.gs.hostsScanned = 0 ∧ 0 ≤ c.world.gs.totalHosts
  | Phase.scanning _ todo started running =>
    c.world.gs.hostsScanned + ((todo.length + started.length + running.length : Nat) : Int)
      = c.world.gs.totalHosts

/-! ## A sample run of the interactive scan -/

/-- Arguments of a sample scan of `10.255.255.0/30`. -/
def sampleParams : ScanParams :=
  { targetSubnet := ⟨10, 255, 255, 0, 30⟩, startPort := 1, endPort := 1024,
    timeout := 200000000, customPorts := [80, 443, 22], ipsOnly := false }

/-- The record the sample network yields for `10.255.255.1`. -/
def sampleHost : HostInfo :=
  { IP := "10.255.255.1", MAC := "00:11:22:33:44:55", Vendor := "Acme", Hostname := "gateway",
    Services :=
      [{ Port := 22, Protocol := "TCP", Service := "SSH", Version := "", Banner := "",
         IsOpen := true, ResponseTime := 1 },
       { Port := 80, Protocol := "TCP", Service := "HTTP", Version := "", Banner := "",
         IsOpen := true, ResponseTime := 1 }],
    IsReachable := true, ResponseTime := 5 }

/-- Sample run, after the reset. -/
def sampleRun1 : Config :=
  { Config.init with
    world := beginScan 1000 Config.init.world,
    phase := Phase.enumerating sampleParams }

/-- Sample run, after the enumeration. -/
def sampleRun2 : Config :=
  { sampleRun1 with
    world := setTotal ["10.255.255.0", "10.255.255.1", "10.255.255.2", "10.255.255.3"]
      sampleRun1.world,
    phase := Phase.scanning sampleParams
      ["10.255.255.0", "10.255.255.1", "10.255.255.2", "10.255.255.3"] [] [] }

/-- Sample run, after the first worker is started. -/
def sampleRun3 : Config :=
  { sampleRun2 with
    phase := Phase.scanning sampleParams ["10.255.255.1", "10.255.255.2", "10.255.255.3"]
      ([] ++ ["10.255.255.0"]) [] }

/-- Sample run, after the second worker is started. -/
def sampleRun4 : Config :=
  { sampleRun3 with
    phase := Phase.scanning sampleParams ["10.255.255.2", "10.255.255.3"]
      (([] ++ ["10.255.255.0"]) ++ ["10.255.255.1"]) [] }

/-- Sample run, after the second worker has set `currentHost`. -/
def sampleRun5 : Config :=
  { sampleRun4 with
    world := setCurrentHost "10.255.255.1" sampleRun4.world,
    phase := Phase.scanning sampleParams ["10.255.255.2", "10.255.255.3"]
      (List.erase (([] ++ ["10.255.255.0"]) ++ ["10.255.255.1"]) "10.255.255.1")
      ([] ++ ["10.255.255.1"]) }

/-- Sample run, after the second worker has recorded its reachable host. -/
def sampleRun6 : Config :=
  { sampleRun5 with
    world := recordHost (fun n => 2 * n) sampleHost sampleRun5.world,
    phase := Phase.scanning sampleParams ["10.255.255.2", "10.255.255.3"]
      (List.erase (([] ++ ["10.255.255.0"]) ++ ["10.255.255.1"]) "10.255.255.1")
      (List.erase ([] ++ ["10.255.255.1"]) "10.255.255.1") }

/-- Sample run, after a caller has fetched the results. -/
def sampleRun7 : Config :=
  { sampleRun6 with
    world := (GetScanResults sampleRun6.world).1,
    handed := (GetScanResults sampleRun6.world).2 :: sampleRun6.handed }

/-- What a sample caller does to the slice it fetched after `sampleRun6`:
it overwrites element 0 and sorts. -/
def sampleOps : List CallerOp :=
  [CallerOp.write 0 (downRecord sampleEnv "10.255.255.9" 0), CallerOp.sort ipLess]

/-- The heap after the sample caller's operations. -/
def sampleMemAfterOps : Mem :=
  (applyOps (GetScanResults sampleRun6.world).1.mem (GetScanResults sampleRun6.world).2
    sampleOps).getD []

/-- The arguments with which the dashboard (`NewModularUI`, then `Init` or the
rescan key) calls `StartTUIScan` for the flags and custom ports `main`
hands it: the timeout in milliseconds becomes a duration. -/
def mainScanParams (f : Flags) (targetSubnet : Subnet) (customPorts : List Int) : ScanParams :=
  { targetSubnet := targetSubnet, startPort := f.startPort, endPort := f.endPort,
    timeout := f.timeoutMs * 1000000, customPorts := customPorts, ipsOnly := f.ipsOnly }

/-! ## Descriptions used by the statements on `extractVersionNew` and `parsePortList` -/

/-- The version token at the head of a text, in the words of the
description: digits, a dot, digits, and if a dot and digits follow, these
too; every run of digits as long as it can be. -/
def versionTokenAt (l : List Char) : Option (List Char) :=
  let d1 := l.takeWhile Char.isDigit
  if d1.isEmpty then none
  else
    match l.dropWhile Char.isDigit with
    | '.' :: r2 =>
      let d2 := r2.takeWhile Char.isDigit
      if d2.isEmpty then none
      else
        match r2.dropWhile Char.isDigit with
        | '.' :: r4 =>
          let d3 := r4.takeWhile Char.isDigit
          if d3.isEmpty then some (d1 ++ '.' :: d2) else some (d1 ++ '.' :: d2 ++ '.' :: d3)
        | _ => some (d1 ++ '.' :: d2)
    | _ => none

/-- The leftmost version token of a text. -/
def leftmostVersionToken : List Char → Option (List Char)
  | [] => none
  | c :: r =>
    match versionTokenAt (c :: r) with
    | some t => some t
    | none => leftmostVersionToken r

/-- A run of decimal digits whose value is a port number. -/
def isPortToken (t : List Char) : Prop :=
  t ≠ [] ∧ t.all Char.isDigit = true ∧ 1 ≤ digitsVal t ∧ digitsVal t ≤ 65535

instance isPortToken_decidable (t : List Char) : Decidable (isPortToken t) := by
  unfold isPortToken
  infer_instance

/-- The numbers `parsePortList` is expected to return: the trimmed pieces
between the commas, the empty ones dropped, each read as a decimal number. -/
def portValues (portStr : String) : List Int :=
  (((splitOn ',' portStr.data).map trimSpace).filter (fun t => decide (t ≠ []))).map
    (fun t => (digitsVal t : Int))

/-- Whether a text begins with a word, letter case aside. -/
def wordAt : List Char → List Char → Bool
  | [], _ => true
  | _ :: _, [] => false
  | c :: w, x :: l => foldEq c x && wordAt w l

/-- The version that follows a product name: after a slash, or after white
space, the longest run of digits and dots, which is not empty. -/
def versionAfter (slash : Bool) (rest : List Char) : Option (List Char) :=
  let afterSep : Option (List Char) :=
    if slash then
      match rest with
      | c :: r => if c == '/' then some r else none
      | [] => none
    else if (rest.takeWhile reSpace).isEmpty then none
    else some (rest.dropWhile reSpace)
  match afterSep with
  | none => none
  | some r => if (r.takeWhile verChar).isEmpty then none else some (r.takeWhile verChar)

/-- The product name as written and the version, for a text that begins
with one of the names, the separator and a version. -/
def productVersionAt (names : List String) (slash : Bool) (l : List Char) :
    Option (List Char × List Char) :=
  names.findSome? (fun w =>
    if wordAt w.data l then
      (versionAfter slash (l.drop w.length)).map (fun v => (l.take w.length, v))
    else none)

/-- The product name and version of the leftmost place of a text where a
product name, the separator and a version stand. -/
def leftmostProductVersion (names : List String) (slash : Bool) :
    List Char → Option (List Char × List Char)
  | [] => none
  | c :: r =>
    match productVersionAt names slash (c :: r) with
    | some x => some x
    | none => leftmostProductVersion names slash r

/-- The services with a pattern of two groups: the product names and whether
a slash (rather than white space) separates name and version. -/
def productPatterns : List (String × List String × Bool) :=
  [("HTTP", ["Apache", "nginx", "IIS"], true),
   ("FTP", ["FileZilla", "vsftpd", "ProFTPD"], false),
   ("SMTP", ["Postfix", "Sendmail", "Exchange"], false)]

/-- The common shape of the patterns of HTTP, FTP and SMTP. -/
def productRe (w1 w2 w3 : String) (slash : Bool) : Re Char :=
  .seq (.cap 1 (.alt (Re.word w1) (.alt (Re.word w2) (Re.word w3))))
    (.seq (if slash then Re.lit '/' else .plus reSpace) (.cap 2 (.plus verChar)))

/-- A result of the matcher agrees with a product name and version: no match
for none, and otherwise the name as group 1 and the version as group 2. -/
def Agrees (e : Option (Pos Char × Caps Char)) (s : Option (List Char × List Char)) : Prop :=
  match s with
  | none => e = none
  | some nv => ∃ p whole, e = some (p, [(0, whole), (2, nv.2), (1, nv.1)])

/-- A text of the form digits, dot, digits, optionally followed by a dot and
digits. -/
def isVersionForm (t : List Char) : Prop :=
  ∃ d1 d2 d3 : List Char, d1 ≠ [] ∧ d2 ≠ [] ∧ (∀ c ∈ d1, c.isDigit = true)
    ∧ (∀ c ∈ d2, c.isDigit = true) ∧ (∀ c ∈ d3, c.isDigit = true)
    ∧ (t = d1 ++ '.' :: d2 ∨ (d3 ≠ [] ∧ t = d1 ++ '.' :: d2 ++ '.' :: d3))

/-! ## `vendor_enhanced.go`

Go strings are byte strings, and this file cuts them by byte (`mac[:8]`,
`vendor[:50]`, `len`), so its texts are modelled as lists of bytes. -/

/-- A Go string: its bytes. -/
abbrev Bytes := List Nat

/-- The bytes of a literal of ASCII characters. -/
def ascii (s : String) : Bytes := s.data.map Char.toNat

/-- Go `strings.HasPrefix`. -/
def hasPrefix (s pre : Bytes) : Bool := decide (s.take pre.length = pre)

/-- The white space runes of `unicode.IsSpace`, in UTF-8. -/
def spaceRunes : List Bytes :=
  [[9], [10], [11], [12], [13], [32], [0xC2, 0x85], [0xC2, 0xA0], [0xE1, 0x9A, 0x80],
   [0xE2, 0x80, 0x80], [0xE2, 0x80, 0x81], [0xE2, 0x80, 0x82], [0xE2, 0x80, 0x83],
   [0xE2, 0x80, 0x84], [0xE2, 0x80, 0x85], [0xE2, 0x80, 0x86], [0xE2, 0x80, 0x87],
   [0xE2, 0x80, 0x88], [0xE2, 0x80, 0x89], [0xE2, 0x80, 0x8A], [0xE2, 0x80, 0xA8],
   [0xE2, 0x80, 0xA9], [0xE2, 0x80, 0xAF], [0xE2, 0x81, 0x9F], [0xE3, 0x80, 0x80]]

/-- The length of the white space rune at the head of a text, 0 if the text
does not begin with one. -/
def spaceLen (l : Bytes) : Nat :=
  match spaceRunes.find? (fun r => hasPrefix l r) with
  | some r => r.length
  | none => 0

/-- The length of the white space rune at the end of a text, whose bytes are
given last first; 0 if the text does not end with one. -/
def spaceLenRev (l : Bytes) : Nat :=
  match spaceRunes.find? (fun r => hasPrefix l r.reverse) with
  | some r => r.length
  | none => 0

/-- Drop runes from the head while `len` finds one, at most `n` times. -/
def dropRunes (len : Bytes → Nat) : Nat → Bytes → Bytes
  | 0, l => l
  | n + 1, l => if len l = 0 then l else dropRunes len n (l.drop (len l))

/-- Go `strings.TrimSpace` on bytes: white space runes are dropped from the
left, then from the right. -/
def trimSpaceB (s : Bytes) : Bytes :=
  let left := dropRunes spaceLen s.length s
  (dropRunes spaceLenRev left.length left.reverse).reverse

/-- Go `strings.HasSuffix`. -/
def hasSuffix (s suffix : Bytes) : Bool :=
  decide (suffix.length ≤ s.length) && decide (s.drop (s.length - suffix.length) = suffix)

/-- Go `strings.TrimSuffix`. -/
def trimSuffix (s suffix : Bytes) : Bytes :=
  if hasSuffix s suffix then s.take (s.length - suffix.length) else s

/-- Go `strings.ToUpper`: a text of ASCII bytes has its letters `a` to `z`
raised; any other text goes through `strings.Map(unicode.ToUpper, s)`, which
is the parameter `up`. -/
def toUpper (up : Bytes → Bytes) (s : Bytes) : Bytes :=
  if s.all (fun b => decide (b < 128)) then
    s.map (fun b => if 97 ≤ b ∧ b ≤ 122 then b - 32 else b)
  else up s

/-- Go `strings.ReplaceAll(s, old, new)` for texts `old` and `new` of one byte. -/
def replaceByte (old new : Nat) (s : Bytes) : Bytes :=
  s.map (fun b => if b = old then new else b)

/-- Go `strings.Contains`. -/
def containsBytes (s sub : Bytes) : Bool :=
  (List.range (s.length + 1)).any (fun i => hasPrefix (s.drop i) sub)

/-- The list `suffixes` of `cleanVendorName`. -/
def corporateSuffixes : List Bytes :=
  [", Inc.", " Inc.", ", Corp.", " Corp.", ", Ltd.", " Ltd.", ", LLC", " LLC", ", Co.", " Co.",
   ", Inc", " Inc", ", Corp", " Corp"].map ascii

/-- The loop of `cleanVendorName`: the first suffix of the list that the name
ends with is cut off and the rest trimmed; then the loop is left. -/
def stripSuffix : List Bytes → Bytes → Bytes
  | [], vendor => vendor
  | suffix :: rest, vendor =>
    if hasSuffix vendor suffix then trimSpaceB (trimSuffix vendor suffix)
    else stripSuffix rest vendor

/-- Go `cleanVendorName`. -/
def cleanVendorName (vendor : Bytes) : Bytes :=
  let vendor := trimSpaceB vendor
  let vendor := stripSuffix corporateSuffixes vendor
  if vendor.length > 50 then vendor.take 50 ++ ascii "..." else vendor

/-- A Go `map[string]string` that is not nil: its entries, one for each key. -/
abbrev GoMap := List (Bytes × Bytes)

/-- The value `m[key]` with its `exists` flag. -/
def GoMap.get (m : GoMap) (key : Bytes) : Option Bytes := m.lookup key

/-- The map after `m[key] = value`. -/
def GoMap.set (m : GoMap) (key value : Bytes) : GoMap :=
  (key, value) :: m.filter (fun e => decide (e.1 ≠ key))

/-- The map `dst` after `maps.Copy(dst, src)`. -/
def mapsCopy (dst src : GoMap) : GoMap :=
  src.foldr (fun e m => m.set e.1 e.2) dst

/-- The literal of `getComprehensiveVendorDB`, in source order. -/
def vendorTable : List (String × String) :=
  [("00:50:56", "VMware"), ("00:0C:29", "VMware"), ("00:05:69", "VMware"),
   ("08:00:27", "VirtualBox"), ("52:54:00", "QEMU"), ("00:16:3E", "Xen"),
   ("00:03:FF", "Microsoft Hyper-V"), ("00:23:24", "Apple"), ("00:26:B9", "Apple"),
   ("3C:07:54", "Apple"), ("B8:E8:56", "Apple"), ("A4:C3:61", "Apple"),
   ("BC:52:B7", "Apple"), ("9C:FC:E8", "Apple"), ("78:7B:8A", "Apple"),
   ("98:FE:94", "Apple"), ("AC:BC:32", "Apple"), ("F0:18:98", "Apple"),
   ("1C:AB:A7", "Apple"), ("E8:9A:8F", "Apple"), ("28:CF:E9", "Apple"),
   ("98:B8:E3", "Apple"), ("34:AB:37", "Apple"), ("64:BC:0C", "Apple"),
   ("5C:97:F3", "Apple"), ("C0:C9:76", "Apple"), ("70:DE:E2", "Apple"),
   ("88:1D:FC", "Apple"), ("8C:2D:AA", "Apple"), ("48:60:BC", "Apple"),
   ("D8:96:95", "Apple"), ("B0:CA:68", "Apple"), ("8C:85:90", "Apple"),
   ("E0:F8:47", "Apple"), ("FC:E9:98", "Apple"), ("DC:56:E7", "Apple"),
   ("2C:BE:08", "Apple"), ("78:FD:94", "Apple"), ("80:92:9F", "Apple"),
   ("C8:69:CD", "Apple"), ("7C:6D:62", "Apple"), ("58:55:CA", "Apple"),
   ("3C:22:FB", "Apple"), ("EC:35:86", "Apple"), ("F4:37:B7", "Apple"),
   ("90:9C:4A", "Apple"), ("68:96:7B", "Apple"), ("84:38:35", "Apple"),
   ("04:E5:36", "Apple"), ("C4:8E:8F", "Apple"), ("14:7D:DA", "Apple"),
   ("28:E0:2C", "Apple"), ("A8:6D:AA", "Apple"), ("68:FE:F7", "Apple"),
   ("C8:2A:14", "Apple"), ("04:52:C7", "Apple"), ("20:78:F0", "Apple"),
   ("30:90:AB", "Apple"), ("60:F4:45", "Apple"), ("90:72:40", "Apple"),
   ("B4:F0:AB", "Apple"), ("C4:B3:01", "Apple"), ("D4:61:9D", "Apple"),
   ("E0:B9:BA", "Apple"), ("F8:1E:DF", "Apple"), ("0C:74:C2", "Apple"),
   ("18:34:51", "Apple"), ("24:A0:74", "Apple"), ("30:F7:C5", "Apple"),
   ("3C:D0:F8", "Apple"), ("48:A1:95", "Apple"), ("54:26:96", "Apple"),
   ("60:C5:47", "Apple"), ("6C:72:20", "Apple"), ("78:31:C1", "Apple"),
   ("84:85:06", "Apple"), ("90:B0:ED", "Apple"), ("9C:20:7B", "Apple"),
   ("A8:20:66", "Apple"), ("B4:18:D1", "Apple"), ("C0:56:27", "Apple"),
   ("CC:29:F5", "Apple"), ("D8:30:62", "Apple"), ("E4:CE:8F", "Apple"),
   ("F0:99:BF", "Apple"), ("FC:25:3F", "Apple"), ("00:1B:21", "Intel"),
   ("00:23:14", "Intel"), ("D4:BE:D9", "Intel"), ("AC:72:89", "Intel"),
   ("94:65:9C", "Intel"), ("A0:A8:CD", "Intel"), ("B4:96:91", "Intel"),
   ("00:90:27", "Intel"), ("00:E0:18", "Intel"), ("F4:06:69", "Intel"),
   ("00:13:E8", "Intel"), ("00:21:86", "Intel"), ("34:13:E8", "Intel"),
   ("18:56:80", "Intel"), ("E4:F4:C6", "Intel"), ("48:51:B7", "Intel"),
   ("78:92:9C", "Intel"), ("00:19:D1", "Intel"), ("00:24:D7", "Intel"),
   ("00:1F:3C", "Intel"), ("7C:7A:91", "Intel"), ("00:15:00", "Intel"),
   ("00:16:E3", "Intel"), ("00:1A:A0", "Intel"), ("00:1E:68", "Intel"),
   ("00:22:FB", "Intel"), ("00:25:64", "Intel"), ("3C:A9:F4", "Intel"),
   ("84:3A:4B", "Intel"), ("C4:34:6B", "Intel"), ("E0:DB:55", "Intel"),
   ("00:02:B3", "Intel"), ("00:07:E9", "Intel"), ("00:0E:0C", "Intel"),
   ("00:12:F0", "Intel"), ("00:18:DE", "Intel"), ("00:1C:BF", "Intel"),
   ("00:20:E0", "Intel"), ("00:24:81", "Intel"), ("68:05:CA", "Intel"),
   ("8C:A9:82", "Intel"), ("A4:BA:DB", "Intel"), ("00:AA:00", "Intel"),
   ("00:A0:C9", "Intel"), ("08:11:96", "Intel"), ("DC:A6:32", "Raspberry Pi Foundation"),
   ("B8:27:EB", "Raspberry Pi"), ("E4:5F:01", "Raspberry Pi"), ("28:CD:C1", "Raspberry Pi"),
   ("D8:3A:DD", "Raspberry Pi"), ("00:1D:25", "Samsung"), ("BC:14:01", "Samsung"),
   ("38:AA:3C", "Samsung"), ("94:8B:C1", "Samsung"), ("F4:7B:5E", "Samsung"),
   ("3C:28:6D", "Samsung"), ("C8:19:F7", "Samsung"), ("90:18:7C", "Samsung"),
   ("8C:77:12", "Samsung"), ("20:64:32", "Samsung"), ("68:EB:C5", "Samsung"),
   ("CC:03:FA", "Samsung"), ("EC:1F:72", "Samsung"), ("78:F8:82", "Samsung"),
   ("40:B0:FA", "Samsung"), ("74:45:CE", "Samsung"), ("D0:59:E4", "Samsung"),
   ("50:CC:F8", "Samsung"), ("A0:02:DC", "Samsung"), ("E8:50:8B", "Samsung"),
   ("1C:62:B8", "Samsung"), ("30:07:4D", "Samsung"), ("44:4E:6D", "Samsung"),
   ("58:67:1A", "Samsung"), ("6C:88:14", "Samsung"), ("80:A9:97", "Samsung"),
   ("94:E9:79", "Samsung"), ("A8:F2:74", "Samsung"), ("BC:25:E0", "Samsung"),
   ("D0:7E:35", "Samsung"), ("E4:A4:71", "Samsung"), ("F8:D0:BD", "Samsung"),
   ("F4:F5:D8", "Google"), ("DA:A1:19", "Google"), ("6C:AD:F8", "Google"),
   ("AC:37:43", "Google"), ("40:5B:D8", "Google"), ("F8:8F:CA", "Google"),
   ("44:07:0B", "Google"), ("E0:B7:B1", "Google"), ("54:60:09", "Google"),
   ("68:C6:3A", "Google"), ("7C:C3:A1", "Google"), ("90:E6:BA", "Google"),
   ("A4:DA:32", "Google"), ("B8:AD:28", "Google"), ("CC:3A:61", "Google"),
   ("00:FC:8B", "Amazon"), ("F0:27:2D", "Amazon"), ("68:37:E9", "Amazon"),
   ("AC:63:BE", "Amazon"), ("50:DC:E7", "Amazon"), ("84:D6:D0", "Amazon"),
   ("F8:04:2E", "Amazon"), ("CC:9E:A2", "Amazon"), ("18:74:2E", "Amazon"),
   ("2C:F0:5D", "Amazon"), ("40:B4:CD", "Amazon"), ("54:E4:3A", "Amazon"),
   ("68:54:ED", "Amazon"), ("7C:BB:8A", "Amazon"), ("90:E7:C4", "Amazon"),
   ("A4:50:46", "Amazon"), ("B8:8B:83", "Amazon"), ("CC:F7:35", "Amazon"),
   ("E0:AA:96", "Amazon"), ("F4:39:09", "Amazon"), ("00:50:F2", "Microsoft"),
   ("0C:8B:FD", "Microsoft"), ("18:60:24", "Microsoft"), ("20:82:C0", "Microsoft"),
   ("60:45:BD", "Microsoft"), ("7C:1E:52", "Microsoft"), ("A0:48:1C", "Microsoft"),
   ("34:17:EB", "Microsoft"), ("48:2A:E3", "Microsoft"), ("5C:79:C2", "Microsoft"),
   ("70:4C:A5", "Microsoft"), ("84:38:38", "Microsoft"), ("98:5F:D3", "Microsoft"),
   ("AC:22:0B", "Microsoft"), ("C0:38:F9", "Microsoft"), ("D4:81:D7", "Microsoft"),
   ("E8:92:A4", "Microsoft"), ("FC:15:B4", "Microsoft"), ("00:1B:FC", "ASUS"),
   ("BC:AE:C5", "ASUS"), ("D8:50:E6", "ASUS"), ("2C:56:DC", "ASUS"),
   ("AC:9E:17", "ASUS"), ("04:D4:C4", "ASUS"), ("70:4D:7B", "ASUS"),
   ("38:D5:47", "ASUS"), ("50:46:5D", "ASUS"), ("1C:87:2C", "ASUS"),
   ("30:5A:3A", "ASUS"), ("44:E9:DD", "ASUS"), ("58:11:22", "ASUS"),
   ("6C:62:6D", "ASUS"), ("80:91:33", "ASUS"), ("94:DE:80", "ASUS"),
   ("A8:5E:45", "ASUS"), ("BC:EE:7B", "ASUS"), ("D0:17:C2", "ASUS"),
   ("E4:70:B8", "ASUS"), ("F8:32:E4", "ASUS"), ("00:23:CD", "TP-Link"),
   ("14:CC:20", "TP-Link"), ("50:C7:BF", "TP-Link"), ("A4:2B:B0", "TP-Link"),
   ("C4:E9:84", "TP-Link"), ("EC:08:6B", "TP-Link"), ("F4:EC:38", "TP-Link"),
   ("1C:61:B4", "TP-Link"), ("98:DA:C4", "TP-Link"), ("B0:4E:26", "TP-Link"),
   ("4C:ED:FB", "TP-Link"), ("E8:DE:27", "TP-Link"), ("68:FF:7B", "TP-Link"),
   ("84:16:F9", "TP-Link"), ("AC:84:C6", "TP-Link"), ("18:A6:F7", "TP-Link"),
   ("2C:3E:CF", "TP-Link"), ("40:5D:82", "TP-Link"), ("54:A0:50", "TP-Link"),
   ("68:1C:A2", "TP-Link"), ("7C:8B:CA", "TP-Link"), ("90:F6:52", "TP-Link"),
   ("A4:91:B1", "TP-Link"), ("B8:A3:86", "TP-Link"), ("CC:32:E5", "TP-Link"),
   ("E0:28:6D", "TP-Link"), ("F4:92:BF", "TP-Link"), ("00:05:5D", "D-Link"),
   ("00:0D:88", "D-Link"), ("00:15:E9", "D-Link"), ("00:17:9A", "D-Link"),
   ("00:19:5B", "D-Link"), ("00:1B:11", "D-Link"), ("00:1C:F0", "D-Link"),
   ("00:1E:58", "D-Link"), ("00:21:91", "D-Link"), ("00:22:B0", "D-Link"),
   ("00:24:01", "D-Link"), ("00:26:5A", "D-Link"), ("14:D6:4D", "D-Link"),
   ("C8:D3:A3", "D-Link"), ("CC:B2:55", "D-Link"), ("28:10:7B", "D-Link"),
   ("3C:1E:04", "D-Link"), ("64:70:02", "D-Link"), ("78:54:2E", "D-Link"),
   ("8C:BE:BE", "D-Link"), ("A0:AB:1B", "D-Link"), ("B4:B5:2F", "D-Link"),
   ("C8:BE:19", "D-Link"), ("DC:53:7C", "D-Link"), ("F0:7D:68", "D-Link"),
   ("00:09:5B", "Netgear"), ("00:0F:B5", "Netgear"), ("00:14:6C", "Netgear"),
   ("00:18:4D", "Netgear"), ("00:1B:2F", "Netgear"), ("00:1E:2A", "Netgear"),
   ("00:22:3F", "Netgear"), ("00:24:B2", "Netgear"), ("00:26:F2", "Netgear"),
   ("20:4E:7F", "Netgear"), ("2C:30:33", "Netgear"), ("A0:04:60", "Netgear"),
   ("C0:3F:0E", "Netgear"), ("E0:46:9A", "Netgear"), ("04:A1:51", "Netgear"),
   ("18:1B:EB", "Netgear"), ("2C:B0:5D", "Netgear"), ("40:16:7E", "Netgear"),
   ("54:04:A6", "Netgear"), ("90:A4:DE", "Netgear"), ("A4:2B:8C", "Netgear"),
   ("B8:C7:5D", "Netgear"), ("CC:40:D0", "Netgear"), ("E0:91:F5", "Netgear"),
   ("00:06:25", "Linksys"), ("00:12:17", "Linksys"), ("00:13:10", "Linksys"),
   ("00:14:BF", "Linksys"), ("00:16:B6", "Linksys"), ("00:18:39", "Linksys"),
   ("00:1A:70", "Linksys"), ("00:1C:10", "Linksys"), ("00:1D:7E", "Linksys"),
   ("00:1E:E5", "Linksys"), ("00:20:A6", "Linksys"), ("00:21:29", "Linksys"),
   ("00:22:6B", "Linksys"), ("00:23:69", "Linksys"), ("00:25:9C", "Linksys"),
   ("48:F8:B3", "Linksys"), ("C4:41:1E", "Linksys"), ("14:91:82", "Linksys"),
   ("20:AA:4B", "Linksys"), ("28:C6:8E", "Linksys"), ("50:06:04", "Linksys"),
   ("64:09:80", "Linksys"), ("78:8A:20", "Linksys"), ("8C:04:BA", "Linksys"),
   ("A0:21:B7", "Linksys"), ("B4:75:0E", "Linksys"), ("C8:D7:19", "Linksys"),
   ("DC:EF:09", "Linksys"), ("F0:92:1C", "Linksys"), ("00:04:20", "Slim Devices"),
   ("00:04:61", "Linksys Group"), ("00:06:91", "Cacheflow"), ("00:07:32", "Cisco Aironet"),
   ("00:08:5B", "Compex"), ("00:09:2B", "Quantenna"), ("00:0A:27", "Apple"),
   ("00:0B:86", "Arima"), ("00:0C:6E", "SAT-Tech"), ("00:0D:54", "Dell"),
   ("00:0E:35", "Cisco Systems"), ("00:0F:1F", "AzureWave"), ("00:10:18", "Broadcom"),
   ("00:11:09", "Zoom"), ("00:12:0E", "Globalstar"), ("00:13:02", "Cisco Systems"),
   ("00:14:A4", "Cisco Systems"), ("00:15:62", "Cisco Systems"), ("00:16:01", "Ubee"),
   ("00:17:13", "Belkin"), ("00:18:8B", "Compex"), ("00:19:07", "Cisco Systems"),
   ("00:1A:1E", "Giga"), ("00:1B:63", "Apple"), ("00:1C:B3", "Apple"),
   ("00:1D:4F", "Apple"), ("00:1E:52", "Apple"), ("00:1F:5B", "Apple"),
   ("00:20:91", "Phast"), ("00:21:E9", "Dell"), ("00:22:58", "Cisco Systems"),
   ("00:23:DF", "Apple"), ("00:24:36", "Cisco Systems"), ("00:25:00", "Apple"),
   ("00:26:08", "Apple"), ("00:27:10", "Motorola"), ("00:50:BA", "Cisco Systems"),
   ("00:60:2F", "Cisco Systems"), ("00:90:4B", "Gemtek"), ("00:A0:C6", "Qualcomm"),
   ("00:B0:52", "Cisco Systems"), ("00:C0:49", "US Robotics"), ("00:D0:01", "Cisco Systems"),
   ("00:E0:14", "Cisco Systems"), ("08:00:07", "Apple"), ("10:40:F3", "Dell"),
   ("14:10:9F", "Cisco Systems"), ("18:03:73", "Cisco Systems"), ("1C:6F:65", "Foxconn"),
   ("20:02:AF", "Apple"), ("24:A4:3C", "Apple"), ("28:37:37", "Apple"),
   ("2C:B4:3A", "Apple"), ("30:65:EC", "Apple"), ("34:15:9E", "Apple"),
   ("38:C9:86", "Apple"), ("3C:15:C2", "Apple"), ("40:30:04", "Apple"),
   ("44:2A:60", "Apple"), ("48:3B:38", "Apple"), ("4C:56:9D", "Apple"),
   ("50:DE:06", "Apple"), ("58:B0:35", "Apple"), ("5C:F9:38", "Apple"),
   ("60:33:4B", "Apple"), ("64:20:0C", "Apple"), ("68:AB:1E", "Apple"),
   ("6C:19:8F", "Apple"), ("70:73:CB", "Apple"), ("74:E2:F5", "Apple"),
   ("78:4F:43", "Apple"), ("7C:C7:09", "Apple"), ("80:E6:50", "Apple"),
   ("84:A1:34", "Apple"), ("88:63:DF", "Apple"), ("8C:7C:92", "Apple"),
   ("90:84:0D", "Apple"), ("94:E6:F7", "Apple"), ("98:5A:EB", "Apple"),
   ("9C:04:EB", "Apple"), ("A0:99:9B", "Apple"), ("A4:D1:8C", "Apple"),
   ("A8:96:8A", "Apple"), ("AC:87:A3", "Apple"), ("B0:65:BD", "Apple"),
   ("B4:F7:A1", "Apple"), ("BC:67:1C", "Apple"), ("C0:84:7A", "Apple"),
   ("C4:2C:03", "Apple"), ("C8:E0:EB", "Apple"), ("CC:25:EF", "Apple"),
   ("D0:03:4B", "Apple"), ("D4:9A:20", "Apple"), ("D8:BB:2C", "Apple"),
   ("DC:2B:2A", "Apple"), ("E0:33:8E", "Apple"), ("E4:8B:7F", "Apple"),
   ("E8:40:F2", "Apple"), ("EC:8C:A2", "Apple"), ("F0:B4:79", "Apple"),
   ("F4:1B:A1", "Apple"), ("F8:A9:D0", "Apple"), ("FC:FC:48", "Apple")]

/-- Go `getComprehensiveVendorDB`. -/
def getComprehensiveVendorDB : GoMap := vendorTable.map (fun e => (ascii e.1, ascii e.2))

/-- Go `getLocalVendor`. The order in which `range` visits the map is not
specified; `order` gives it. -/
def getLocalVendor (up : Bytes → Bytes) (order : GoMap → GoMap) (mac : Bytes) : Bytes :=
  if mac.length < 8 then []
  else
    let vendors := getComprehensiveVendorDB
    let oui := toUpper up (mac.take 8)
    match vendors.get oui with
    | some vendor => vendor
    | none =>
      match (order vendors).find? (fun e => hasPrefix (toUpper up mac) e.1) with
      | some e => e.2
      | none => ascii "Unknown"

/-- The lines that `bufio.ScanLines` cuts a text into: the pieces before each
newline and, if not empty, the piece after the last one. -/
def linesOf : Bytes → List Bytes
  | [] => []
  | b :: rest =>
    if b = 10 then [] :: linesOf rest
    else
      match linesOf rest with
      | [] => [[b]]
      | l :: ls => (b :: l) :: ls

/-- The `dropCR` of `bufio`: one carriage return at the end is dropped. -/
def dropCR (l : Bytes) : Bytes :=
  if l.getLast? = some 13 then l.dropLast else l

/-- The texts that `scanner.Text()` yields over the loop
`for scanner.Scan()` of a `bufio.NewScanner`: the lines in order, up to the
first line of 65536 bytes or more, on which `Scan` gives up. -/
def scannerTexts (content : Bytes) : List Bytes :=
  ((linesOf content).takeWhile (fun l => decide (l.length < 65536))).map dropCR

/-- The class `[0-9A-F]`. -/
def hexUpper (b : Nat) : Bool := (48 ≤ b && b ≤ 57) || (65 ≤ b && b ≤ 70)

/-- The class `\s` on bytes. -/
def reSpaceB (b : Nat) : Bool := b == 9 || b == 10 || b == 12 || b == 13 || b == 32

/-- The literal byte `b`. -/
def Re.byte (b : Nat) : Re Nat := .set (fun x => x == b)

/-- The part `\s+\(hex\)\s+(.+)$` of the pattern of `parseOUIContent`, on
bytes. The dot of the pattern stands for any rune but the newline; as `.+`
runs to the end of the text here, it takes the same bytes as a run of bytes
other than the newline. -/
def ouiNameRe : Re Nat :=
  .seq (.plus reSpaceB)
    (.seq (Re.ofList ((ascii "(hex)").map Re.byte))
      (.seq (.plus reSpaceB)
        (.seq (.cap 2 (.plus (fun b => b != 10))) .eot)))

/-- The pattern `^([0-9A-F]{2}-[0-9A-F]{2}-[0-9A-F]{2})\s+\(hex\)\s+(.+)$` of
`parseOUIContent`, on bytes. -/
def ouiRegex : Re Nat :=
  .seq .bot
    (.seq (.cap 1 (Re.ofList [.set hexUpper, .set hexUpper, Re.byte 45, .set hexUpper,
        .set hexUpper, Re.byte 45, .set hexUpper, .set hexUpper]))
      ouiNameRe)

/-- One turn of the loop of `parseOUIContent` on the text of a line. -/
def parseOUILine (tempCache : GoMap) (text : Bytes) : GoMap :=
  let line := trimSpaceB text
  if line.isEmpty || hasPrefix line (ascii "#") then tempCache
  else
    match findStringSubmatch ouiRegex 2 line with
    | none => tempCache
    | some found =>
      if found.length = 3 then
        let oui := replaceByte 45 58 (found.getD 1 [])
        let vendor := trimSpaceB (found.getD 2 [])
        let vendor := cleanVendorName vendor
        tempCache.set oui vendor
      else tempCache

/-- Go `parseOUIContent`, as the value of `ieeeOUICache` afterwards. -/
def parseOUIContent (content : Bytes) (ieeeOUICache : GoMap) : GoMap :=
  let tempCache := (scannerTexts content).foldl parseOUILine []
  mapsCopy ieeeOUICache tempCache

/-- What the files and the network answer during one call of
`getEnhancedVendor`. -/
structure VendorEnv where
  /-- The entries that `json.Unmarshal` takes from `vendor_cache.json`; `none`
  when the file cannot be read. A file that holds the JSON value `null` is
  outside the model. -/
  vendorFile : Option GoMap
  /-- The entries that `json.Unmarshal` takes from `ieee_oui_cache.json`; `none`
  when the file cannot be read. -/
  ouiFile : Option GoMap
  /-- The text of `oui.txt`, when the file exists, is younger than 30 days and
  can be read. -/
  localRegistry : Option Bytes
  /-- The registry text that the download delivers, when the request is
  answered with status 200, the local file can be created and the body read. -/
  download : Option Bytes
  /-- The body of the answer of `api.macvendors.com` for an OUI without its
  colons, when the request is answered with status 200 and the body read. -/
  online : Bytes → Option Bytes
  /-- The order in which `range` visits a map. -/
  order : GoMap → GoMap

/-- A step of `getEnhancedVendor` beyond the resolved cache. -/
inductive VendorEvent where
  /-- The call of `loadVendorCache`. -/
  | readVendorFile
  /-- The call of `loadIEEEOUICache`. -/
  | readOUIFile
  /-- The call of `downloadAndParseIEEEOUI`: the local registry file and, if
  that does not fill the cache, the download. -/
  | fetchRegistry
  /-- The lookup `ieeeOUICache[oui]`. -/
  | lookupOUICache (oui : Bytes)
  /-- The call `getLocalVendor(mac)`. -/
  | lookupStatic (mac : Bytes)
  /-- The call `getOnlineVendor(oui)`. -/
  | askOnline (oui : Bytes)
  /-- The call `go saveVendorCache()`. -/
  | saveVendorCache
deriving DecidableEq, Repr

/-- The two caches of the process. -/
structure VendorState where
  /-- The variable `vendorCache`: the resolved cache. -/
  vendorCache : GoMap
  /-- The variable `ieeeOUICache`: the OUI cache. -/
  ieeeOUICache : GoMap
deriving DecidableEq, Repr

/-- The caches of a process that has just started. -/
def VendorState.init : VendorState := { vendorCache := [], ieeeOUICache := [] }

/-- Go `loadVendorCache` and `loadIEEEOUICache`, as the value of the map
afterwards: the entries of the file are stored in the map. -/
def loadCache (file : Option GoMap) (cache : GoMap) : GoMap :=
  match file with
  | none => cache
  | some entries => mapsCopy cache entries

/-- Go `downloadAndParseIEEEOUI`, as the value of `ieeeOUICache` afterwards. -/
def downloadAndParseIEEEOUI (env : VendorEnv) (ieeeOUICache : GoMap) : GoMap :=
  let afterLocal :=
    match env.localRegistry with
    | some content => parseOUIContent content ieeeOUICache
    | none => ieeeOUICache
  if env.localRegistry.isSome && !afterLocal.isEmpty then afterLocal
  else
    match env.download with
    | none => afterLocal
    | some content => parseOUIContent content afterLocal

/-- The part of `getEnhancedVendor` that fills an empty OUI cache, as the
value of `ieeeOUICache` afterwards and the steps taken. -/
def lazyLoadOUI (env : VendorEnv) (ieeeOUICache : GoMap) : GoMap × List VendorEvent :=
  if ieeeOUICache.isEmpty then
    let loaded := loadCache env.ouiFile ieeeOUICache
    if loaded.isEmpty then
      (downloadAndParseIEEEOUI env loaded, [.readOUIFile, .fetchRegistry])
    else (loaded, [.readOUIFile])
  else (ieeeOUICache, [])

/-- Go `getOnlineVendor`. -/
def getOnlineVendor (env : VendorEnv) (oui : Bytes) : Bytes :=
  match env.online (oui.filter (fun b => decide (b ≠ 58))) with
  | none => []
  | some body =>
    let vendor := trimSpaceB body
    if !vendor.isEmpty && !containsBytes vendor (ascii "error") then vendor else []

/-- Go `getEnhancedVendor`, one call run to its end before the next: the
value returned, the caches afterwards, and the steps taken beyond the
resolved cache. -/
def getEnhancedVendor (up : Bytes → Bytes) (env : VendorEnv) (st : VendorState)
    (mac : Bytes) : Bytes × VendorState × List VendorEvent :=
  if mac.length < 8 then ([], st, [])
  else
    let oui := toUpper up (mac.take 8)
    match st.vendorCache.get oui with
    | some vendor => (vendor, st, [])
    | none =>
      let vendorCacheEmpty := st.vendorCache.isEmpty
      let vendorCache :=
        if vendorCacheEmpty then loadCache env.vendorFile st.vendorCache else st.vendorCache
      let ev1 : List VendorEvent := if vendorCacheEmpty then [.readVendorFile] else []
      let oc := lazyLoadOUI env st.ieeeOUICache
      let ieeeOUICache := oc.1
      let ev2 := ev1 ++ oc.2 ++ [.lookupOUICache oui]
      match ieeeOUICache.get oui with
      | some vendor =>
        (vendor, { vendorCache := vendorCache.set oui vendor, ieeeOUICache := ieeeOUICache }, ev2)
      | none =>
        let vendor := getLocalVendor up env.order mac
        let ev3 := ev2 ++ [.lookupStatic mac]
        if vendor ≠ [] ∧ vendor ≠ ascii "Unknown" then
          (vendor, { vendorCache := vendorCache.set oui vendor, ieeeOUICache := ieeeOUICache },
            ev3)
        else
          let vendor := getOnlineVendor env oui
          let ev4 := ev3 ++ [.askOnline oui]
          if vendor ≠ [] then
            (vendor, { vendorCache := vendorCache.set oui vendor, ieeeOUICache := ieeeOUICache },
              ev4 ++ [.saveVendorCache])
          else
            (ascii "Unknown",
              { vendorCache := vendorCache.set oui (ascii "Unknown"),
                ieeeOUICache := ieeeOUICache },
              ev4)

/-- A run of calls of `getEnhancedVendor` that do not overlap, each run to its
end before the next begins: the caches afterwards. The workers of a scan
call the function concurrently; runs in which the calls overlap are those
of `Process.run`. -/
def runLookups (up : Bytes → Bytes) (st : VendorState) :
    List (VendorEnv × Bytes) → VendorState
  | [] => st
  | (env, mac) :: rest => runLookups up (getEnhancedVendor up env st mac).2.1 rest

/-! ## Descriptions used by the statements on the vendor functions -/

/-- The first entry of the suffix list that a name ends with. -/
def firstSuffix (name : Bytes) : Option Bytes :=
  corporateSuffixes.find? (fun suffix => hasSuffix name suffix)

/-- A trimmed name without its first listed suffix, trimmed again; the name
itself when it ends with no listed suffix. -/
def withoutFirstSuffix (name : Bytes) : Bytes :=
  match firstSuffix name with
  | some suffix => trimSpaceB (name.take (name.length - suffix.length))
  | none => name

/-- A name cut to its first 50 bytes and three dots when it is longer. -/
def cutAt50 (name : Bytes) : Bytes :=
  if name.length > 50 then name.take 50 ++ ascii "..." else name

/-- The name of a registry line, from what follows the prefix: white space,
`(hex)`, white space, and then the name, which is not empty. -/
def registryName (rest : Bytes) : Option Bytes :=
  if (rest.takeWhile reSpaceB).isEmpty then none
  else if hasPrefix (rest.dropWhile reSpaceB) (ascii "(hex)") then
    let afterHex := (rest.dropWhile reSpaceB).drop 5
    if (afterHex.takeWhile reSpaceB).isEmpty then none
    else if (afterHex.dropWhile reSpaceB).isEmpty then none
    else some (afterHex.dropWhile reSpaceB)
  else none

/-- A registry line in the words of the description: two upper-case hex
digits three times, joined by dashes, then white space, `(hex)`, white space
and a name. The result is the prefix with colons for the dashes, and the
name. -/
def registryLine (line : Bytes) : Option (Bytes × Bytes) :=
  match line with
  | a :: b :: d1 :: c :: d :: d2 :: e :: f :: rest =>
    if hexUpper a && hexUpper b && d1 == 45 && hexUpper c && hexUpper d && d2 == 45
        && hexUpper e && hexUpper f then
      (registryName rest).map (fun name => ([a, b, 58, c, d, 58, e, f], name))
    else none
  | _ => none

/-- The prefixes and names that the lines of a registry text give, in the
order of the lines, each line without its line end and trimmed. -/
def registryEntries (content : Bytes) : List (Bytes × Bytes) :=
  ((linesOf content).map (fun l => trimSpaceB (dropCR l))).filterMap registryLine

/-- The name that the last line of a registry text with the prefix `key`
gives. -/
def lastNamed (content : Bytes) (key : Bytes) : Option Bytes :=
  (registryEntries content).reverse.lookup key

/-- A surrounding in which no file can be read and no request is answered. -/
def quietEnv : VendorEnv :=
  { vendorFile := none
    ouiFile := none
    localRegistry := none
    download := none
    online := fun _ => none
    order := fun m => m }

/-- A surrounding like `quietEnv`, but with a saved OUI cache file that holds
one entry, for the prefix `00:03:FF`. -/
def savedOUIEnv : VendorEnv :=
  { quietEnv with
    ouiFile := some [(ascii "00:03:FF", ascii "Microsoft Corporation")] }

/-! ## `main.go`: `sortHostsByIP` -/

/-- One field of the `parseIPv4` of `net/netip`: decimal digits, not empty,
no leading zero before another digit, the value at most 255. -/
def parseOctet (field : List Char) : Option Nat :=
  if field ≠ [] ∧ field.all Char.isDigit ∧ (field.length = 1 ∨ field.head? ≠ some '0')
      ∧ digitsVal field ≤ 255 then
    some (digitsVal field)
  else none

/-- The `parseIPv4` of `net/netip`: four fields between three dots. -/
def parseIPv4 (s : List Char) : Option IP :=
  match (splitOn '.' s).map parseOctet with
  | [some a, some b, some c, some d] => some [a, b, c, d]
  | _ => none

/-- Go `net.ParseIP`: the first dot, colon or percent sign of the text
decides. Text with a dot first is IPv4 and is returned in its 16-byte form;
text with a colon first goes to the IPv6 parser, which is the parameter
`v6`; anything else is no address (`none` is the nil `IP`). -/
def ParseIP (v6 : String → Option IP) (s : String) : Option IP :=
  match s.data.find? (fun c => c == '.' || c == ':' || c == '%') with
  | none => none
  | some c =>
    if c == '.' then
      (parseIPv4 s.data).map (fun ip => [0, 0, 0, 0, 0, 0, 0, 0, 0, 0, 255, 255] ++ ip)
    else if c == ':' then v6 s
    else none

/-- Go `IP.To4`: a 4-byte address as it is, a 16-byte address with the
IPv4-in-IPv6 prefix as its last four bytes, anything else nil. -/
def To4 (ip : IP) : Option IP :=
  if ip.length = 4 then some ip
  else if ip.length = 16 ∧ (ip.take 10).all (fun b => b == 0) ∧ ip.getD 10 0 = 255
      ∧ ip.getD 11 0 = 255 then
    some (ip.drop 12)
  else none

/-- The loop `for k := range 4` of the comparison: the first pair of bytes
that differ decides, equal addresses are not less. -/
def octetLess : List Nat → List Nat → Bool
  | x :: xs, y :: ys => if x ≠ y then decide (x < y) else octetLess xs ys
  | _, _ => false

/-- The comparison of `sortHostsByIP`, on the IP texts of two hosts. Go
compares strings byte by byte; for texts that are valid UTF-8 this is the
order of their runes, first difference first, which is how the texts are
compared here. -/
def ipTextLess (v6 : String → Option IP) (a b : String) : Bool :=
  match ParseIP v6 a, ParseIP v6 b with
  | some ipI, some ipJ =>
    match To4 ipI, To4 ipJ with
    | some x, some y => octetLess x y
    | _, _ => decide (a.data < b.data)
  | _, _ => decide (a.data < b.data)

/-- Go `sortHostsByIP`, as the contents of the slice afterwards. -/
def sortHostsByIP (v6 : String → Option IP) (hosts : List HostInfo) : List HostInfo :=
  sortSlice (fun a b => ipTextLess v6 a.IP b.IP) hosts

/-! ## `main.go`: `exportToCSV` -/

/-- Go `fmt.Sprintf("%d", n)`. -/
def formatInt (n : Int) : String :=
  if n < 0 then "-" ++ Nat.repr n.natAbs else Nat.repr n.natAbs

/-- Go `strings.Join` on strings. -/
def joinStrings (sep : String) (parts : List String) : String :=
  ⟨joinWith sep.data (parts.map String.data)⟩

/-- What the file system answers to `exportToCSV`, and the formatting of the
response time. -/
structure CsvEnv where
  /-- The error of `os.Create(filename)`, if any. -/
  create : Option String
  /-- The error of the call number `n` of `writer.Write`, if any. -/
  writeError : Nat → Option String
  /-- The text `fmt.Sprintf("%.2f", float64(ns)/1000000.0)` for a response time
  of `ns` nanoseconds. -/
  formatMillis : Int → String

/-- The variable `header` of `exportToCSV`. -/
def csvHeader : List String :=
  ["IP Address", "MAC Address", "Vendor", "Hostname", "Is Reachable", "Response Time (ms)",
   "Open Ports", "Services"]

/-- The variable `serviceDetail` of `exportToCSV` for one service. -/
def serviceDetail (service : ServiceInfo) : String :=
  let detail := formatInt service.Port ++ "/" ++ service.Service
  if service.Version ≠ "" then detail ++ (" (" ++ service.Version ++ ")") else detail

/-- The variable `row` of `exportToCSV` for one host. -/
def csvRow (env : CsvEnv) (host : HostInfo) : List String :=
  let portList := host.Services.map (fun service => formatInt service.Port)
  let serviceList := host.Services.map serviceDetail
  [host.IP, host.MAC, host.Vendor, host.Hostname,
   if host.IsReachable then "true" else "false",
   env.formatMillis host.ResponseTime,
   joinStrings ";" portList,
   joinStrings ";" serviceList]

/-- The loop of `exportToCSV` from call number `n` of `writer.Write` on: the
records handed to the writer without error, and the error that ended the
loop, if any. -/
def writeRows (env : CsvEnv) : Nat → List HostInfo → List (List String) × Option String
  | _, [] => ([], none)
  | n, host :: rest =>
    match env.writeError n with
    | some err => ([], some err)
    | none =>
      let r := writeRows env (n + 1) rest
      (csvRow env host :: r.1, r.2)

/-- Go `exportToCSV`: the records handed to the CSV writer without error, in
order, and the error returned. How the writer lays a record out as a line
of text is the library's matter. -/
def exportToCSV (env : CsvEnv) (hosts : List HostInfo) : List (List String) × Option String :=
  match env.create with
  | some err => ([], some err)
  | none =>
    match env.writeError 0 with
    | some err => ([], some err)
    | none =>
      let r := writeRows env 1 hosts
      (csvHeader :: r.1, r.2)

/-! ## `tui_utils.go` -/

/-- The loop of `fuzzyMatch`, on what is left of the text from `textIndex`
and of the pattern from `patternIndex`; the value is that of
`patternIndex == len(pattern)` after the loop. -/
def fuzzyLoop : Bytes → Bytes → Bool
  | _, [] => true
  | [], _ :: _ => false
  | t :: text, p :: pattern =>
    if t = p then fuzzyLoop text pattern else fuzzyLoop text (p :: pattern)

/-- Go `fuzzyMatch`, on the bytes of the two strings. -/
def fuzzyMatch (text pattern : Bytes) : Bool :=
  if pattern.isEmpty then true
  else if containsBytes text pattern then true
  else fuzzyLoop text pattern

/-- The keys of `vendorMap` in `getUniqueVendors`, listed in the order in
which the first loop adds them. -/
def vendorKeys (results : List HostInfo) : List String :=
  ((results.map (fun host => host.Vendor)).filter
    (fun vendor => decide (vendor ≠ "" ∧ vendor ≠ "Unknown"))).eraseDups

/-- Go `getUniqueVendors`. The order in which `range` visits the map is not
specified; `order` gives it, as a rearrangement of the keys. -/
def getUniqueVendors (order : List String → List String) (results : List HostInfo) :
    String :=
  let vendorMap := vendorKeys results
  if vendorMap.length = 0 then "None detected"
  else
    let vendors := order vendorMap
    if vendors.length > 5 then
      joinStrings ", " (vendors.take 5) ++ " and " ++ formatInt (vendors.length - 5 : Nat)
        ++ " more"
    else joinStrings ", " vendors

/-! ## Descriptions used by the statements on `parsePortList`, `sortHostsByIP`,
`getUniqueVendors` and `getLocalVendor` -/

/-- A token without its sign, if it begins with one. -/
def unsignedPart (t : List Char) : List Char :=
  match t with
  | c :: r => if c = '+' ∨ c = '-' then r else c :: r
  | [] => []

/-- A numeric token: an optional sign and one or more decimal digits. -/
def isNumeric (t : List Char) : Bool :=
  !(unsignedPart t).isEmpty && (unsignedPart t).all Char.isDigit

/-- The number a numeric token stands for. -/
def numericValue (t : List Char) : Int :=
  if t.head? = some '-' then -(digitsVal (unsignedPart t) : Int)
  else (digitsVal (unsignedPart t) : Int)

/-- A token that is non-numeric or lies outside 1..65535. -/
def badPortToken (t : List Char) : Prop :=
  isNumeric t = false ∨ numericValue t < 1 ∨ numericValue t > 65535

instance badPortToken_decidable (t : List Char) : Decidable (badPortToken t) := by
  unfold badPortToken
  infer_instance

/-- A surrounding in which the file is created and every write succeeds. -/
def sampleCsvEnv : CsvEnv :=
  { create := none
    writeError := fun _ => none
    formatMillis := fun _ => "50.00" }

/-- A host with the services 22/SSH and 80/HTTP, the second with a version. -/
def sampleCsvHost : HostInfo :=
  { IP := "192.168.1.1", MAC := "AA:BB:CC:DD:EE:FF", Vendor := "Test Vendor",
    Hostname := "test-host",
    Services :=
      [{ Port := 22, Protocol := "TCP", Service := "SSH", Version := "", Banner := "",
         IsOpen := true, ResponseTime := 0 },
       { Port := 80, Protocol := "TCP", Service := "HTTP", Version := "1.1", Banner := "",
         IsOpen := true, ResponseTime := 0 }],
    IsReachable := true, ResponseTime := 50000000 }

/-- A host without services. -/
def sampleBareHost : HostInfo :=
  { IP := "192.168.1.2", MAC := "", Vendor := "", Hostname := "", Services := [],
    IsReachable := false, ResponseTime := 0 }

/-- A host with a vendor and nothing else. -/
def vendorHost (vendor : String) : HostInfo :=
  { IP := "", MAC := "", Vendor := vendor, Hostname := "", Services := [],
    IsReachable := true, ResponseTime := 0 }

/-- The hosts of the test of `getUniqueVendors`: Dell, HP, Dell. -/
def dellHpDell : List HostInfo := [vendorHost "Dell", vendorHost "HP", vendorHost "Dell"]

/-- The four octets that an IP text parses to as an IPv4 address, if it
does: `net.ParseIP` and then `To4`. -/
def octetsOf (v6 : String → Option IP) (s : String) : Option IP :=
  match ParseIP v6 s with
  | some ip => To4 ip
  | none => none

/-- A host with an IP text and nothing else. -/
def ipHost (ip : String) : HostInfo :=
  { IP := ip, MAC := "", Vendor := "", Hostname := "", Services := [], IsReachable := true,
    ResponseTime := 0 }

/-- An IPv6 parser that accepts nothing. -/
def noV6 : String → Option IP := fun _ => none

/-- The counters of the scan state agree with its result list: as many
active hosts as hosts in the list, as many open ports as services in all of
them. -/
def World.agrees (w : World) : Prop :=
  w.gs.activeHosts = (w.results.length : Int)
    ∧ w.gs.openPorts = (((w.results.map (fun host => host.Services.length)).sum : Nat) : Int)

/-- The bytes of which the keys of the static table are made: upper-case hex
digits and the colon. -/
def keyByte (b : Nat) : Bool := hexUpper b || b == 58

/-- What the statement on `getLocalVendor` asks of `strings.Map(unicode.ToUpper, s)`
on a text `s` that is not ASCII: when the result begins with eight bytes of
the kind the table's keys are made of, the first eight bytes of `s` are
ASCII and are these eight bytes in upper case. The library maps rune by
rune, an ASCII rune to its ASCII upper case, and no other rune to a hex
digit or a colon. -/
def UpperKeepsHex (up : Bytes → Bytes) : Prop :=
  ∀ s k : Bytes, s.all (fun b => decide (b < 128)) = false → k.length = 8 →
    k.all keyByte = true → hasPrefix (up s) k = true →
    (s.take 8).all (fun b => decide (b < 128)) = true
      ∧ (s.take 8).map (fun b => if 97 ≤ b ∧ b ≤ 122 then b - 32 else b) = k

/-! ## `parsePortList`: tokens with a sign -/

/-- A decimal integer between 1 and 65535: an optional sign, one or more
decimal digits and nothing else, the value in the range. -/
def isDecimalPort (t : List Char) : Prop :=
  isNumeric t = true ∧ 1 ≤ numericValue t ∧ numericValue t ≤ 65535

instance isDecimalPort_decidable (t : List Char) : Decidable (isDecimalPort t) := by
  unfold isDecimalPort
  infer_instance

/-- The values of the pieces between the commas that are not empty after
trimming, in the order of the text. -/
def decimalValues (portStr : String) : List Int :=
  (((splitOn ',' portStr.data).map trimSpace).filter (fun t => decide (t ≠ []))).map
    numericValue

/-! ## `getEnhancedVendor` called by several workers at once

The host workers call `getEnhancedVendor` concurrently. A call holds a lock
only inside its critical sections, so between two of them the other calls
may run. A call is a position in the function together with its argument;
a step of the process is one call running its next critical section. -/

/-- Where a call of `getEnhancedVendor` stands: the statement it runs next. -/
inductive LookupPC where
  /-- Line 73: the lookup `vendorCache[oui]` under the read lock. -/
  | lookup
  /-- Line 80: `vendorCacheEmpty := len(vendorCache) == 0` under the read lock. -/
  | checkEmpty
  /-- Line 85: `loadVendorCache()`, the cache having been seen empty. -/
  | load
  /-- Line 89: `ouiCacheEmpty := len(ieeeOUICache) == 0` under the read lock. -/
  | checkOUI
  /-- Line 93: `loadIEEEOUICache()`. -/
  | loadOUI
  /-- Line 95: `stillEmpty := len(ieeeOUICache) == 0` under the read lock. -/
  | checkStill
  /-- Line 98: `downloadAndParseIEEEOUI()`. -/
  | fetch
  /-- Line 103: the lookup `ieeeOUICache[oui]` under the read lock and, when
  it misses, `getLocalVendor(mac)` and `getOnlineVendor(oui)`, which touch
  neither cache. -/
  | lookupOUI
  /-- Lines 107, 115, 123 and 131: `vendorCache[oui] = vendor` under the write
  lock; `save` when `go saveVendorCache()` follows. -/
  | store (vendor : Bytes) (save : Bool)
  /-- The call has returned `vendor`. -/
  | returned (vendor : Bytes)
deriving DecidableEq, Repr

/-- One call of `getEnhancedVendor(mac)` in progress; `env` is what the files
and the network answer to this call. -/
structure Lookup where
  env : VendorEnv
  mac : Bytes
  pc : LookupPC

/-- The next critical section of a call, run on the caches of the process:
the call afterwards, the caches afterwards, and whether a goroutine
`saveVendorCache` has been started. The parts of `downloadAndParseIEEEOUI`
are taken as one step; they touch the OUI cache only. -/
def Lookup.step (up : Bytes → Bytes) (c : Lookup) (st : VendorState) :
    Lookup × VendorState × Bool :=
  let oui := toUpper up (c.mac.take 8)
  match c.pc with
  | .lookup =>
    match st.vendorCache.get oui with
    | some vendor => ({ c with pc := .returned vendor }, st, false)
    | none => ({ c with pc := .checkEmpty }, st, false)
  | .checkEmpty =>
    if st.vendorCache.isEmpty then ({ c with pc := .load }, st, false)
    else ({ c with pc := .checkOUI }, st, false)
  | .load =>
    ({ c with pc := .checkOUI },
      { st with vendorCache := loadCache c.env.vendorFile st.vendorCache }, false)
  | .checkOUI =>
    if st.ieeeOUICache.isEmpty then ({ c with pc := .loadOUI }, st, false)
    else ({ c with pc := .lookupOUI }, st, false)
  | .loadOUI =>
    ({ c with pc := .checkStill },
      { st with ieeeOUICache := loadCache c.env.ouiFile st.ieeeOUICache }, false)
  | .checkStill =>
    if st.ieeeOUICache.isEmpty then ({ c with pc := .fetch }, st, false)
    else ({ c with pc := .lookupOUI }, st, false)
  | .fetch =>
    ({ c with pc := .lookupOUI },
      { st with ieeeOUICache := downloadAndParseIEEEOUI c.env st.ieeeOUICache }, false)
  | .lookupOUI =>
    match st.ieeeOUICache.get oui with
    | some vendor => ({ c with pc := .store vendor false }, st, false)
    | none =>
      let vendor := getLocalVendor up c.env.order c.mac
      if vendor ≠ [] ∧ vendor ≠ ascii "Unknown" then
        ({ c with pc := .store vendor false }, st, false)
      else
        let vendor := getOnlineVendor c.env oui
        if vendor ≠ [] then ({ c with pc := .store vendor true }, st, false)
        else ({ c with pc := .store (ascii "Unknown") false }, st, false)
  | .store vendor save =>
    ({ c with pc := .returned vendor },
      { st with vendorCache := st.vendorCache.set oui vendor }, save)
  | .returned vendor => ({ c with pc := .returned vendor }, st, false)

/-- The process as the vendor lookup sees it: the two caches, the calls of
`getEnhancedVendor` made so far in the order in which they began, and the
number of goroutines `saveVendorCache` started. -/
structure Process where
  caches : VendorState
  calls : List Lookup
  saves : Nat

/-- A process that has just started. -/
def Process.init : Process := { caches := VendorState.init, calls := [], saves := 0 }

/-- What happens next in the process. -/
inductive Move where
  /-- A worker calls `getEnhancedVendor(mac)`: lines 68 to 72, which touch
  no cache. -/
  | call (env : VendorEnv) (mac : Bytes)
  /-- The call number `i` runs its next critical section. -/
  | step (i : Nat)

/-- One move of the process. -/
def Process.move (up : Bytes → Bytes) (p : Process) : Move → Process
  | .call env mac =>
    { p with
      calls := p.calls ++
        [{ env := env, mac := mac, pc := if mac.length < 8 then .returned [] else .lookup }] }
  | .step i =>
    match p.calls[i]? with
    | none => p
    | some c =>
      let r := c.step up p.caches
      { caches := r.2.1
        calls := p.calls.set i r.1
        saves := if r.2.2 then p.saves + 1 else p.saves }

/-- A run of the process: the moves in the order in which they happen. -/
def Process.run (up : Bytes → Bytes) (p : Process) (moves : List Move) : Process :=
  moves.foldl (Process.move up) p

/-- Where the calls of a process stand. -/
def Process.pcs (p : Process) : List LookupPC := p.calls.map (fun c => c.pc)

/-- A surrounding with a saved resolved cache that holds `Unknown` for the
prefix `AA:BB:CC` and a saved OUI cache that holds a name for it; no request
is answered. -/
def raceEnv : VendorEnv :=
  { quietEnv with
    vendorFile := some [(ascii "AA:BB:CC", ascii "Unknown")]
    ouiFile := some [(ascii "AA:BB:CC", ascii "Acme")] }

/-- Three calls: the first reads the resolved cache, sees it empty and is then
overtaken by the second, which runs to its end; the first then loads the
saved resolved cache; the third begins after that. -/
def raceMoves : List Move :=
  [.call raceEnv (ascii "11:22:33:44:55:66"), .step 0, .step 0,
   .call raceEnv (ascii "AA:BB:CC:00:00:01"),
   .step 1, .step 1, .step 1, .step 1, .step 1, .step 1, .step 1, .step 1,
   .step 0,
   .call raceEnv (ascii "aa:bb:cc:00:00:02"), .step 2]

/-! # Theorems -/

theorem land_mask_byte :
    ∀ n < 9, ∀ x < 256, x &&& (255 - 255 / 2 ^ n) = x / 2 ^ (8 - n) * 2 ^ (8 - n) := by
  decide

theorem land_mask (n x : Nat) (hn : n ≤ 8) (hx : x < 256) :
    x &&& (255 - 255 / 2 ^ n) = x / 2 ^ (8 - n) * 2 ^ (8 - n) :=
  land_mask_byte n (by omega) x hx

theorem ipVal4 (a b c d : Nat) : ipVal [a, b, c, d] = ((a * 256 + b) * 256 + c) * 256 + d := by
  simp [ipVal]

theorem ipVal_ofVal (v : Nat) : ipVal (ofVal v) = v % 2 ^ 32 := by
  simp only [ofVal, ipVal4]
  omega

theorem ofVal_ipVal (a b c d : Nat) (ha : a < 256) (hb : b < 256) (hc : c < 256) (hd : d < 256) :
    ofVal (ipVal [a, b, c, d]) = [a, b, c, d] := by
  simp only [ofVal, ipVal4]
  simp
  omega

theorem ofVal_mod (v : Nat) : ofVal (v % 2 ^ 32) = ofVal v := by
  simp only [ofVal]
  simp
  omega

/-- Byte-wise masking of a four-byte address clears the low `32 - p` bits. -/
theorem mask4 (a b c d p : Nat) (ha : a < 256) (hb : b < 256) (hc : c < 256) (hd : d < 256)
    (hp : p ≤ 32) :
    List.zipWith (fun x m => x &&& m) [a, b, c, d] (CIDRMask p)
      = ofVal (ipVal [a, b, c, d] / 2 ^ (32 - p) * 2 ^ (32 - p)) := by
  rw [ipVal4]
  have h0 := fun x (hx : x < 256) => land_mask 0 x (by omega) hx
  have h1 := fun x (hx : x < 256) => land_mask 1 x (by omega) hx
  have h2 := fun x (hx : x < 256) => land_mask 2 x (by omega) hx
  have h3 := fun x (hx : x < 256) => land_mask 3 x (by omega) hx
  have h4 := fun x (hx : x < 256) => land_mask 4 x (by omega) hx
  have h5 := fun x (hx : x < 256) => land_mask 5 x (by omega) hx
  have h6 := fun x (hx : x < 256) => land_mask 6 x (by omega) hx
  have h7 := fun x (hx : x < 256) => land_mask 7 x (by omega) hx
  have h8 := fun x (hx : x < 256) => land_mask 8 x (by omega) hx
  norm_num at h0 h1 h2 h3 h4 h5 h6 h7 h8
  interval_cases p <;>
    simp [CIDRMask, cidrMaskFrom, ofVal, ha, hb, hc, hd, h0, h1, h2, h3, h4, h5, h6, h7, h8] <;>
    omega

theorem mask4_ofVal (v p : Nat) (hp : p ≤ 32) :
    List.zipWith (fun x m => x &&& m) (ofVal v) (CIDRMask p)
      = ofVal (v % 2 ^ 32 / 2 ^ (32 - p) * 2 ^ (32 - p)) := by
  have h := mask4 (v / 2 ^ 24 % 256) (v / 2 ^ 16 % 256) (v / 2 ^ 8 % 256) (v % 256) p
    (Nat.mod_lt _ (by norm_num)) (Nat.mod_lt _ (by norm_num)) (Nat.mod_lt _ (by norm_num))
    (Nat.mod_lt _ (by norm_num)) hp
  have e : ipVal [v / 2 ^ 24 % 256, v / 2 ^ 16 % 256, v / 2 ^ 8 % 256, v % 256] = v % 2 ^ 32 :=
    ipVal_ofVal v
  rw [e] at h
  exact h

theorem ofVal_inj (v w : Nat) (hv : v < 2 ^ 32) (hw : w < 2 ^ 32) (h : ofVal v = ofVal w) :
    v = w := by
  have := congrArg ipVal h
  rw [ipVal_ofVal, ipVal_ofVal, Nat.mod_eq_of_lt hv, Nat.mod_eq_of_lt hw] at this
  exact this

theorem CIDRMask_length (p : Nat) : (CIDRMask p).length = 4 := by
  simp only [CIDRMask, cidrMaskFrom]
  split_ifs <;> simp

theorem parse_base (a b c d p : Nat) (ha : a < 256) (hb : b < 256) (hc : c < 256) (hd : d < 256)
    (hp : p ≤ 32) :
    ParseCIDR a b c d p = some
      { IP := ofVal (ipVal [a, b, c, d] / 2 ^ (32 - p) * 2 ^ (32 - p)), Mask := CIDRMask p } := by
  simp only [ParseCIDR, IP.Mask, ha, hb, hc, hd, hp, and_self, if_true, List.length_cons,
    List.length_nil, CIDRMask_length]
  simp [mask4 a b c d p ha hb hc hd hp]

theorem inc4 (a b c d : Nat) (ha : a < 256) (hb : b < 256) (hc : c < 256) (hd : d < 256) :
    inc [a, b, c, d] = ofVal ((ipVal [a, b, c, d] + 1) % 2 ^ 32) := by
  rw [ipVal4]
  simp only [inc, incFrom, ofVal, List.length_cons, List.length_nil, List.set, List.getD]
  simp
  split_ifs <;> simp <;> omega

theorem inc_ofVal (v : Nat) : inc (ofVal v) = ofVal (v + 1) := by
  have h := inc4 (v / 2 ^ 24 % 256) (v / 2 ^ 16 % 256) (v / 2 ^ 8 % 256) (v % 256)
    (Nat.mod_lt _ (by norm_num)) (Nat.mod_lt _ (by norm_num)) (Nat.mod_lt _ (by norm_num))
    (Nat.mod_lt _ (by norm_num))
  have e : ipVal [v / 2 ^ 24 % 256, v / 2 ^ 16 % 256, v / 2 ^ 8 % 256, v % 256] = v % 2 ^ 32 :=
    ipVal_ofVal v
  rw [e, ofVal_mod] at h
  have e2 : ofVal (v % 2 ^ 32 + 1) = ofVal (v + 1) := by
    rw [← ofVal_mod (v % 2 ^ 32 + 1), ← ofVal_mod (v + 1)]
    congr 1
    omega
  rw [e2] at h
  exact h

/-- Membership test of a parsed network, as a comparison of block numbers. -/
theorem contains_ofVal (A p v : Nat) (hp : p ≤ 32) (hA : A < 2 ^ 32) :
    IPNet.Contains { IP := ofVal (A / 2 ^ (32 - p) * 2 ^ (32 - p)), Mask := CIDRMask p } (ofVal v)
      = decide (v % 2 ^ 32 / 2 ^ (32 - p) = A / 2 ^ (32 - p)) := by
  have hS : 0 < 2 ^ (32 - p) := Nat.pow_pos (by norm_num)
  have hB : A / 2 ^ (32 - p) * 2 ^ (32 - p) < 2 ^ 32 :=
    lt_of_le_of_lt (Nat.div_mul_le_self _ _) hA
  have hV : v % 2 ^ 32 / 2 ^ (32 - p) * 2 ^ (32 - p) < 2 ^ 32 :=
    lt_of_le_of_lt (Nat.div_mul_le_self _ _) (Nat.mod_lt _ (by norm_num))
  simp only [IPNet.Contains, CIDRMask_length, mask4_ofVal _ _ hp, Nat.mod_eq_of_lt hB,
    Nat.mul_div_cancel _ hS]
  have l1 : (ofVal v).length = 4 := rfl
  have l2 : (ofVal (A / 2 ^ (32 - p) * 2 ^ (32 - p))).length = 4 := rfl
  simp only [l1, l2, ne_eq, not_true_eq_false, if_false]
  by_cases h : v % 2 ^ 32 / 2 ^ (32 - p) = A / 2 ^ (32 - p)
  · rw [h]; simp
  · simp only [h, decide_False, beq_eq_false_iff_ne, ne_eq]
    intro e
    have := ofVal_inj _ _ hB hV e
    exact h (Nat.eq_of_mul_eq_mul_right hS this).symm

/-- The loop from the `k`-th address of the block onward. -/
theorem enumLoop_run (A p : Nat) (hp1 : 1 ≤ p) (hp : p ≤ 32) (hA : A < 2 ^ 32) :
    ∀ (j k fuel : Nat) (acc : List String), k + j = 2 ^ (32 - p) → j < fuel →
      enumLoop { IP := ofVal (A / 2 ^ (32 - p) * 2 ^ (32 - p)), Mask := CIDRMask p } fuel
          (ofVal (A / 2 ^ (32 - p) * 2 ^ (32 - p) + k)) acc
        = some (acc ++ (List.range' (A / 2 ^ (32 - p) * 2 ^ (32 - p) + k) j).map
            (fun v => ipString (ofVal v))) := by
  have hS : 0 < 2 ^ (32 - p) := Nat.pow_pos (by norm_num)
  have hdvd : 2 ^ (32 - p) ∣ 2 ^ 32 := pow_dvd_pow 2 (by omega)
  have hSle : 2 ^ (32 - p) * 2 ≤ 2 ^ 32 := by
    rw [← pow_succ]; exact Nat.pow_le_pow_right (by norm_num) (by omega)
  obtain ⟨q, hq⟩ := hdvd
  have hAq : A / 2 ^ (32 - p) < q := by
    rw [Nat.div_lt_iff_lt_mul hS, mul_comm, ← hq]; exact hA
  intro j
  induction j with
  | zero =>
    intro k fuel acc hk hf
    obtain ⟨f, rfl⟩ : ∃ f, fuel = f + 1 := ⟨fuel - 1, by omega⟩
    have hk' : k = 2 ^ (32 - p) := by omega
    subst hk'
    have hne : ¬ ((A / 2 ^ (32 - p) * 2 ^ (32 - p) + 2 ^ (32 - p)) % 2 ^ 32 / 2 ^ (32 - p)
        = A / 2 ^ (32 - p)) := by
      have e : A / 2 ^ (32 - p) * 2 ^ (32 - p) + 2 ^ (32 - p)
          = (A / 2 ^ (32 - p) + 1) * 2 ^ (32 - p) := by ring
      rw [e]
      rcases Nat.lt_or_ge (A / 2 ^ (32 - p) + 1) q with h | h
      · have hlt : (A / 2 ^ (32 - p) + 1) * 2 ^ (32 - p) < 2 ^ 32 := by
          rw [hq, mul_comm]; exact Nat.mul_lt_mul_of_pos_left h hS
        rw [Nat.mod_eq_of_lt hlt, Nat.mul_div_cancel _ hS]
        omega
      · have hq' : A / 2 ^ (32 - p) + 1 = q := by omega
        rw [hq', mul_comm, ← hq, Nat.mod_self, Nat.zero_div]
        intro h0
        have : q = 1 := by omega
        rw [this] at hq
        omega
    rw [enumLoop, contains_ofVal A p _ hp hA]
    simp only [hne, decide_False]
    simp
  | succ j ih =>
    intro k fuel acc hk hf
    obtain ⟨f, rfl⟩ : ∃ f, fuel = f + 1 := ⟨fuel - 1, by omega⟩
    have hklt : k < 2 ^ (32 - p) := by omega
    have hlt : A / 2 ^ (32 - p) * 2 ^ (32 - p) + k < 2 ^ 32 := by
      have : (A / 2 ^ (32 - p) + 1) * 2 ^ (32 - p) ≤ q * 2 ^ (32 - p) :=
        Nat.mul_le_mul_right _ hAq
      rw [mul_comm q, ← hq] at this
      have e : (A / 2 ^ (32 - p) + 1) * 2 ^ (32 - p)
          = A / 2 ^ (32 - p) * 2 ^ (32 - p) + 2 ^ (32 - p) := by ring
      omega
    have hin : (A / 2 ^ (32 - p) * 2 ^ (32 - p) + k) % 2 ^ 32 / 2 ^ (32 - p)
        = A / 2 ^ (32 - p) := by
      rw [Nat.mod_eq_of_lt hlt, mul_comm, Nat.mul_add_div hS, Nat.div_eq_of_lt hklt]
      rfl
    have step := ih (k + 1) f (acc ++ [ipString (ofVal (A / 2 ^ (32 - p) * 2 ^ (32 - p) + k))])
      (by omega) (by omega)
    rw [enumLoop, contains_ofVal A p _ hp hA]
    simp only [hin, decide_True, if_true, inc_ofVal]
    rw [add_assoc, step]
    simp [List.range'_succ, add_assoc]

theorem incFrom_length (j : Nat) (ip : IP) : (incFrom j ip).length = ip.length := by
  induction j generalizing ip with
  | zero => rfl
  | succ j ih =>
    simp only [incFrom]
    split_ifs
    · simp
    · rw [ih]; simp

theorem inc_length (ip : IP) : (inc ip).length = ip.length := incFrom_length _ ip

/-- With the all-zero mask of `/0` every four-byte address is contained. -/
theorem contains_slash0 (ip : IP) (h : ip.length = 4) :
    IPNet.Contains { IP := [0, 0, 0, 0], Mask := [0, 0, 0, 0] } ip = true := by
  match ip, h with
  | [a, b, c, d], _ => simp [IPNet.Contains]

theorem enumLoop_slash0 (fuel : Nat) :
    ∀ (ip : IP) (acc : List String), ip.length = 4 →
      enumLoop { IP := [0, 0, 0, 0], Mask := [0, 0, 0, 0] } fuel ip acc = none := by
  induction fuel with
  | zero => intro ip acc _; rfl
  | succ f ih =>
    intro ip acc h
    rw [enumLoop, contains_slash0 ip h]
    simp only [if_true]
    exact ih _ _ (by rw [inc_length]; exact h)

theorem ofVal_bytes (v : Nat) : ∀ x ∈ ofVal v, x < 256 := by
  intro x hx
  simp only [ofVal, List.mem_cons, List.mem_singleton, List.mem_nil_iff, or_false] at hx
  rcases hx with h | h | h | h <;> rw [h] <;> exact Nat.mod_lt _ (by norm_num)

theorem ofVal_surj (ip : IP) (hl : ip.length = 4) (hb : ∀ x ∈ ip, x < 256) :
    ip = ofVal (ipVal ip) ∧ ipVal ip < 2 ^ 32 := by
  match ip, hl with
  | [a, b, c, d], _ =>
    have ha := hb a (by simp)
    have hb' := hb b (by simp)
    have hc := hb c (by simp)
    have hd := hb d (by simp)
    refine ⟨(ofVal_ipVal a b c d ha hb' hc hd).symm, ?_⟩
    rw [ipVal4]
    omega

/-- The parsed network of `a.b.c.d/p`, `1 ≤ p ≤ 32`, enumerates to the texts
of the block of `2^(32-p)` consecutive values starting at the masked base. -/
theorem enumerate_block (a b c d p : Nat) (ha : a < 256) (hb : b < 256) (hc : c < 256)
    (hd : d < 256) (hp1 : 1 ≤ p) (hp : p ≤ 32) (fuel : Nat) (hf : 2 ^ (32 - p) < fuel) :
    ParseCIDR a b c d p = some
      { IP := ofVal (ipVal [a, b, c, d] / 2 ^ (32 - p) * 2 ^ (32 - p)), Mask := CIDRMask p } ∧
    enumerate { IP := ofVal (ipVal [a, b, c, d] / 2 ^ (32 - p) * 2 ^ (32 - p)),
                Mask := CIDRMask p } fuel
      = some ((List.range' (ipVal [a, b, c, d] / 2 ^ (32 - p) * 2 ^ (32 - p))
          (2 ^ (32 - p))).map (fun v => ipString (ofVal v))) := by
  have hS : 0 < 2 ^ (32 - p) := Nat.pow_pos (by norm_num)
  have hA : ipVal [a, b, c, d] < 2 ^ 32 := by rw [ipVal4]; omega
  have hBlt : ipVal [a, b, c, d] / 2 ^ (32 - p) * 2 ^ (32 - p) < 2 ^ 32 :=
    lt_of_le_of_lt (Nat.div_mul_le_self _ _) hA
  have hmask2 : IP.Mask (ofVal (ipVal [a, b, c, d] / 2 ^ (32 - p) * 2 ^ (32 - p))) (CIDRMask p)
      = some (ofVal (ipVal [a, b, c, d] / 2 ^ (32 - p) * 2 ^ (32 - p))) := by
    have l : (ofVal (ipVal [a, b, c, d] / 2 ^ (32 - p) * 2 ^ (32 - p))).length = 4 := rfl
    simp only [IP.Mask, l, CIDRMask_length, mask4_ofVal _ _ hp, Nat.mod_eq_of_lt hBlt,
      Nat.mul_div_cancel _ hS]
    simp
  refine ⟨parse_base a b c d p ha hb hc hd hp, ?_⟩
  simp only [enumerate, hmask2]
  have h := enumLoop_run (ipVal [a, b, c, d]) p hp1 hp hA (2 ^ (32 - p)) 0 fuel [] (by simp) hf
  simpa using h

theorem ubtoa_no_dot : ∀ v < 256, ∀ ch ∈ ubtoa v, ch ≠ '.' := by decide

theorem sscanf_ubtoa : ∀ v < 256, sscanfInt (ubtoa v) = (v : Int) := by decide

theorem splitOn_no_sep (sep : Char) (x : List Char) (h : ∀ ch ∈ x, ch ≠ sep) :
    splitOn sep x = [x] := by
  induction x with
  | nil => rfl
  | cons ch cs ih =>
    have h1 : ch ≠ sep := h ch (List.mem_cons_self _ _)
    have h2 := ih (fun y hy => h y (List.mem_cons_of_mem _ hy))
    simp [splitOn, h1, h2]

theorem splitOn_append_sep (sep : Char) (x rest : List Char) (h : ∀ ch ∈ x, ch ≠ sep) :
    splitOn sep (x ++ sep :: rest) = x :: splitOn sep rest := by
  induction x with
  | nil => simp [splitOn]
  | cons ch cs ih =>
    have h1 : ch ≠ sep := h ch (List.mem_cons_self _ _)
    have h2 := ih (fun y hy => h y (List.mem_cons_of_mem _ hy))
    simp [splitOn, h1, h2]

theorem or_bytes (a b c d : Nat) (ha : a < 256) (hb : b < 256) (hc : c < 256) (hd : d < 256) :
    (((0 ||| a <<< 24 % 2 ^ 32) ||| b <<< 16 % 2 ^ 32) ||| c <<< 8 % 2 ^ 32) ||| d <<< 0 % 2 ^ 32
      = ((a * 256 + b) * 256 + c) * 256 + d := by
  have e1 : a <<< 24 % 2 ^ 32 = 2 ^ 24 * a := by rw [Nat.shiftLeft_eq]; omega
  have e2 : b <<< 16 % 2 ^ 32 = 2 ^ 16 * b := by rw [Nat.shiftLeft_eq]; omega
  have e3 : c <<< 8 % 2 ^ 32 = 2 ^ 8 * c := by rw [Nat.shiftLeft_eq]; omega
  have e4 : d <<< 0 % 2 ^ 32 = d := by rw [Nat.shiftLeft_eq]; omega
  rw [e1, e2, e3, e4, Nat.zero_or, Nat.or_assoc, Nat.or_assoc]
  rw [← Nat.mul_add_lt_is_or (by omega : d < 2 ^ 8) c]
  have f1 : 2 ^ 16 * b ||| (2 ^ 8 * c + d) = 2 ^ 16 * b + (2 ^ 8 * c + d) :=
    (Nat.mul_add_lt_is_or (by omega : 2 ^ 8 * c + d < 2 ^ 16) b).symm
  rw [f1]
  have f2 : 2 ^ 24 * a ||| (2 ^ 16 * b + (2 ^ 8 * c + d))
      = 2 ^ 24 * a + (2 ^ 16 * b + (2 ^ 8 * c + d)) :=
    (Nat.mul_add_lt_is_or (by omega : 2 ^ 16 * b + (2 ^ 8 * c + d) < 2 ^ 24) a).symm
  rw [f2]
  omega

/-- The sort key of a dotted-decimal IPv4 text is the address as a number. -/
theorem ipToInt_ipString (a b c d : Nat) (ha : a < 256) (hb : b < 256) (hc : c < 256)
    (hd : d < 256) : ipToInt (ipString [a, b, c, d]) = ipVal [a, b, c, d] := by
  have hparts : splitOn '.' (ipString [a, b, c, d]).data
      = [ubtoa a, ubtoa b, ubtoa c, ubtoa d] := by
    simp only [ipString, Nat.mod_eq_of_lt ha, Nat.mod_eq_of_lt hb, Nat.mod_eq_of_lt hc,
      Nat.mod_eq_of_lt hd, List.append_assoc, List.cons_append]
    rw [splitOn_append_sep _ _ _ (ubtoa_no_dot a ha), splitOn_append_sep _ _ _ (ubtoa_no_dot b hb),
      splitOn_append_sep _ _ _ (ubtoa_no_dot c hc), splitOn_no_sep _ _ (ubtoa_no_dot d hd)]
  unfold ipToInt
  simp only [hparts, List.length_cons, List.length_nil, ne_eq, not_true_eq_false, if_false,
    List.enum, List.enumFrom, List.foldl_cons, List.foldl_nil, sscanf_ubtoa a ha,
    sscanf_ubtoa b hb, sscanf_ubtoa c hc, sscanf_ubtoa d hd]
  have ea : ((a : Int) % 2 ^ 32).toNat = a := by omega
  have eb : ((b : Int) % 2 ^ 32).toNat = b := by omega
  have ec : ((c : Int) % 2 ^ 32).toNat = c := by omega
  have ed : ((d : Int) % 2 ^ 32).toNat = d := by omega
  rw [ea, eb, ec, ed, ipVal4]
  exact or_bytes a b c d ha hb hc hd

theorem ipToInt_ofVal (v : Nat) (hv : v < 2 ^ 32) : ipToInt (ipString (ofVal v)) = v := by
  have h := ipToInt_ipString (v / 2 ^ 24 % 256) (v / 2 ^ 16 % 256) (v / 2 ^ 8 % 256) (v % 256)
    (Nat.mod_lt _ (by norm_num)) (Nat.mod_lt _ (by norm_num)) (Nat.mod_lt _ (by norm_num))
    (Nat.mod_lt _ (by norm_num))
  have e : ipVal [v / 2 ^ 24 % 256, v / 2 ^ 16 % 256, v / 2 ^ 8 % 256, v % 256] = v % 2 ^ 32 :=
    ipVal_ofVal v
  rw [e, Nat.mod_eq_of_lt hv] at h
  exact h

/-- C1. For an IPv4 CIDR `a.b.c.d/p` with `1 ≤ p ≤ 32` the enumeration loop
(start at the masked base, `inc` while the network contains the address)
returns, for every fuel above the block size, the dotted-decimal texts of
exactly `2^(32-p)` addresses: their numeric values are the consecutive
numbers from the value of the masked base (the network address) up to
base `+ 2^(32-p) - 1` (the broadcast address), hence strictly ascending and
without repetition (`ipToInt` reads the same numbers back from the texts),
and an address is in the list exactly when the network contains it. -/
theorem enumerate_yields_block (a b c d p : Nat) (ha : a < 256) (hb : b < 256) (hc : c < 256)
    (hd : d < 256) (hp1 : 1 ≤ p) (hp : p ≤ 32) :
    ∃ (net : IPNet) (base : IP) (addrs : List IP),
      ParseCIDR a b c d p = some net ∧
      IP.Mask [a, b, c, d] (CIDRMask p) = some base ∧
      net.IP.Mask net.Mask = some base ∧
      (∀ fuel, 2 ^ (32 - p) < fuel → enumerate net fuel = some (addrs.map ipString)) ∧
      addrs.length = 2 ^ (32 - p) ∧
      addrs.map ipVal = List.range' (ipVal base) (2 ^ (32 - p)) ∧
      (addrs.map ipString).map ipToInt = List.range' (ipVal base) (2 ^ (32 - p)) ∧
      List.Pairwise (fun x y => x < y) (addrs.map ipVal) ∧
      addrs.Nodup ∧
      addrs.head? = some base ∧
      addrs.getLast? = some (ofVal (ipVal base + 2 ^ (32 - p) - 1)) ∧
      (∀ ip : IP, ip.length = 4 → (∀ x ∈ ip, x < 256) → (net.Contains ip = true ↔ ip ∈ addrs)) := by
  have hS : 0 < 2 ^ (32 - p) := Nat.pow_pos (by norm_num)
  have hA : ipVal [a, b, c, d] < 2 ^ 32 := by rw [ipVal4]; omega
  obtain ⟨q, hq⟩ : 2 ^ (32 - p) ∣ 2 ^ 32 := pow_dvd_pow 2 (by omega)
  have hAq : ipVal [a, b, c, d] / 2 ^ (32 - p) < q := by
    rw [Nat.div_lt_iff_lt_mul hS, mul_comm, ← hq]; exact hA
  have hBS : ipVal [a, b, c, d] / 2 ^ (32 - p) * 2 ^ (32 - p) + 2 ^ (32 - p) ≤ 2 ^ 32 := by
    have : (ipVal [a, b, c, d] / 2 ^ (32 - p) + 1) * 2 ^ (32 - p) ≤ q * 2 ^ (32 - p) :=
      Nat.mul_le_mul_right _ hAq
    rw [mul_comm q, ← hq] at this
    have e : (ipVal [a, b, c, d] / 2 ^ (32 - p) + 1) * 2 ^ (32 - p)
        = ipVal [a, b, c, d] / 2 ^ (32 - p) * 2 ^ (32 - p) + 2 ^ (32 - p) := by ring
    omega
  generalize hB : ipVal [a, b, c, d] / 2 ^ (32 - p) * 2 ^ (32 - p) = B at hBS
  have hBlt : B < 2 ^ 32 := by omega
  have hBv : ipVal (ofVal B) = B := by rw [ipVal_ofVal, Nat.mod_eq_of_lt hBlt]
  have hBdiv : B / 2 ^ (32 - p) = ipVal [a, b, c, d] / 2 ^ (32 - p) := by
    rw [← hB, Nat.mul_div_cancel _ hS]
  have hmask : IP.Mask [a, b, c, d] (CIDRMask p) = some (ofVal B) := by
    simp only [IP.Mask, List.length_cons, List.length_nil, CIDRMask_length]
    simp [mask4 a b c d p ha hb hc hd hp, hB]
  have hmask2 : IP.Mask (ofVal B) (CIDRMask p) = some (ofVal B) := by
    have l : (ofVal B).length = 4 := rfl
    simp only [IP.Mask, l, CIDRMask_length, mask4_ofVal _ _ hp, Nat.mod_eq_of_lt hBlt]
    rw [hBdiv, hB]
    simp
  have hmap : (List.map ofVal (List.range' B (2 ^ (32 - p)))).map ipVal
      = List.range' B (2 ^ (32 - p)) := by
    rw [List.map_map]
    conv_rhs => rw [← List.map_id (List.range' B (2 ^ (32 - p)))]
    apply List.map_congr_left
    intro v hv
    rw [List.mem_range'_1] at hv
    simp only [Function.comp, id, ipVal_ofVal]
    exact Nat.mod_eq_of_lt (by omega)
  refine ⟨{ IP := ofVal B, Mask := CIDRMask p }, ofVal B,
    (List.range' B (2 ^ (32 - p))).map ofVal, ?_, hmask, hmask2, ?_, ?_, ?_, ?_, ?_, ?_, ?_, ?_,
    ?_⟩
  · rw [parse_base a b c d p ha hb hc hd hp, hB]
  · intro fuel hf
    have h := (enumerate_block a b c d p ha hb hc hd hp1 hp fuel hf).2
    rw [hB] at h
    simpa [List.map_map, Function.comp] using h
  · simp
  · rw [hmap, hBv]
  · rw [hBv, List.map_map, List.map_map]
    conv_rhs => rw [← List.map_id (List.range' B (2 ^ (32 - p)))]
    apply List.map_congr_left
    intro v hv
    rw [List.mem_range'_1] at hv
    simp only [Function.comp, id]
    exact ipToInt_ofVal v (by omega)
  · rw [hmap]
    exact List.pairwise_lt_range' B (2 ^ (32 - p))
  · have h := List.pairwise_lt_range' B (2 ^ (32 - p))
    rw [← hmap] at h
    have h2 : List.Nodup ((List.map ofVal (List.range' B (2 ^ (32 - p)))).map ipVal) :=
      h.imp (fun hlt => Nat.ne_of_lt hlt)
    exact h2.of_map
  · rw [List.head?_map, List.head?_range']
    simp [Nat.pos_iff_ne_zero.mp hS]
  · rw [List.getLast?_map, List.getLast?_range', hBv]
    simp [Nat.pos_iff_ne_zero.mp hS]
  · intro ip hl hbytes
    obtain ⟨e, hv⟩ := ofVal_surj ip hl hbytes
    rw [e, ← hB, contains_ofVal _ p _ hp hA, hB, Nat.mod_eq_of_lt hv]
    simp only [decide_eq_true_eq, List.mem_map, List.mem_range'_1]
    constructor
    · intro h
      refine ⟨ipVal ip, ⟨?_, ?_⟩, rfl⟩
      · rw [← hB, ← h]; exact Nat.div_mul_le_self _ _
      · rw [← hB, ← h]
        have := Nat.lt_div_mul_add hS (a := ipVal ip)
        exact this
    · rintro ⟨w, ⟨hw1, hw2⟩, hw⟩
      have hw' : w = ipVal ip := ofVal_inj _ _ (by omega) hv hw
      subst hw'
      have hmul : 2 ^ (32 - p) * (ipVal [a, b, c, d] / 2 ^ (32 - p)) = B := by
        rw [mul_comm]; exact hB
      have e3 : ipVal ip
          = 2 ^ (32 - p) * (ipVal [a, b, c, d] / 2 ^ (32 - p)) + (ipVal ip - B) := by
        rw [hmul]; omega
      have hsmall : ipVal ip - B < 2 ^ (32 - p) := by omega
      rw [e3, Nat.mul_add_div hS, Nat.div_eq_of_lt hsmall]
      simp

/-- Witness for C1: `192.168.1.77/24` satisfies the hypotheses, and the loop
starts at `192.168.1.0`. -/
theorem enumerate_yields_block_witness :
    (∃ (net : IPNet) (base : IP) (addrs : List IP),
      ParseCIDR 192 168 1 77 24 = some net ∧
      IP.Mask [192, 168, 1, 77] (CIDRMask 24) = some base ∧
      net.IP.Mask net.Mask = some base ∧
      (∀ fuel, 2 ^ (32 - 24) < fuel → enumerate net fuel = some (addrs.map ipString)) ∧
      addrs.length = 2 ^ (32 - 24) ∧
      addrs.map ipVal = List.range' (ipVal base) (2 ^ (32 - 24)) ∧
      (addrs.map ipString).map ipToInt = List.range' (ipVal base) (2 ^ (32 - 24)) ∧
      List.Pairwise (fun x y => x < y) (addrs.map ipVal) ∧
      addrs.Nodup ∧
      addrs.head? = some base ∧
      addrs.getLast? = some (ofVal (ipVal base + 2 ^ (32 - 24) - 1)) ∧
      (∀ ip : IP, ip.length = 4 → (∀ x ∈ ip, x < 256) → (net.Contains ip = true ↔ ip ∈ addrs)))
    ∧ IP.Mask [192, 168, 1, 77] (CIDRMask 24) = some [192, 168, 1, 0] :=
  ⟨enumerate_yields_block 192 168 1 77 24 (by decide) (by decide) (by decide) (by decide)
    (by decide) (by decide), by decide⟩

/-- C2 (divergence). For `0.0.0.0/0` the enumeration loop never leaves the
network: `inc` wraps `255.255.255.255` around to `0.0.0.0`, which the
network contains again, so no amount of fuel makes the loop return. -/
theorem enumerate_slash0_diverges :
    ParseCIDR 0 0 0 0 0 = some { IP := [0, 0, 0, 0], Mask := [0, 0, 0, 0] } ∧
    inc [255, 255, 255, 255] = [0, 0, 0, 0] ∧
    ¬ ∃ fuel ips, enumerate { IP := [0, 0, 0, 0], Mask := [0, 0, 0, 0] } fuel = some ips := by
  refine ⟨by decide, by decide, ?_⟩
  rintro ⟨fuel, ips, h⟩
  have e : IP.Mask [0, 0, 0, 0] [0, 0, 0, 0] = some [0, 0, 0, 0] := by decide
  simp only [enumerate, e] at h
  rw [enumLoop_slash0 fuel [0, 0, 0, 0] [] rfl] at h
  exact Option.noConfusion h

/-! ## `sort.Slice` stand-in: permutation and order -/

theorem insertBy_perm {α : Type} (less : α → α → Bool) (x : α) (l : List α) :
    (insertBy less x l).Perm (x :: l) := by
  induction l with
  | nil => exact List.Perm.refl _
  | cons y ys ih =>
    simp only [insertBy]
    split_ifs
    · exact List.Perm.refl _
    · exact (List.Perm.cons y ih).trans (List.Perm.swap x y ys)

theorem sortSlice_perm {α : Type} (less : α → α → Bool) (l : List α) :
    (sortSlice less l).Perm l := by
  induction l with
  | nil => exact List.Perm.refl _
  | cons x xs ih =>
    have h : sortSlice less (x :: xs) = insertBy less x (sortSlice less xs) := rfl
    rw [h]
    exact (insertBy_perm less x _).trans (List.Perm.cons x ih)

theorem insertBy_sorted {α κ : Type} [LinearOrder κ] (key : α → κ) (less : α → α → Bool)
    (hless : ∀ a b, less a b = true ↔ key a < key b) (x : α) (l : List α)
    (h : l.Pairwise (fun a b => key a ≤ key b)) :
    (insertBy less x l).Pairwise (fun a b => key a ≤ key b) := by
  induction l with
  | nil => simp [insertBy]
  | cons y ys ih =>
    rw [List.pairwise_cons] at h
    simp only [insertBy]
    split_ifs with hlt
    · have hxy : key x < key y := (hless x y).mp hlt
      rw [List.pairwise_cons, List.pairwise_cons]
      refine ⟨?_, h.1, h.2⟩
      intro b hb
      rcases List.mem_cons.mp hb with rfl | hb
      · exact le_of_lt hxy
      · exact le_trans (le_of_lt hxy) (h.1 b hb)
    · have hyx : key y ≤ key x := by
        by_contra hc
        exact hlt ((hless x y).mpr (lt_of_not_ge hc))
      rw [List.pairwise_cons]
      refine ⟨?_, ih h.2⟩
      intro b hb
      have hb1 := (insertBy_perm _ x ys).subset hb
      rcases List.mem_cons.mp hb1 with rfl | hb1
      · exact hyx
      · exact h.1 b hb1

theorem sortSlice_sorted {α κ : Type} [LinearOrder κ] (key : α → κ) (less : α → α → Bool)
    (hless : ∀ a b, less a b = true ↔ key a < key b) (l : List α) :
    (sortSlice less l).Pairwise (fun a b => key a ≤ key b) := by
  induction l with
  | nil => exact List.Pairwise.nil
  | cons x xs ih => exact insertBy_sorted key less hless x _ ih

/-! ## Per-host scan -/

theorem collectOpen_foldl (env : Env) (ip : String) (timeout : Int) (l : List Int)
    (acc : List ServiceInfo) :
    l.foldl (fun services p =>
        let r := scanPortNew env ip p timeout
        if r.2.isNone && r.1.IsOpen then services ++ [r.1] else services) acc
      = acc ++ l.filterMap (openRecord env ip timeout) := by
  induction l generalizing acc with
  | nil => simp
  | cons p ps ih =>
    rw [List.foldl_cons, ih, List.filterMap_cons]
    by_cases h : ((scanPortNew env ip p timeout).2.isNone
        && (scanPortNew env ip p timeout).1.IsOpen) = true
    · simp [openRecord, h]
    · simp [openRecord, h]

theorem collectOpen_eq (env : Env) (ip : String) (timeout : Int) (l : List Int) :
    collectOpen env ip timeout l = l.filterMap (openRecord env ip timeout) := by
  unfold collectOpen
  rw [collectOpen_foldl]
  rfl

/-- A probe is recorded exactly when the connect succeeded. -/
theorem openRecord_eq (env : Env) (ip : String) (timeout : Int) (p : Int) :
    openRecord env ip timeout p
      = if (env.dial ip p timeout).1.isNone then some (scanPortNew env ip p timeout).1
        else none := by
  unfold openRecord scanPortNew
  cases h : (env.dial ip p timeout).1 <;> simp [h]

theorem filterMap_openRecord (env : Env) (ip : String) (timeout : Int) (l : List Int) :
    l.filterMap (openRecord env ip timeout)
      = (l.filter (fun p => (env.dial ip p timeout).1.isNone)).map
          (fun p => (scanPortNew env ip p timeout).1) := by
  induction l with
  | nil => rfl
  | cons p ps ih =>
    rw [List.filterMap_cons, openRecord_eq, List.filter_cons]
    by_cases h : (env.dial ip p timeout).1.isNone = true
    · simp [h, ih]
    · simp [h, ih]

/-- Whenever the fan-out returns, it returns the sorted records of the
successful probes. -/
theorem fanOut_inv (env : Env) (ip : String) (timeout workers : Int) (ports : List Int)
    (sched : List Int → List Int) (hs : (sched ports).Perm ports) (services : List ServiceInfo)
    (dials : List Event) (hf : fanOut env ip timeout workers ports sched = some (services, dials)) :
    services.Pairwise (fun a b => a.Port ≤ b.Port) ∧
    services.Perm ((ports.filter (fun p => (env.dial ip p timeout).1.isNone)).map
      (fun p => (scanPortNew env ip p timeout).1)) := by
  unfold fanOut at hf
  split_ifs at hf
  simp only [Option.some.injEq, Prod.mk.injEq] at hf
  obtain ⟨rfl, _⟩ := hf
  refine ⟨sortSlice_sorted (fun a : ServiceInfo => a.Port) _ (by intro a b; simp) _, ?_⟩
  refine (sortSlice_perm _ _).trans ?_
  rw [collectOpen_eq, ← filterMap_openRecord]
  exact hs.filterMap _

/-- An unreachable host: `scanHostNew` returns after the ping. -/
theorem scanHostNew_down (env : Env) (ip : String) (startPort endPort timeout : Int)
    (workers : Int) (sched : List Int → List Int) (h : (env.ping ip timeout).1 = false) :
    scanHostNew env ip startPort endPort timeout workers sched
      = some (downRecord env ip timeout, [Event.ping ip]) := by
  simp [scanHostNew, downRecord, h]

/-- An unreachable host: `scanHostCustom` returns after the ping. -/
theorem scanHostCustom_down (env : Env) (ip : String) (startPort endPort timeout : Int)
    (workers : Int) (customPorts : List Int) (ipsOnly : Bool) (sched : List Int → List Int)
    (h : (env.ping ip timeout).1 = false) :
    scanHostCustom env ip startPort endPort timeout workers customPorts ipsOnly sched
      = some (downRecord env ip timeout, [Event.ping ip]) := by
  simp [scanHostCustom, downRecord, h]

/-- A reachable host with at least one port-worker slot: `scanHostNew`
returns a reachable record for that address, having dialled the scheduled
range. -/
theorem scanHostNew_up (env : Env) (ip : String) (startPort endPort timeout : Int)
    (workers : Int) (sched : List Int → List Int) (h : (env.ping ip timeout).1 = true)
    (hw : 0 < workers) :
    ∃ r, scanHostNew env ip startPort endPort timeout workers sched
        = some (r, [Event.ping ip, Event.lookupAddr ip, Event.macLookup ip]
            ++ (sched (portRange startPort endPort)).map (Event.dial ip)) ∧
      r.IP = ip ∧ r.IsReachable = true := by
  have h1 : ¬ workers < 0 := by omega
  have h2 : ¬ (workers = 0 ∧ portRange startPort endPort ≠ []) := by omega
  refine ⟨{ IP := ip, MAC := (env.macVendor ip).1, Vendor := (env.macVendor ip).2,
            Hostname := env.hostname ip,
            Services := sortSlice (fun a b => decide (a.Port < b.Port))
              (collectOpen env ip timeout (sched (portRange startPort endPort))),
            IsReachable := true, ResponseTime := (env.ping ip timeout).2 }, ?_, rfl, rfl⟩
  simp only [scanHostNew, fanOut, h, h1, h2, Bool.not_true, Bool.false_eq_true, if_false]

/-- A reachable host with at least one port-worker slot: `scanHostCustom`
returns a reachable record for that address; unless discovery-only, it has
dialled the scheduled custom list when that is non-empty, else the range. -/
theorem scanHostCustom_up (env : Env) (ip : String) (startPort endPort timeout : Int)
    (workers : Int) (customPorts : List Int) (ipsOnly : Bool) (sched : List Int → List Int)
    (h : (env.ping ip timeout).1 = true) (hw : 0 < workers) :
    ∃ r, scanHostCustom env ip startPort endPort timeout workers customPorts ipsOnly sched
        = some (r, [Event.ping ip, Event.lookupAddr ip, Event.macLookup ip]
            ++ (if ipsOnly then []
                else (sched (if customPorts.length > 0 then customPorts
                  else portRange startPort endPort)).map (Event.dial ip))) ∧
      r.IP = ip ∧ r.IsReachable = true := by
  have h1 : ¬ workers < 0 := by omega
  have h2 : ∀ ports : List Int, ¬ (workers = 0 ∧ ports ≠ []) := by intro ports; omega
  cases ipsOnly with
  | true =>
    refine ⟨{ IP := ip, MAC := (env.macVendor ip).1, Vendor := (env.macVendor ip).2,
              Hostname := env.hostname ip, Services := [], IsReachable := true,
              ResponseTime := (env.ping ip timeout).2 }, ?_, rfl, rfl⟩
    simp only [scanHostCustom, h, Bool.not_true, Bool.false_eq_true, if_false, if_true,
      List.append_nil]
  | false =>
    refine ⟨{ IP := ip, MAC := (env.macVendor ip).1, Vendor := (env.macVendor ip).2,
              Hostname := env.hostname ip,
              Services := sortSlice (fun a b => decide (a.Port < b.Port))
                (collectOpen env ip timeout (sched (if customPorts.length > 0 then customPorts
                  else portRange startPort endPort))),
              IsReachable := true, ResponseTime := (env.ping ip timeout).2 }, ?_, rfl, rfl⟩
    simp only [scanHostCustom, fanOut, h, h1, h2, Bool.not_true, Bool.false_eq_true, if_false]

/-- C8. When the reachability probe of `ip` fails, `scanHostCustom` and
`scanHostNew` both return the record with that IP, `IsReachable = false`,
empty `Hostname`, `MAC` and `Vendor` and no services, and the only call
made for the host is the ping: the trace holds no hostname lookup, no
MAC/vendor lookup and no port probe. This holds whatever the worker count,
port list, discovery-only flag and schedule are. -/
theorem unreachable_short_circuit (env : Env) (ip : String) (startPort endPort timeout : Int)
    (workers : Int) (customPorts : List Int) (ipsOnly : Bool) (sched : List Int → List Int)
    (h : (env.ping ip timeout).1 = false) :
    scanHostCustom env ip startPort endPort timeout workers customPorts ipsOnly sched
      = some ({ IP := ip, MAC := "", Vendor := "", Hostname := "", Services := [],
                IsReachable := false, ResponseTime := (env.ping ip timeout).2 },
              [Event.ping ip]) ∧
    scanHostNew env ip startPort endPort timeout workers sched
      = some ({ IP := ip, MAC := "", Vendor := "", Hostname := "", Services := [],
                IsReachable := false, ResponseTime := (env.ping ip timeout).2 },
              [Event.ping ip]) := by
  exact ⟨scanHostCustom_down env ip startPort endPort timeout workers customPorts ipsOnly sched h,
    scanHostNew_down env ip startPort endPort timeout workers sched h⟩

/-- Witness for C8: `10.255.255.2` does not answer in the sample network. -/
theorem unreachable_short_circuit_witness :
    scanHostCustom sampleEnv "10.255.255.2" 1 1024 200 100 [22, 80] false id
      = some ({ IP := "10.255.255.2", MAC := "", Vendor := "", Hostname := "", Services := [],
                IsReachable := false, ResponseTime := (sampleEnv.ping "10.255.255.2" 200).2 },
              [Event.ping "10.255.255.2"]) ∧
    scanHostNew sampleEnv "10.255.255.2" 1 1024 200 100 id
      = some ({ IP := "10.255.255.2", MAC := "", Vendor := "", Hostname := "", Services := [],
                IsReachable := false, ResponseTime := (sampleEnv.ping "10.255.255.2" 200).2 },
              [Event.ping "10.255.255.2"]) :=
  unreachable_short_circuit sampleEnv "10.255.255.2" 1 1024 200 100 [22, 80] false id
    (by decide)

/-- The ports `scanHostCustom` fans out over. -/
theorem scanHostCustom_inv (env : Env) (ip : String) (startPort endPort timeout : Int)
    (workers : Int) (customPorts : List Int) (ipsOnly : Bool) (sched : List Int → List Int)
    (hreach : (env.ping ip timeout).1 = true) (hs : ∀ l, (sched l).Perm l) (h : HostInfo)
    (tr : List Event)
    (hres : scanHostCustom env ip startPort endPort timeout workers customPorts ipsOnly sched
      = some (h, tr)) :
    h.Services.Pairwise (fun a b => a.Port ≤ b.Port) ∧
    h.Services.Perm
      (((if ipsOnly then []
          else if customPorts.length > 0 then customPorts
          else portRange startPort endPort).filter
          (fun p => (env.dial ip p timeout).1.isNone)).map
        (fun p => (scanPortNew env ip p timeout).1)) := by
  cases ipsOnly with
  | true =>
    simp only [scanHostCustom, hreach, Bool.not_true, Bool.false_eq_true, if_false, if_true,
      Option.some.injEq, Prod.mk.injEq] at hres
    obtain ⟨rfl, _⟩ := hres
    simp
  | false =>
    simp only [scanHostCustom, hreach, Bool.not_true, Bool.false_eq_true, if_false] at hres
    generalize (if customPorts.length > 0 then customPorts
      else portRange startPort endPort) = ports at hres ⊢
    cases hf : fanOut env ip timeout workers ports sched with
    | none => rw [hf] at hres; cases hres
    | some r =>
      obtain ⟨services, dials⟩ := r
      rw [hf] at hres
      simp only [Option.some.injEq, Prod.mk.injEq] at hres
      obtain ⟨rfl, _⟩ := hres
      exact fanOut_inv env ip timeout workers ports sched (hs _) services dials hf

/-- The ports `scanHostNew` fans out over. -/
theorem scanHostNew_inv (env : Env) (ip : String) (startPort endPort timeout : Int)
    (workers : Int) (sched : List Int → List Int)
    (hreach : (env.ping ip timeout).1 = true) (hs : ∀ l, (sched l).Perm l) (h : HostInfo)
    (tr : List Event)
    (hres : scanHostNew env ip startPort endPort timeout workers sched = some (h, tr)) :
    h.Services.Pairwise (fun a b => a.Port ≤ b.Port) ∧
    h.Services.Perm
      (((portRange startPort endPort).filter (fun p => (env.dial ip p timeout).1.isNone)).map
        (fun p => (scanPortNew env ip p timeout).1)) := by
  simp only [scanHostNew, hreach, Bool.not_true, Bool.false_eq_true, if_false] at hres
  cases hf : fanOut env ip timeout workers (portRange startPort endPort) sched with
  | none => rw [hf] at hres; cases hres
  | some r =>
    obtain ⟨services, dials⟩ := r
    rw [hf] at hres
    simp only [Option.some.injEq, Prod.mk.injEq] at hres
    obtain ⟨rfl, _⟩ := hres
    exact fanOut_inv env ip timeout workers _ sched (hs _) services dials hf

/-- C9. For a reachable host, every list of ports to probe (the custom list
when it is non-empty, else the range; none in discovery-only mode) and every
completion order of the port workers (a schedule that permutes the started
workers): whenever `scanHostCustom` or `scanHostNew` returns, the `Services`
of the returned record are ordered ascending by `Port` and are a
permutation of the records of exactly those probes whose connect
succeeded; and with at least one port-worker slot both do return. -/
theorem services_sorted_perm (env : Env) (ip : String) (startPort endPort timeout : Int)
    (workers : Int) (customPorts : List Int) (ipsOnly : Bool) (sched : List Int → List Int)
    (hreach : (env.ping ip timeout).1 = true) (hs : ∀ l, (sched l).Perm l) :
    (∀ h tr,
      scanHostCustom env ip startPort endPort timeout workers customPorts ipsOnly sched
        = some (h, tr) →
      h.Services.Pairwise (fun a b => a.Port ≤ b.Port) ∧
      h.Services.Perm
        (((if ipsOnly then []
            else if customPorts.length > 0 then customPorts
            else portRange startPort endPort).filter
            (fun p => (env.dial ip p timeout).1.isNone)).map
          (fun p => (scanPortNew env ip p timeout).1))) ∧
    (∀ h tr,
      scanHostNew env ip startPort endPort timeout workers sched = some (h, tr) →
      h.Services.Pairwise (fun a b => a.Port ≤ b.Port) ∧
      h.Services.Perm
        (((portRange startPort endPort).filter
            (fun p => (env.dial ip p timeout).1.isNone)).map
          (fun p => (scanPortNew env ip p timeout).1))) ∧
    (0 < workers →
      (∃ h tr,
        scanHostCustom env ip startPort endPort timeout workers customPorts ipsOnly sched
          = some (h, tr)) ∧
      (∃ h tr, scanHostNew env ip startPort endPort timeout workers sched = some (h, tr))) := by
  refine ⟨?_, ?_, ?_⟩
  · intro h tr hres
    exact scanHostCustom_inv env ip startPort endPort timeout workers customPorts ipsOnly sched
      hreach hs h tr hres
  · intro h tr hres
    exact scanHostNew_inv env ip startPort endPort timeout workers sched hreach hs h tr hres
  · intro hw
    obtain ⟨r1, e1, _⟩ := scanHostCustom_up env ip startPort endPort timeout workers customPorts
      ipsOnly sched hreach hw
    obtain ⟨r2, e2, _⟩ := scanHostNew_up env ip startPort endPort timeout workers sched hreach hw
    exact ⟨⟨_, _, e1⟩, ⟨_, _, e2⟩⟩

/-- Witness for C9: the reachable sample host probed on `[80, 443, 22]` with
the workers completing in reverse order; ports 22 and 80 are open. -/
theorem services_sorted_perm_witness :
    (scanHostCustom sampleEnv "10.255.255.1" 1 3 200 100 [80, 443, 22] false List.reverse).map
        (fun r => r.1.Services.map (fun s => s.Port)) = some [22, 80] ∧
    ((∀ h tr,
      scanHostCustom sampleEnv "10.255.255.1" 1 3 200 100 [80, 443, 22] false List.reverse
        = some (h, tr) →
      h.Services.Pairwise (fun a b => a.Port ≤ b.Port) ∧
      h.Services.Perm
        (((if false then []
            else if [80, 443, 22].length > 0 then [80, 443, 22]
            else portRange 1 3).filter
            (fun p => (sampleEnv.dial "10.255.255.1" p 200).1.isNone)).map
          (fun p => (scanPortNew sampleEnv "10.255.255.1" p 200).1))) ∧
    (∀ h tr,
      scanHostNew sampleEnv "10.255.255.1" 1 3 200 100 List.reverse = some (h, tr) →
      h.Services.Pairwise (fun a b => a.Port ≤ b.Port) ∧
      h.Services.Perm
        (((portRange 1 3).filter
            (fun p => (sampleEnv.dial "10.255.255.1" p 200).1.isNone)).map
          (fun p => (scanPortNew sampleEnv "10.255.255.1" p 200).1))) ∧
    ((0 : Int) < 100 →
      (∃ h tr,
        scanHostCustom sampleEnv "10.255.255.1" 1 3 200 100 [80, 443, 22] false List.reverse
          = some (h, tr)) ∧
      (∃ h tr, scanHostNew sampleEnv "10.255.255.1" 1 3 200 100 List.reverse = some (h, tr)))) :=
  ⟨by decide,
    services_sorted_perm sampleEnv "10.255.255.1" 1 3 200 100 [80, 443, 22] false List.reverse
      (by decide) (fun l => List.reverse_perm l)⟩

/-! ## Batch mode -/

/-- When every worker returns, the collected results are the workers'
records in completion order and the trace is the concatenation of theirs. -/
theorem runWorkers_eq (scan : String → Option (HostInfo × List Event)) (g : String → HostInfo)
    (gt : String → List Event) (l : List String)
    (h : ∀ ip ∈ l, scan ip = some (g ip, gt ip)) :
    runWorkers scan l = some (l.map g, l.flatMap gt) := by
  induction l with
  | nil => rfl
  | cons ip rest ih =>
    have h1 := h ip (List.mem_cons_self _ _)
    have h2 := ih (fun x hx => h x (List.mem_cons_of_mem _ hx))
    simp [runWorkers, h1, h2, List.flatMap_cons]

/-- The four addresses of a `/30` block. -/
theorem enumerate_slash30 (a b c d : Nat) (ha : a < 256) (hb : b < 256) (hc : c < 256)
    (hd : d < 256) (fuel : Nat) (hf : 4 < fuel) :
    ∃ net, ParseCIDR a b c d 30 = some net ∧
      enumerate net fuel = some [slash30 a b c d 0, slash30 a b c d 1, slash30 a b c d 2,
        slash30 a b c d 3] := by
  have h := enumerate_block a b c d 30 ha hb hc hd (by norm_num) (by norm_num) fuel
    (by norm_num; exact hf)
  refine ⟨_, h.1, ?_⟩
  rw [h.2]
  simp [slash30, List.range']


/-- Four workers of which exactly the second reports a reachable host: in
whatever order they complete, the collected list has four entries, one
reachable and three not. -/
theorem runWorkers_one_up (scan : String → Option (HostInfo × List Event))
    (s0 s1 s2 s3 : String) (order : List String) (hs : order.Perm [s0, s1, s2, s3])
    (d0 h1 d2 d3 : HostInfo) (t0 t1 t2 t3 : List Event)
    (e0 : scan s0 = some (d0, t0)) (e1 : scan s1 = some (h1, t1))
    (e2 : scan s2 = some (d2, t2)) (e3 : scan s3 = some (d3, t3))
    (r0 : d0.IsReachable = false) (r1 : h1.IsReachable = true)
    (r2 : d2.IsReachable = false) (r3 : d3.IsReachable = false) :
    ∃ results tr, runWorkers scan order = some (results, tr) ∧
      results.length = 4 ∧
      results.filter (fun h => h.IsReachable) = [h1] ∧
      (results.filter (fun h => !h.IsReachable)).Perm [d0, d2, d3] := by
  have hmem : ∀ ip ∈ order, scan ip
      = some (((scan ip).map Prod.fst).getD d0, ((scan ip).map Prod.snd).getD []) := by
    intro ip hip
    have := hs.subset hip
    simp only [List.mem_cons, List.mem_singleton, List.mem_nil_iff, or_false] at this
    rcases this with rfl | rfl | rfl | rfl
    · simp [e0]
    · simp [e1]
    · simp [e2]
    · simp [e3]
  have hrun := runWorkers_eq scan _ _ order hmem
  have hperm : (order.map (fun ip => ((scan ip).map Prod.fst).getD d0)).Perm [d0, h1, d2, d3] := by
    have := hs.map (fun ip => ((scan ip).map Prod.fst).getD d0)
    simpa [e0, e1, e2, e3] using this
  refine ⟨_, _, hrun, ?_, ?_, ?_⟩
  · simpa using hperm.length_eq
  · have := hperm.filter (fun h => h.IsReachable)
    simpa [r0, r1, r2, r3] using this
  · have := hperm.filter (fun h => !h.IsReachable)
    simpa [r0, r1, r2, r3] using this

/-- The workers of `scanHosts` on the four addresses of a `/30` block of
which only number 1 answers. -/
theorem scanHosts_slash30 (env : Env) (a b c d : Nat) (ps : PortScanner)
    (hhw : 0 < ps.hostWorkers) (hpw : 0 < ps.portWorkers) (startPort endPort timeout : Int)
    (hostSched : List String → List String) (hs : ∀ l, (hostSched l).Perm l)
    (portSched : String → List Int → List Int)
    (hup : (env.ping (slash30 a b c d 1) timeout).1 = true)
    (hd0 : (env.ping (slash30 a b c d 0) timeout).1 = false)
    (hd2 : (env.ping (slash30 a b c d 2) timeout).1 = false)
    (hd3 : (env.ping (slash30 a b c d 3) timeout).1 = false) :
    ∃ results tr h1,
      ps.scanHosts env [slash30 a b c d 0, slash30 a b c d 1, slash30 a b c d 2,
          slash30 a b c d 3] startPort endPort timeout hostSched portSched
        = some (results, tr) ∧
      results.length = 4 ∧
      results.filter (fun h => h.IsReachable) = [h1] ∧
      h1.IP = slash30 a b c d 1 ∧
      (results.filter (fun h => !h.IsReachable)).Perm
        [downRecord env (slash30 a b c d 0) timeout, downRecord env (slash30 a b c d 2) timeout,
         downRecord env (slash30 a b c d 3) timeout] := by
  obtain ⟨h1, e1, hip, hr⟩ := scanHostNew_up env (slash30 a b c d 1) startPort endPort timeout
    ps.portWorkers (portSched (slash30 a b c d 1)) hup hpw
  obtain ⟨results, tr, hrun, hlen, hfil, hrest⟩ := runWorkers_one_up
    (fun hostIP => scanHostNew env hostIP startPort endPort timeout ps.portWorkers
      (portSched hostIP))
    (slash30 a b c d 0) (slash30 a b c d 1) (slash30 a b c d 2) (slash30 a b c d 3)
    (hostSched _) (hs _) _ h1 _ _ _ _ _ _
    (scanHostNew_down env _ startPort endPort timeout ps.portWorkers _ hd0) e1
    (scanHostNew_down env _ startPort endPort timeout ps.portWorkers _ hd2)
    (scanHostNew_down env _ startPort endPort timeout ps.portWorkers _ hd3)
    rfl hr rfl rfl
  have g1 : ¬ ps.hostWorkers < 0 := by omega
  have g2 : ∀ l : List String, ¬ (ps.hostWorkers = 0 ∧ l ≠ []) := by intro l; omega
  refine ⟨results, tr, h1, ?_, hlen, hfil, hip, hrest⟩
  simp only [PortScanner.scanHosts, g1, g2, if_false]
  exact hrun

/-- The workers of `scanHostsNonInteractive` on the four addresses of a
`/30` block of which only number 1 answers. -/
theorem scanHostsNonInteractive_slash30 (env : Env) (a b c d : Nat)
    (startPort endPort timeout : Int) (customPorts : List Int) (ipsOnly : Bool)
    (hostSched : List String → List String) (hs : ∀ l, (hostSched l).Perm l)
    (portSched : String → List Int → List Int)
    (hup : (env.ping (slash30 a b c d 1) timeout).1 = true)
    (hd0 : (env.ping (slash30 a b c d 0) timeout).1 = false)
    (hd2 : (env.ping (slash30 a b c d 2) timeout).1 = false)
    (hd3 : (env.ping (slash30 a b c d 3) timeout).1 = false) :
    ∃ results tr h1,
      scanHostsNonInteractive env [slash30 a b c d 0, slash30 a b c d 1, slash30 a b c d 2,
          slash30 a b c d 3] startPort endPort timeout customPorts ipsOnly hostSched portSched
        = some (results, tr) ∧
      results.length = 4 ∧
      results.filter (fun h => h.IsReachable) = [h1] ∧
      h1.IP = slash30 a b c d 1 ∧
      (results.filter (fun h => !h.IsReachable)).Perm
        [downRecord env (slash30 a b c d 0) timeout, downRecord env (slash30 a b c d 2) timeout,
         downRecord env (slash30 a b c d 3) timeout] := by
  obtain ⟨h1, e1, hip, hr⟩ := scanHostCustom_up env (slash30 a b c d 1) startPort endPort timeout
    20 customPorts ipsOnly (portSched (slash30 a b c d 1)) hup (by norm_num)
  obtain ⟨results, tr, hrun, hlen, hfil, hrest⟩ := runWorkers_one_up
    (fun ip => scanHostCustom env ip startPort endPort timeout 20 customPorts ipsOnly
      (portSched ip))
    (slash30 a b c d 0) (slash30 a b c d 1) (slash30 a b c d 2) (slash30 a b c d 3)
    (hostSched _) (hs _) _ h1 _ _ _ _ _ _
    (scanHostCustom_down env _ startPort endPort timeout 20 customPorts ipsOnly _ hd0) e1
    (scanHostCustom_down env _ startPort endPort timeout 20 customPorts ipsOnly _ hd2)
    (scanHostCustom_down env _ startPort endPort timeout 20 customPorts ipsOnly _ hd3)
    rfl hr rfl rfl
  exact ⟨results, tr, h1, hrun, hlen, hfil, hip, hrest⟩

/-- C6 (as stated, refuted). Batch scan of `10.255.255.0/30` in the sample
network, where only `.1` answers: four entries come back, the reachable
`.1` and three unreachable ones (`.0`, `.2`, `.3`), not two. -/
theorem batch_slash30_not_two :
    ∃ results tr,
      (NewPortScanner 10 50).ScanSubnet sampleEnv ⟨10, 255, 255, 0, 30⟩ 80 80 10000000 5 id
        (fun _ => id) = some (results, tr) ∧
      results.map (fun h => (h.IP, h.IsReachable))
        = [("10.255.255.0", false), ("10.255.255.1", true), ("10.255.255.2", false),
           ("10.255.255.3", false)] ∧
      (results.filter (fun h => !h.IsReachable)).length = 3 ∧
      (results.filter (fun h => !h.IsReachable)).length ≠ 2 := by
  refine ⟨_, _, rfl, ?_, ?_, ?_⟩ <;> decide

/-- C6 (amended). In batch mode, scanning a `/30` subnet in which only
address number 1 of the block answers the reachability probe returns
exactly four entries, one per enumerated address, network and broadcast
address included: exactly one entry with `IsReachable = true`, the one for
number 1, and exactly three further entries, the unreachable records of
numbers 0, 2 and 3. This holds for `ScanSubnet` (positive worker counts)
and for the scan of `runNonInteractiveMode`, for every completion order. -/
theorem batch_slash30_four_entries (env : Env) (a b c d : Nat) (ha : a < 256) (hb : b < 256)
    (hc : c < 256) (hd : d < 256) (ps : PortScanner) (hhw : 0 < ps.hostWorkers)
    (hpw : 0 < ps.portWorkers) (startPort endPort timeout timeoutMs : Int)
    (customPorts : List Int) (ipsOnly : Bool) (fuel : Nat) (hf : 4 < fuel)
    (hostSched : List String → List String) (hs : ∀ l, (hostSched l).Perm l)
    (portSched : String → List Int → List Int)
    (hup : ∀ t, (env.ping (slash30 a b c d 1) t).1 = true)
    (hd0 : ∀ t, (env.ping (slash30 a b c d 0) t).1 = false)
    (hd2 : ∀ t, (env.ping (slash30 a b c d 2) t).1 = false)
    (hd3 : ∀ t, (env.ping (slash30 a b c d 3) t).1 = false) :
    (∃ results tr h1,
      ps.ScanSubnet env ⟨a, b, c, d, 30⟩ startPort endPort timeout fuel hostSched portSched
        = some (results, tr) ∧
      results.length = 4 ∧
      results.filter (fun h => h.IsReachable) = [h1] ∧
      h1.IP = slash30 a b c d 1 ∧
      (results.filter (fun h => !h.IsReachable)).Perm
        [downRecord env (slash30 a b c d 0) timeout, downRecord env (slash30 a b c d 2) timeout,
         downRecord env (slash30 a b c d 3) timeout]) ∧
    (∃ results tr h1,
      runNonInteractiveScan env ⟨a, b, c, d, 30⟩ startPort endPort timeoutMs customPorts ipsOnly
        fuel hostSched portSched = some (results, tr) ∧
      results.length = 4 ∧
      results.filter (fun h => h.IsReachable) = [h1] ∧
      h1.IP = slash30 a b c d 1 ∧
      (results.filter (fun h => !h.IsReachable)).Perm
        [downRecord env (slash30 a b c d 0) (timeoutMs * 1000000),
         downRecord env (slash30 a b c d 2) (timeoutMs * 1000000),
         downRecord env (slash30 a b c d 3) (timeoutMs * 1000000)]) := by
  obtain ⟨net, hparse, henum⟩ := enumerate_slash30 a b c d ha hb hc hd fuel hf
  have hsub : Subnet.parse ⟨a, b, c, d, 30⟩ = some net := hparse
  constructor
  · obtain ⟨results, tr, h1, hrun, rest⟩ := scanHosts_slash30 env a b c d ps hhw hpw startPort
      endPort timeout hostSched hs portSched (hup _) (hd0 _) (hd2 _) (hd3 _)
    refine ⟨results, tr, h1, ?_, rest⟩
    simp only [PortScanner.ScanSubnet, hsub, henum]
    exact hrun
  · by_cases hc : ipsOnly = true ∨ customPorts.length > 0
    · obtain ⟨results, tr, h1, hrun, rest⟩ := scanHostsNonInteractive_slash30 env a b c d
        startPort endPort (timeoutMs * 1000000) customPorts ipsOnly hostSched hs portSched
        (hup _) (hd0 _) (hd2 _) (hd3 _)
      refine ⟨results, tr, h1, ?_, rest⟩
      simp only [runNonInteractiveScan, hsub, henum, hc, if_true]
      exact hrun
    · obtain ⟨results, tr, h1, hrun, rest⟩ := scanHosts_slash30 env a b c d
        (NewPortScanner 10 50) (by decide) (by decide) startPort endPort (timeoutMs * 1000000)
        hostSched hs portSched (hup _) (hd0 _) (hd2 _) (hd3 _)
      refine ⟨results, tr, h1, ?_, rest⟩
      simp only [runNonInteractiveScan, PortScanner.ScanSubnet, hsub, henum, hc, if_false]
      exact hrun

/-- Witness for the amended C6: `10.255.255.0/30` in the sample network. -/
theorem batch_slash30_four_entries_witness :
    (∃ results tr h1,
      (NewPortScanner 10 50).ScanSubnet sampleEnv ⟨10, 255, 255, 0, 30⟩ 80 80 10000000 5
        List.reverse (fun _ => id) = some (results, tr) ∧
      results.length = 4 ∧
      results.filter (fun h => h.IsReachable) = [h1] ∧
      h1.IP = slash30 10 255 255 0 1 ∧
      (results.filter (fun h => !h.IsReachable)).Perm
        [downRecord sampleEnv (slash30 10 255 255 0 0) 10000000,
         downRecord sampleEnv (slash30 10 255 255 0 2) 10000000,
         downRecord sampleEnv (slash30 10 255 255 0 3) 10000000]) ∧
    (∃ results tr h1,
      runNonInteractiveScan sampleEnv ⟨10, 255, 255, 0, 30⟩ 1 1024 10 getCommonPorts false
        5 List.reverse (fun _ => id) = some (results, tr) ∧
      results.length = 4 ∧
      results.filter (fun h => h.IsReachable) = [h1] ∧
      h1.IP = slash30 10 255 255 0 1 ∧
      (results.filter (fun h => !h.IsReachable)).Perm
        [downRecord sampleEnv (slash30 10 255 255 0 0) (10 * 1000000),
         downRecord sampleEnv (slash30 10 255 255 0 2) (10 * 1000000),
         downRecord sampleEnv (slash30 10 255 255 0 3) (10 * 1000000)]) :=
  batch_slash30_four_entries sampleEnv 10 255 255 0 (by decide) (by decide) (by decide)
    (by decide) (NewPortScanner 10 50) (by decide) (by decide) 80 80 10000000 10
    getCommonPorts false 5 (by decide) List.reverse (fun l => List.reverse_perm l)
    (fun _ => id) (fun _ => rfl) (fun _ => rfl) (fun _ => rfl) (fun _ => rfl)

/-! ## Memory -/

theorem getD_set_ne (m : Mem) (a b : Nat) (x : List HostInfo) (h : a ≠ b) :
    (m.set b x).getD a [] = m.getD a [] := by
  simp [List.getD_eq_getElem?_getD, List.getElem?_set_ne (Ne.symm h)]

theorem getD_set_eq (m : Mem) (a : Nat) (x : List HostInfo) (h : a < m.length) :
    (m.set a x).getD a [] = x := by
  simp [List.getD_eq_getElem?_getD, List.getElem?_set_self, h]

theorem getD_append_lt (m : Mem) (a : Nat) (x : List HostInfo) (h : a < m.length) :
    (m ++ [x]).getD a [] = m.getD a [] := by
  simp [List.getD_eq_getElem?_getD, List.getElem?_append_left h]

theorem getD_append_length (m : Mem) (x : List HostInfo) :
    (m ++ [x]).getD m.length [] = x := by
  simp [List.getD_eq_getElem?_getD]

theorem take_sorted_append (n : Nat) (A arr : List HostInfo)
    (hA : A.length = min n arr.length) : (A ++ arr.drop n).take n = A := by
  rw [List.take_append_eq_append_take]
  have h1 : A.take n = A := List.take_of_length_le (by omega)
  have h2 : (arr.drop n).take (n - A.length) = [] := by
    rcases Nat.lt_or_ge arr.length n with h | h
    · rw [List.drop_of_length_le (by omega)]; simp
    · have : n - A.length = 0 := by omega
      rw [this]; simp
  rw [h1, h2, List.append_nil]

/-- Reading a slice whose array sits at a valid address. -/
theorem read_some (m : Mem) (s : Slice) (a : Nat) (ha : s.arr = some a) :
    m.read s = (m.getD a []).take s.len := by
  simp [Mem.read, ha]

/-- After `sort.Slice` the slice shows its former elements, sorted. -/
theorem read_sortInPlace (less : HostInfo → HostInfo → Bool) (m : Mem) (s : Slice) (a : Nat)
    (ha : s.arr = some a) (hlt : a < m.length) :
    (sortInPlace less m s).read s = sortSlice less (m.read s) := by
  have hlen : (sortSlice less (m.read s)).length = min s.len (m.getD a []).length := by
    rw [(sortSlice_perm less _).length_eq, read_some m s a ha, List.length_take]
  rw [read_some _ s a ha]
  simp only [sortInPlace, ha]
  rw [getD_set_eq _ _ _ hlt]
  exact take_sorted_append _ _ _ hlen

/-- Sorting a slice leaves every other array alone. -/
theorem sortInPlace_frame (less : HostInfo → HostInfo → Bool) (m : Mem) (s : Slice) :
    (sortInPlace less m s).length = m.length ∧
    ∀ b, s.arr ≠ some b → (sortInPlace less m s).getD b [] = m.getD b [] := by
  unfold sortInPlace
  cases hs : s.arr with
  | none => exact ⟨rfl, fun _ _ => rfl⟩
  | some a =>
    refine ⟨by simp, ?_⟩
    intro b hb
    exact getD_set_ne _ _ _ _ (fun e => hb (by rw [e]))

/-- What `append` does to the heap and the slice. -/
theorem appendSlice_spec (grow : Nat → Nat) (m : Mem) (s : Slice) (v : HostInfo)
    (hv : ∀ a, s.arr = some a → a < m.length) :
    (∃ a1, (appendSlice grow m s v).2.arr = some a1 ∧ a1 < (appendSlice grow m s v).1.length ∧
      (s.arr = some a1 ∨ a1 = m.length)) ∧
    (appendSlice grow m s v).1.read (appendSlice grow m s v).2 = m.read s ++ [v] ∧
    m.length ≤ (appendSlice grow m s v).1.length ∧
    (∀ b, b < m.length → s.arr ≠ some b →
      (appendSlice grow m s v).1.getD b [] = m.getD b []) := by
  cases hs : s.arr with
  | none =>
    have e : appendSlice grow m s v
        = (m ++ [[v]], { arr := some m.length, len := 1, cap := max 1 (grow 0) }) := by
      simp [appendSlice, hs]
    rw [e]
    refine ⟨⟨m.length, rfl, by simp, Or.inr rfl⟩, ?_, by simp, ?_⟩
    · simp [Mem.read, hs, getD_append_length]
    · intro b hb _
      exact getD_append_lt _ _ _ hb
  | some a =>
    have hlt := hv a hs
    by_cases hc : s.len < s.cap
    · have e : appendSlice grow m s v
          = (m.set a ((m.getD a []).take s.len ++ [v]), { s with len := s.len + 1 }) := by
        simp [appendSlice, hs, hc]
      rw [e]
      refine ⟨⟨a, hs, by simpa using hlt, Or.inl rfl⟩, ?_, by simp, ?_⟩
      · simp only [Mem.read, hs, getD_set_eq _ _ _ hlt]
        apply List.take_of_length_le
        simp only [List.length_append, List.length_take, List.length_singleton]
        omega
      · intro b _ hb
        exact getD_set_ne _ _ _ _ (fun e => hb (by rw [e]))
    · have e : appendSlice grow m s v
          = (m ++ [m.read s ++ [v]],
             { arr := some m.length, len := s.len + 1, cap := max (s.len + 1) (grow s.cap) }) := by
        simp [appendSlice, hs, hc]
      rw [e]
      refine ⟨⟨m.length, rfl, by simp, Or.inr rfl⟩, ?_, by simp, ?_⟩
      · simp only [Mem.read, getD_append_length]
        apply List.take_of_length_le
        simp only [List.length_append, List.length_singleton, hs, List.length_take]
        omega
      · intro b hb _
        exact getD_append_lt _ _ _ hb

/-- What the worker's second critical section does to the result list. -/
theorem recordHost_spec (grow : Nat → Nat) (h : HostInfo) (w : World)
    (hv : ∀ a, w.gs.results.arr = some a → a < w.mem.length) :
    (recordHost grow h w).results
      = (if h.IsReachable then sortSlice ipLess (w.results ++ [h]) else w.results) ∧
    (∀ a1, (recordHost grow h w).gs.results.arr = some a1 →
      a1 < (recordHost grow h w).mem.length ∧
      (w.gs.results.arr = some a1 ∨ a1 = w.mem.length)) ∧
    w.mem.length ≤ (recordHost grow h w).mem.length ∧
    (∀ b, b < w.mem.length → w.gs.results.arr ≠ some b →
      (recordHost grow h w).mem.getD b [] = w.mem.getD b []) := by
  by_cases hr : h.IsReachable = true
  · obtain ⟨⟨a1, ha1, hlt1, hor⟩, hread, hlen, hframe⟩ :=
      appendSlice_spec grow w.mem w.gs.results h hv
    have hsf := sortInPlace_frame ipLess (appendSlice grow w.mem w.gs.results h).1
      (appendSlice grow w.mem w.gs.results h).2
    have hrs := read_sortInPlace ipLess _ _ a1 ha1 hlt1
    simp only [recordHost, hr, if_true, World.results]
    refine ⟨?_, ?_, ?_, ?_⟩
    · rw [hrs, hread]
    · intro a2 ha2
      rw [ha1] at ha2
      cases ha2
      exact ⟨by rw [hsf.1]; exact hlt1, hor⟩
    · rw [hsf.1]; exact hlen
    · intro b hb hne
      have hne1 : (appendSlice grow w.mem w.gs.results h).2.arr ≠ some b := by
        rw [ha1]
        intro e
        cases e
        rcases hor with h1 | h1
        · exact hne h1
        · omega
      rw [hsf.2 b hne1]
      exact hframe b hb hne
  · simp only [recordHost, hr, World.results]
    simp only [Bool.false_eq_true, if_false]
    exact ⟨trivial, fun a1 ha1 => ⟨hv a1 ha1, Or.inl ha1⟩, le_refl _, fun _ _ _ => trivial⟩

/-- A caller operation on a slice other than the state's leaves the state's
array alone. -/
theorem callerOp_frame (op : CallerOp) (m m1 : Mem) (s : Slice) (b : Nat) (hb : s.arr = some b)
    (hop : op.apply m s = some m1) :
    m1.length = m.length ∧ ∀ a, a ≠ b → m1.getD a [] = m.getD a [] := by
  cases op with
  | write i v =>
    simp only [CallerOp.apply, Mem.writeAt, hb] at hop
    split_ifs at hop
    cases hop
    exact ⟨by simp, fun a ha => getD_set_ne _ _ _ _ ha⟩
  | sort less =>
    simp only [CallerOp.apply] at hop
    cases hop
    have h := sortInPlace_frame less m s
    refine ⟨h.1, fun a ha => h.2 a ?_⟩
    rw [hb]
    intro e
    cases e
    exact ha rfl

/-- Every step keeps the heap discipline, and the state's result list is
either unchanged, or emptied, or extended by one reachable host and sorted. -/
theorem step_results (c c1 : Config) (hs : Step c c1) (hm : c.memOk) :
    c1.memOk ∧
    (c1.world.results = c.world.results ∨ c1.world.results = [] ∨
      ∃ h, h.IsReachable = true ∧ c1.world.results = sortSlice ipLess (c.world.results ++ [h])) := by
  obtain ⟨hv, hh⟩ := hm
  cases hs with
  | start p now h =>
    refine ⟨⟨?_, ?_⟩, Or.inr (Or.inl ?_)⟩
    · intro a ha
      simp only [beginScan] at ha
      cases ha
      simp [beginScan]
    · intro s hs
      obtain ⟨b, hb, hlt, hne⟩ := hh s hs
      refine ⟨b, hb, ?_, ?_⟩
      · simp only [beginScan, List.length_append, List.length_singleton]; omega
      · simp only [beginScan]
        intro e
        cases e
        omega
    · simp [World.results, Mem.read, beginScan]
  | parseFail p h hp => exact ⟨⟨hv, hh⟩, Or.inl rfl⟩
  | enumerated p ipnet fuel ips h hp he => exact ⟨⟨hv, hh⟩, Or.inl rfl⟩
  | spawn p ip todo started running h hsem => exact ⟨⟨hv, hh⟩, Or.inl rfl⟩
  | announce p ip todo started running h hip => exact ⟨⟨hv, hh⟩, Or.inl rfl⟩
  | finish p h => exact ⟨⟨hv, hh⟩, Or.inl rfl⟩
  | complete p ip todo started running env sched grow hostInfo tr h hip hscan =>
    obtain ⟨hres, hval, hlen, hframe⟩ := recordHost_spec grow hostInfo c.world hv
    refine ⟨⟨fun a ha => (hval a ha).1, ?_⟩, ?_⟩
    · intro s hs
      obtain ⟨b, hb, hlt, hne⟩ := hh s hs
      refine ⟨b, hb, lt_of_lt_of_le hlt hlen, ?_⟩
      intro e
      rcases (hval b e).2 with h1 | h1
      · exact hne h1
      · omega
    · by_cases hr : hostInfo.IsReachable = true
      · exact Or.inr (Or.inr ⟨hostInfo, hr, by rw [hres, if_pos hr]⟩)
      · exact Or.inl (by rw [hres, if_neg hr])
  | observe =>
    refine ⟨⟨?_, ?_⟩, Or.inl ?_⟩
    · intro a ha
      have := hv a ha
      simp only [GetScanResults, cloneSlice, List.length_append, List.length_singleton]
      omega
    · intro s hs
      simp only [GetScanResults, cloneSlice, List.length_append, List.length_singleton]
      rcases List.mem_cons.mp hs with rfl | hs
      · refine ⟨c.world.mem.length, rfl, by omega, ?_⟩
        intro e
        have := hv _ e
        omega
      · obtain ⟨b, hb, hlt, hne⟩ := hh s hs
        exact ⟨b, hb, by omega, hne⟩
    · simp only [World.results, GetScanResults, cloneSlice, Mem.read]
      cases ha : c.world.gs.results.arr with
      | none => rfl
      | some a => simp only []; rw [getD_append_lt _ _ _ (hv a ha)]
  | caller s op m hs hop =>
    obtain ⟨b, hb, hlt, hne⟩ := hh s hs
    obtain ⟨hlen, hframe⟩ := callerOp_frame op c.world.mem m s b hb hop
    refine ⟨⟨?_, ?_⟩, Or.inl ?_⟩
    · intro a ha
      show a < m.length
      rw [hlen]
      exact hv a ha
    · intro s1 hs1
      obtain ⟨b1, hb1, hlt1, hne1⟩ := hh s1 hs1
      exact ⟨b1, hb1, by show b1 < m.length; rw [hlen]; exact hlt1, hne1⟩
    · simp only [World.results, Mem.read]
      cases ha : c.world.gs.results.arr with
      | none => rfl
      | some a =>
        simp only []
        rw [hframe a (fun e => hne (by rw [ha, e]))]

/-- The heap discipline holds in every reachable configuration. -/
theorem reachable_memOk (c : Config) (hc : Reachable c) : c.memOk := by
  induction hc with
  | init =>
    refine ⟨?_, ?_⟩
    · intro a ha
      simp [Config.init, World.init, Slice.nil] at ha
    · intro s hs
      simp [Config.init] at hs
  | step c c1 _ hs ih => exact (step_results c c1 hs ih).1

/-! ## The shared scan state -/

/-- The sample run is a run of the program. -/
theorem sampleRun6_reachable : Reachable sampleRun6 := by
  have r1 : Reachable sampleRun1 :=
    Reachable.step _ _ Reachable.init (Step.start Config.init sampleParams 1000 rfl)
  have r2 : Reachable sampleRun2 :=
    Reachable.step _ _ r1 (Step.enumerated sampleRun1 sampleParams
      { IP := [10, 255, 255, 0], Mask := [255, 255, 255, 252] } 5
      ["10.255.255.0", "10.255.255.1", "10.255.255.2", "10.255.255.3"] rfl (by decide)
      (by decide))
  have r3 : Reachable sampleRun3 :=
    Reachable.step _ _ r2 (Step.spawn sampleRun2 sampleParams "10.255.255.0"
      ["10.255.255.1", "10.255.255.2", "10.255.255.3"] [] [] rfl (by decide))
  have r4 : Reachable sampleRun4 :=
    Reachable.step _ _ r3 (Step.spawn sampleRun3 sampleParams "10.255.255.1"
      ["10.255.255.2", "10.255.255.3"] ([] ++ ["10.255.255.0"]) [] rfl (by decide))
  have r5 : Reachable sampleRun5 :=
    Reachable.step _ _ r4 (Step.announce sampleRun4 sampleParams "10.255.255.1"
      ["10.255.255.2", "10.255.255.3"] (([] ++ ["10.255.255.0"]) ++ ["10.255.255.1"]) [] rfl
      (by decide))
  exact
    Reachable.step _ _ r5 (Step.complete sampleRun5 sampleParams "10.255.255.1"
      ["10.255.255.2", "10.255.255.3"]
      (List.erase (([] ++ ["10.255.255.0"]) ++ ["10.255.255.1"]) "10.255.255.1")
      ([] ++ ["10.255.255.1"]) sampleEnv id (fun n => 2 * n) sampleHost
      ([Event.ping "10.255.255.1", Event.lookupAddr "10.255.255.1",
        Event.macLookup "10.255.255.1", Event.dial "10.255.255.1" 80,
        Event.dial "10.255.255.1" 443, Event.dial "10.255.255.1" 22])
      rfl (by decide) (by decide))

/-- The sample run with the results fetched is a run of the program. -/
theorem sampleRun7_reachable : Reachable sampleRun7 :=
  Reachable.step _ _ sampleRun6_reachable (Step.observe sampleRun6)

/-- The counters after the worker's second critical section. -/
theorem recordHost_counters (grow : Nat → Nat) (h : HostInfo) (w : World) :
    (recordHost grow h w).gs.hostsScanned = w.gs.hostsScanned + 1 ∧
    (recordHost grow h w).gs.totalHosts = w.gs.totalHosts ∧
    (recordHost grow h w).gs.activeHosts
      = w.gs.activeHosts + (if h.IsReachable then 1 else 0) := by
  by_cases hr : h.IsReachable = true
  · simp [recordHost, hr]
  · simp [recordHost, hr]

/-- Every step keeps the counter invariant. -/
theorem step_counters (c c1 : Config) (hs : Step c c1) (hi : c.countersOk) : c1.countersOk := by
  cases hs with
  | start p now h =>
    simp only [Config.countersOk, h] at hi
    simp only [Config.countersOk, beginScan, le_refl, true_and]
    omega
  | parseFail p h hp =>
    simp only [Config.countersOk, h] at hi
    simp only [Config.countersOk, endScan]
    omega
  | enumerated p ipnet fuel ips h hp he =>
    simp only [Config.countersOk, h] at hi
    simp only [Config.countersOk, setTotal, List.length_nil]
    omega
  | spawn p ip todo started running h hsem =>
    simp only [Config.countersOk, h, List.length_cons] at hi
    simp only [Config.countersOk, List.length_append, List.length_singleton]
    omega
  | announce p ip todo started running h hip =>
    simp only [Config.countersOk, h] at hi
    have hl := List.length_erase_of_mem hip
    have hpos : 0 < started.length := List.length_pos_of_mem hip
    simp only [Config.countersOk, setCurrentHost, List.length_append, List.length_singleton, hl]
    omega
  | complete p ip todo started running env sched grow hostInfo tr h hip hscan =>
    simp only [Config.countersOk, h] at hi
    have hl := List.length_erase_of_mem hip
    have hpos : 0 < running.length := List.length_pos_of_mem hip
    obtain ⟨e1, e2, e3⟩ := recordHost_counters grow hostInfo c.world
    simp only [Config.countersOk, e1, e2, e3, hl]
    split_ifs <;> omega
  | finish p h =>
    simp only [Config.countersOk, h, List.length_nil] at hi
    simp only [Config.countersOk, endScan]
    omega
  | observe =>
    cases hp : c.phase <;> simp only [Config.countersOk, hp, GetScanResults] at hi ⊢ <;> exact hi
  | caller s op m hs hop =>
    cases hp : c.phase <;> simp only [Config.countersOk, hp] at hi ⊢ <;> exact hi

/-- The counter invariant holds in every reachable configuration. -/
theorem reachable_countersOk (c : Config) (hc : Reachable c) : c.countersOk := by
  induction hc with
  | init => simp [Config.countersOk, Config.init, World.init]
  | step c c1 _ hs ih => exact step_counters c c1 hs ih

/-- The counter invariant bounds the progress counters in every phase. -/
theorem countersOk_bounds (c : Config) (hi : c.countersOk) :
    c.world.gs.hostsScanned ≤ c.world.gs.totalHosts ∧
    c.world.gs.activeHosts ≤ c.world.gs.hostsScanned := by
  cases hp : c.phase <;> simp only [Config.countersOk, hp] at hi <;> omega

theorem ipLess_iff (a b : HostInfo) : ipLess a b = true ↔ ipToInt a.IP < ipToInt b.IP := by
  simp [ipLess]

/-- The result list is ordered by `ipToInt` and holds reachable hosts only,
in every reachable configuration. -/
theorem reachable_results (c : Config) (hc : Reachable c) :
    c.world.results.Pairwise (fun a b => ipToInt a.IP ≤ ipToInt b.IP) ∧
    ∀ h ∈ c.world.results, h.IsReachable = true := by
  induction hc with
  | init => simp [Config.init, World.init, World.results, Mem.read, Slice.nil]
  | step c c1 hc hs ih =>
    rcases (step_results c c1 hs (reachable_memOk c hc)).2 with e | e | ⟨h, hr, e⟩
    · rw [e]; exact ih
    · rw [e]; simp
    · rw [e]
      refine ⟨sortSlice_sorted (fun a : HostInfo => ipToInt a.IP) ipLess ipLess_iff _, ?_⟩
      intro x hx
      have hx1 := (sortSlice_perm ipLess _).subset hx
      rcases List.mem_append.mp hx1 with h1 | h1
      · exact ih.2 x h1
      · rw [List.mem_singleton.mp h1]; exact hr

/-- The copy `GetScanResults` returns shows the state's result list. -/
theorem getScanResults_read (w : World)
    (hv : ∀ a, w.gs.results.arr = some a → a < w.mem.length) :
    (GetScanResults w).1.mem.read (GetScanResults w).2 = w.results ∧
    (GetScanResults w).1.results = w.results := by
  constructor
  · simp only [GetScanResults, cloneSlice, Mem.read, getD_append_length, World.results]
    cases ha : w.gs.results.arr with
    | none => simp
    | some a => simp
  · simp only [World.results, GetScanResults, cloneSlice, Mem.read]
    cases ha : w.gs.results.arr with
    | none => rfl
    | some a => simp only []; rw [getD_append_lt _ _ _ (hv a ha)]

/-- A sequence of caller operations on a slice leaves every other array
alone. -/
theorem applyOps_frame (ops : List CallerOp) (m m2 : Mem) (s : Slice) (b : Nat)
    (hb : s.arr = some b) (hops : applyOps m s ops = some m2) :
    m2.length = m.length ∧ ∀ a, a ≠ b → m2.getD a [] = m.getD a [] := by
  induction ops generalizing m with
  | nil =>
    simp only [applyOps] at hops
    cases hops
    exact ⟨rfl, fun _ _ => rfl⟩
  | cons op ops ih =>
    simp only [applyOps] at hops
    cases h1 : op.apply m s with
    | none => rw [h1] at hops; cases hops
    | some m1 =>
      rw [h1] at hops
      obtain ⟨l1, f1⟩ := callerOp_frame op m m1 s b hb h1
      obtain ⟨l2, f2⟩ := ih m1 hops
      exact ⟨l2.trans l1, fun a ha => (f2 a ha).trans (f1 a ha)⟩

/-- C3. In every configuration reachable from the initial one by the steps
of the program (reset, parse failure, setting `totalHosts`, worker start,
one completion per started worker in any order, finish, a rescan once the
goroutine has ended, and callers reading or scribbling on their copies),
`GetScanProgress` returns `HostsScanned ≤ TotalHosts` and
`ActiveHosts ≤ HostsScanned`. -/
theorem progress_counters_bounded (c : Config) (hc : Reachable c) :
    (GetScanProgress c.world).HostsScanned ≤ (GetScanProgress c.world).TotalHosts ∧
    (GetScanProgress c.world).ActiveHosts ≤ (GetScanProgress c.world).HostsScanned :=
  countersOk_bounds c (reachable_countersOk c hc)

/-- Witness for C3: the sample run, one host of four recorded. -/
theorem progress_counters_bounded_witness :
    Reachable sampleRun7 ∧
    (GetScanProgress sampleRun7.world).HostsScanned = 1 ∧
    (GetScanProgress sampleRun7.world).TotalHosts = 4 ∧
    (GetScanProgress sampleRun7.world).HostsScanned
      ≤ (GetScanProgress sampleRun7.world).TotalHosts ∧
    (GetScanProgress sampleRun7.world).ActiveHosts
      ≤ (GetScanProgress sampleRun7.world).HostsScanned :=
  ⟨sampleRun7_reachable, by decide, by decide,
    progress_counters_bounded sampleRun7 sampleRun7_reachable⟩

/-- C4. In every reachable configuration, whatever the order in which the
host workers completed, the result list held in the shared scan state and
the list `GetScanResults` returns are ordered ascending by `ipToInt` of the
hosts' IP texts; recording a further reachable host leaves the list ordered
and adds exactly that host; and `ipToInt` of the dotted-decimal text of an
IPv4 address is the numeric value of the address. -/
theorem results_sorted_by_ip (c : Config) (hc : Reachable c) :
    c.world.results.Pairwise (fun a b => ipToInt a.IP ≤ ipToInt b.IP) ∧
    ((GetScanResults c.world).1.mem.read (GetScanResults c.world).2).Pairwise
      (fun a b => ipToInt a.IP ≤ ipToInt b.IP) ∧
    (∀ (grow : Nat → Nat) (h : HostInfo), h.IsReachable = true →
      (recordHost grow h c.world).results.Pairwise (fun a b => ipToInt a.IP ≤ ipToInt b.IP) ∧
      (recordHost grow h c.world).results.Perm (c.world.results ++ [h])) ∧
    (∀ a b c d : Nat, a < 256 → b < 256 → c < 256 → d < 256 →
      ipToInt (ipString [a, b, c, d]) = ipVal [a, b, c, d]) := by
  have hv := (reachable_memOk c hc).1
  refine ⟨(reachable_results c hc).1, ?_, ?_, ?_⟩
  · rw [(getScanResults_read c.world hv).1]
    exact (reachable_results c hc).1
  · intro grow h hr
    rw [(recordHost_spec grow h c.world hv).1, if_pos hr]
    exact ⟨sortSlice_sorted (fun a : HostInfo => ipToInt a.IP) ipLess ipLess_iff _,
      sortSlice_perm ipLess _⟩
  · intro a b c d ha hb hc hd
    exact ipToInt_ipString a b c d ha hb hc hd

/-- Witness for C4: the sample run after a caller fetched the results. -/
theorem results_sorted_by_ip_witness :
    Reachable sampleRun7 ∧
    sampleRun7.world.results = [sampleHost] ∧
    (sampleRun7.world.results.Pairwise (fun a b => ipToInt a.IP ≤ ipToInt b.IP) ∧
      ((GetScanResults sampleRun7.world).1.mem.read (GetScanResults sampleRun7.world).2).Pairwise
        (fun a b => ipToInt a.IP ≤ ipToInt b.IP) ∧
      (∀ (grow : Nat → Nat) (h : HostInfo), h.IsReachable = true →
        (recordHost grow h sampleRun7.world).results.Pairwise
          (fun a b => ipToInt a.IP ≤ ipToInt b.IP) ∧
        (recordHost grow h sampleRun7.world).results.Perm (sampleRun7.world.results ++ [h])) ∧
      (∀ a b c d : Nat, a < 256 → b < 256 → c < 256 → d < 256 →
        ipToInt (ipString [a, b, c, d]) = ipVal [a, b, c, d])) :=
  ⟨sampleRun7_reachable, by decide, results_sorted_by_ip sampleRun7 sampleRun7_reachable⟩

/-- C5. In every reachable configuration every host of the result list has
`IsReachable = true`; recording a host whose probe failed increments
`hostsScanned` and leaves the result list, `activeHosts` and `openPorts`
as they were. -/
theorem results_all_reachable (c : Config) (hc : Reachable c) :
    (∀ h ∈ c.world.results, h.IsReachable = true) ∧
    (∀ (grow : Nat → Nat) (h : HostInfo), h.IsReachable = false →
      (recordHost grow h c.world).results = c.world.results ∧
      (recordHost grow h c.world).gs.hostsScanned = c.world.gs.hostsScanned + 1 ∧
      (recordHost grow h c.world).gs.activeHosts = c.world.gs.activeHosts ∧
      (recordHost grow h c.world).gs.openPorts = c.world.gs.openPorts) := by
  refine ⟨(reachable_results c hc).2, ?_⟩
  intro grow h hr
  simp [recordHost, hr, World.results]

/-- Witness for C5: the sample run with its one recorded host. -/
theorem results_all_reachable_witness :
    Reachable sampleRun6 ∧
    sampleRun6.world.results = [sampleHost] ∧
    ((∀ h ∈ sampleRun6.world.results, h.IsReachable = true) ∧
      (∀ (grow : Nat → Nat) (h : HostInfo), h.IsReachable = false →
        (recordHost grow h sampleRun6.world).results = sampleRun6.world.results ∧
        (recordHost grow h sampleRun6.world).gs.hostsScanned
          = sampleRun6.world.gs.hostsScanned + 1 ∧
        (recordHost grow h sampleRun6.world).gs.activeHosts = sampleRun6.world.gs.activeHosts ∧
        (recordHost grow h sampleRun6.world).gs.openPorts = sampleRun6.world.gs.openPorts)) :=
  ⟨sampleRun6_reachable, by decide, results_all_reachable sampleRun6 sampleRun6_reachable⟩

/-- C7. In every reachable configuration `GetScanResults` returns a non-nil
slice over a newly allocated array (its address is that of no array
allocated before, so it differs from the state's array and from every slice
handed out earlier) that shows the same hosts in the same order as the
state's result list; the call leaves the scan state and its result list
unchanged; and after any sequence of element assignments and in-place
sorts on the returned slice the state's result list and the scan state
are still what they were. In the initial state the returned slice is empty
and not nil. -/
theorem getScanResults_independent_copy (c : Config) (hc : Reachable c) (ops : List CallerOp)
    (m2 : Mem)
    (hops : applyOps (GetScanResults c.world).1.mem (GetScanResults c.world).2 ops = some m2) :
    (GetScanResults c.world).2.arr = some c.world.mem.length ∧
    (GetScanResults c.world).2.arr ≠ none ∧
    (GetScanResults c.world).2.arr ≠ c.world.gs.results.arr ∧
    (∀ s ∈ c.handed, s.arr ≠ (GetScanResults c.world).2.arr) ∧
    (GetScanResults c.world).1.mem.read (GetScanResults c.world).2 = c.world.results ∧
    (GetScanResults c.world).1.gs = c.world.gs ∧
    (GetScanResults c.world).1.results = c.world.results ∧
    World.results { mem := m2, gs := (GetScanResults c.world).1.gs } = c.world.results ∧
    (GetScanResults World.init).2 = { arr := some 0, len := 0, cap := 0 } := by
  obtain ⟨hv, hh⟩ := reachable_memOk c hc
  obtain ⟨hread, hres⟩ := getScanResults_read c.world hv
  have harr : (GetScanResults c.world).2.arr = some c.world.mem.length := rfl
  obtain ⟨hlen, hframe⟩ := applyOps_frame ops _ m2 _ c.world.mem.length harr hops
  refine ⟨harr, by rw [harr]; exact Option.some_ne_none _, ?_, ?_, hread, rfl, hres, ?_, rfl⟩
  · rw [harr]
    intro e
    have := hv _ e.symm
    omega
  · intro s hs
    obtain ⟨b, hb, hlt, _⟩ := hh s hs
    rw [harr, hb]
    intro e
    cases e
    omega
  · rw [← hres]
    simp only [World.results, Mem.read]
    have hgs : (GetScanResults c.world).1.gs = c.world.gs := rfl
    rw [hgs]
    cases ha : c.world.gs.results.arr with
    | none => rfl
    | some a =>
      simp only []
      have hne : a ≠ c.world.mem.length := by
        have := hv a ha
        omega
      rw [hframe a hne]

/-- Witness for C7: a caller overwrites and sorts the copy fetched in the
sample run; the state still holds its one host. -/
theorem getScanResults_independent_copy_witness :
    Reachable sampleRun6 ∧
    applyOps (GetScanResults sampleRun6.world).1.mem (GetScanResults sampleRun6.world).2
      sampleOps = some sampleMemAfterOps ∧
    sampleMemAfterOps.read (GetScanResults sampleRun6.world).2
      = [downRecord sampleEnv "10.255.255.9" 0] ∧
    sampleRun6.world.results = [sampleHost] ∧
    ((GetScanResults sampleRun6.world).2.arr = some sampleRun6.world.mem.length ∧
      (GetScanResults sampleRun6.world).2.arr ≠ none ∧
      (GetScanResults sampleRun6.world).2.arr ≠ sampleRun6.world.gs.results.arr ∧
      (∀ s ∈ sampleRun6.handed, s.arr ≠ (GetScanResults sampleRun6.world).2.arr) ∧
      (GetScanResults sampleRun6.world).1.mem.read (GetScanResults sampleRun6.world).2
        = sampleRun6.world.results ∧
      (GetScanResults sampleRun6.world).1.gs = sampleRun6.world.gs ∧
      (GetScanResults sampleRun6.world).1.results = sampleRun6.world.results ∧
      World.results { mem := sampleMemAfterOps, gs := (GetScanResults sampleRun6.world).1.gs }
        = sampleRun6.world.results ∧
      (GetScanResults World.init).2 = { arr := some 0, len := 0, cap := 0 }) :=
  ⟨sampleRun6_reachable, by decide, by decide, by decide,
    getScanResults_independent_copy sampleRun6 sampleRun6_reachable sampleOps sampleMemAfterOps
      (by decide)⟩

/-! ## Which ports a run probes -/

theorem mem_probedPorts (tr : List Event) (ip : String) (port : Int) :
    port ∈ probedPorts tr ip ↔ Event.dial ip port ∈ tr := by
  induction tr with
  | nil => simp [probedPorts]
  | cons e es ih =>
    simp only [probedPorts, List.filterMap_cons, List.mem_cons] at ih ⊢
    cases e with
    | ping a => simpa using ih
    | lookupAddr a => simpa using ih
    | macLookup a => simpa using ih
    | dial a p =>
      by_cases h : a = ip
      · subst h
        simp only [if_true, List.mem_cons, ih, Event.dial.injEq, true_and]
      · simp only [h, if_false, ih, Event.dial.injEq]
        constructor
        · intro h1; exact Or.inr h1
        · rintro (⟨h1, _⟩ | h1)
          · exact absurd h1.symm h
          · exact h1

theorem probedPorts_dials (ip : String) (ports : List Int) :
    probedPorts ([Event.ping ip, Event.lookupAddr ip, Event.macLookup ip]
      ++ ports.map (Event.dial ip)) ip = ports := by
  simp only [probedPorts, List.cons_append, List.nil_append, List.filterMap_cons]
  induction ports with
  | nil => rfl
  | cons p ps ih => simp [List.filterMap_cons, ih]

/-- What a returned `scanHostCustom` call has done. -/
theorem scanHostCustom_trace (env : Env) (ip : String) (startPort endPort timeout : Int)
    (workers : Int) (customPorts : List Int) (ipsOnly : Bool) (sched : List Int → List Int)
    (h : HostInfo) (tr : List Event)
    (hres : scanHostCustom env ip startPort endPort timeout workers customPorts ipsOnly sched
      = some (h, tr)) :
    h.IP = ip ∧
    (∀ ip1 port, Event.dial ip1 port ∈ tr → ip1 = ip) ∧
    (h.IsReachable = true → ipsOnly = false →
      probedPorts tr ip
        = sched (if customPorts.length > 0 then customPorts else portRange startPort endPort)) := by
  by_cases hp : (env.ping ip timeout).1 = true
  · cases hio : ipsOnly with
    | true =>
      subst hio
      simp only [scanHostCustom, hp, Bool.not_true, Bool.false_eq_true, if_false, if_true,
        Option.some.injEq, Prod.mk.injEq] at hres
      obtain ⟨rfl, rfl⟩ := hres
      refine ⟨rfl, ?_, ?_⟩
      · intro ip1 port hm
        simp at hm
      · intro _ hfalse
        cases hfalse
    | false =>
      subst hio
      simp only [scanHostCustom, hp, Bool.not_true, Bool.false_eq_true, if_false] at hres
      generalize (if customPorts.length > 0 then customPorts
        else portRange startPort endPort) = ports at hres ⊢
      cases hf : fanOut env ip timeout workers ports sched with
      | none => rw [hf] at hres; cases hres
      | some r =>
        obtain ⟨services, dials⟩ := r
        rw [hf] at hres
        simp only [Option.some.injEq, Prod.mk.injEq] at hres
        obtain ⟨rfl, rfl⟩ := hres
        have hd : dials = (sched ports).map (Event.dial ip) := by
          unfold fanOut at hf
          split_ifs at hf
          simp only [Option.some.injEq, Prod.mk.injEq] at hf
          exact hf.2.symm
        subst hd
        refine ⟨rfl, ?_, ?_⟩
        · intro ip1 port hm
          simp only [List.cons_append, List.nil_append, List.mem_cons, List.mem_map,
            Event.dial.injEq, reduceCtorEq, false_or] at hm
          obtain ⟨_, _, h1, _⟩ := hm
          exact h1.symm
        · intro _ _
          exact probedPorts_dials ip _
  · have hp1 : (env.ping ip timeout).1 = false := by simpa using hp
    rw [scanHostCustom_down env ip startPort endPort timeout workers customPorts ipsOnly sched hp1]
      at hres
    simp only [Option.some.injEq, Prod.mk.injEq] at hres
    obtain ⟨rfl, rfl⟩ := hres
    refine ⟨rfl, ?_, ?_⟩
    · intro ip1 port hm
      simp at hm
    · intro hr
      simp [downRecord] at hr

/-- What a returned collection of workers consists of. -/
theorem runWorkers_inv (scan : String → Option (HostInfo × List Event)) (l : List String) :
    ∀ rs tr, runWorkers scan l = some (rs, tr) →
      (∀ h ∈ rs, ∃ ip ∈ l, ∃ t, scan ip = some (h, t)) ∧
      (∀ e, e ∈ tr ↔ ∃ ip ∈ l, ∃ h t, scan ip = some (h, t) ∧ e ∈ t) := by
  induction l with
  | nil =>
    intro rs tr hrun
    simp only [runWorkers, Option.some.injEq, Prod.mk.injEq] at hrun
    obtain ⟨rfl, rfl⟩ := hrun
    simp
  | cons ip rest ih =>
    intro rs tr hrun
    cases h1 : scan ip with
    | none => simp [runWorkers, h1] at hrun
    | some r1 =>
      obtain ⟨h0, t0⟩ := r1
      cases h2 : runWorkers scan rest with
      | none => simp [runWorkers, h1, h2] at hrun
      | some r2 =>
        obtain ⟨hs, ts⟩ := r2
        simp only [runWorkers, h1, h2, Option.some.injEq, Prod.mk.injEq] at hrun
        obtain ⟨rfl, rfl⟩ := hrun
        obtain ⟨ih1, ih2⟩ := ih hs ts h2
        constructor
        · intro h hh
          rcases List.mem_cons.mp hh with rfl | hh
          · exact ⟨ip, List.mem_cons_self _ _, t0, h1⟩
          · obtain ⟨ip1, hip1, t, ht⟩ := ih1 h hh
            exact ⟨ip1, List.mem_cons_of_mem _ hip1, t, ht⟩
        · intro e
          rw [List.mem_append, ih2 e]
          constructor
          · rintro (he | ⟨ip1, hip1, h, t, ht, he⟩)
            · exact ⟨ip, List.mem_cons_self _ _, h0, t0, h1, he⟩
            · exact ⟨ip1, List.mem_cons_of_mem _ hip1, h, t, ht, he⟩
          · rintro ⟨ip1, hip1, h, t, ht, he⟩
            rcases List.mem_cons.mp hip1 with rfl | hip1
            · rw [h1] at ht
              simp only [Option.some.injEq, Prod.mk.injEq] at ht
              obtain ⟨_, rfl⟩ := ht
              exact Or.inl he
            · exact Or.inr ⟨ip1, hip1, h, t, ht, he⟩

/-- C10 (as stated, refuted). With the default flags (no `-p`, no `-ips`,
`-start 1 -end 1024`) the reachable sample host is probed, in the batch
path and in the interactive path alike, on the ports of `commonPorts`, not
on the range: port 3306 is probed although it lies outside `[1, 1024]`, and
port 1 of the range is not probed. -/
theorem default_run_ignores_port_range :
    mainCustomPorts defaultFlags = Except.ok getCommonPorts ∧
    (∃ results tr,
      runNonInteractiveScan sampleEnv ⟨10, 255, 255, 1, 32⟩ defaultFlags.startPort
        defaultFlags.endPort defaultFlags.timeoutMs getCommonPorts defaultFlags.ipsOnly 3 id
        (fun _ => id) = some (results, tr) ∧
      results.map (fun h => (h.IP, h.IsReachable)) = [("10.255.255.1", true)] ∧
      probedPorts tr "10.255.255.1" = getCommonPorts ∧
      probedPorts tr "10.255.255.1" ≠ portRange defaultFlags.startPort defaultFlags.endPort ∧
      3306 ∈ probedPorts tr "10.255.255.1" ∧ 1 ∉ probedPorts tr "10.255.255.1") ∧
    (∃ h tr,
      tuiScanHost sampleEnv (mainScanParams defaultFlags ⟨10, 255, 255, 1, 32⟩ getCommonPorts)
        "10.255.255.1" id = some (h, tr) ∧
      h.IsReachable = true ∧
      probedPorts tr "10.255.255.1" = getCommonPorts ∧
      probedPorts tr "10.255.255.1" ≠ portRange defaultFlags.startPort defaultFlags.endPort) ∧
    (1 ∈ portRange defaultFlags.startPort defaultFlags.endPort ∧
      3306 ∉ portRange defaultFlags.startPort defaultFlags.endPort) := by
  refine ⟨rfl, ⟨_, _, rfl, ?_, ?_, ?_, ?_, ?_⟩, ⟨_, _, rfl, ?_, ?_, ?_⟩, ?_, ?_⟩
  all_goals decide

/-- C10 (amended). For a run configured without `-p` and without `-ips`,
`main` hands both paths the ports of `commonPorts` as the custom list, and
the ports probed on each reachable host are exactly those ports, whatever
`-start` and `-end` are: in the batch path every port dialled on a reachable
host of the results is a common port and every common port is dialled on
it, and in the interactive path the ports a worker dials on a reachable
host are a permutation of the common ports. -/
theorem default_run_probes_common_ports (f : Flags) (hp : f.portList = "")
    (hi : f.ipsOnly = false) :
    mainCustomPorts f = Except.ok getCommonPorts ∧
    (∀ (env : Env) (target : Subnet) (fuel : Nat) (hostSched : List String → List String)
      (portSched : String → List Int → List Int) (results : List HostInfo) (tr : List Event),
      (∀ ip l, (portSched ip l).Perm l) →
      runNonInteractiveScan env target f.startPort f.endPort f.timeoutMs getCommonPorts
        f.ipsOnly fuel hostSched portSched = some (results, tr) →
      ∀ h ∈ results, h.IsReachable = true →
        ∀ port, Event.dial h.IP port ∈ tr ↔ port ∈ getCommonPorts) ∧
    (∀ (env : Env) (target : Subnet) (ip : String) (sched : List Int → List Int) (h : HostInfo)
      (tr : List Event),
      (∀ l, (sched l).Perm l) →
      tuiScanHost env (mainScanParams f target getCommonPorts) ip sched = some (h, tr) →
      h.IsReachable = true →
      (probedPorts tr ip).Perm getCommonPorts) := by
  have hlen : getCommonPorts.length > 0 := by decide
  refine ⟨?_, ?_, ?_⟩
  · simp [mainCustomPorts, hp, hi]
  · intro env target fuel hostSched portSched results tr hs hrun h hh hr port
    simp only [runNonInteractiveScan, hi, hlen, Bool.false_eq_true, false_or, if_true] at hrun
    cases hpa : target.parse with
    | none => rw [hpa] at hrun; cases hrun
    | some ipnet =>
      rw [hpa] at hrun
      simp only [] at hrun
      cases he : enumerate ipnet fuel with
      | none => rw [he] at hrun; cases hrun
      | some ips =>
        rw [he] at hrun
        simp only [scanHostsNonInteractive] at hrun
        obtain ⟨inv1, inv2⟩ := runWorkers_inv _ _ results tr hrun
        obtain ⟨ip, _, t, hscan⟩ := inv1 h hh
        obtain ⟨hip, _, hprobed⟩ := scanHostCustom_trace _ _ _ _ _ _ _ _ _ _ _ hscan
        have hp1 := hprobed hr rfl
        rw [if_pos hlen] at hp1
        rw [inv2]
        constructor
        · rintro ⟨ip1, _, h1, t1, hscan1, hmem⟩
          obtain ⟨_, hd1, _⟩ := scanHostCustom_trace _ _ _ _ _ _ _ _ _ _ _ hscan1
          have e1 : h.IP = ip1 := hd1 _ _ hmem
          have e2 : ip1 = ip := by rw [← e1, hip]
          subst e2
          rw [hscan] at hscan1
          simp only [Option.some.injEq, Prod.mk.injEq] at hscan1
          obtain ⟨_, rfl⟩ := hscan1
          rw [hip, ← mem_probedPorts, hp1] at hmem
          exact (hs ip1 _).subset hmem
        · intro hport
          refine ⟨ip, by assumption, h, t, hscan, ?_⟩
          rw [hip, ← mem_probedPorts, hp1]
          exact (hs ip _).symm.subset hport
  · intro env target ip sched h tr hs hscan hr
    obtain ⟨_, _, hprobed⟩ := scanHostCustom_trace _ _ _ _ _ _ _ _ _ _ _ hscan
    have hp1 := hprobed hr hi
    simp only [mainScanParams] at hp1
    rw [if_pos hlen] at hp1
    rw [hp1]
    exact hs _

/-- Witness for the amended C10: the default flags. -/
theorem default_run_probes_common_ports_witness :
    defaultFlags.portList = "" ∧ defaultFlags.ipsOnly = false ∧
    (mainCustomPorts defaultFlags = Except.ok getCommonPorts ∧
      (∀ (env : Env) (target : Subnet) (fuel : Nat) (hostSched : List String → List String)
        (portSched : String → List Int → List Int) (results : List HostInfo) (tr : List Event),
        (∀ ip l, (portSched ip l).Perm l) →
        runNonInteractiveScan env target defaultFlags.startPort defaultFlags.endPort
          defaultFlags.timeoutMs getCommonPorts defaultFlags.ipsOnly fuel hostSched portSched
          = some (results, tr) →
        ∀ h ∈ results, h.IsReachable = true →
          ∀ port, Event.dial h.IP port ∈ tr ↔ port ∈ getCommonPorts) ∧
      (∀ (env : Env) (target : Subnet) (ip : String) (sched : List Int → List Int)
        (h : HostInfo) (tr : List Event),
        (∀ l, (sched l).Perm l) →
        tuiScanHost env (mainScanParams defaultFlags target getCommonPorts) ip sched
          = some (h, tr) →
        h.IsReachable = true →
        (probedPorts tr ip).Perm getCommonPorts)) :=
  ⟨rfl, rfl, default_run_probes_common_ports defaultFlags rfl rfl⟩

/-! ## The `regexp` model -/

theorem firstOf_none_left {β : Type} (b : Option β) : firstOf none b = b := rfl

theorem firstOf_some {β : Type} (x : β) (b : Option β) : firstOf (some x) b = some x := rfl

theorem firstOf_none_right {β : Type} (a : Option β) : firstOf a none = a := by
  cases a <;> rfl

/-- A greedy repetition whose continuation accepts after the longest run
stops there. -/
theorem greedy_of_some {α : Type} (p : α → Bool) (k : Cont α) (cs : Caps α) (l : List α)
    (idx : Nat) (r : Pos α × Caps α)
    (h : k ⟨idx + (l.takeWhile p).length, l.dropWhile p⟩ cs = some r) :
    greedy p k cs idx l = some r := by
  induction l generalizing idx with
  | nil => simpa [greedy] using h
  | cons c t ih =>
    by_cases hc : p c = true
    · simp only [greedy, hc, if_true]
      rw [ih (idx + 1)]
      · rfl
      · simpa [List.takeWhile, List.dropWhile, hc, Nat.add_assoc, Nat.add_comm 1] using h
    · simp only [greedy, hc, if_false, Bool.false_eq_true]
      simpa [List.takeWhile, List.dropWhile, hc] using h

/-- A greedy repetition whose continuation refuses every place that is
followed by one more symbol of the class runs to the end of the longest run. -/
theorem greedy_of_block {α : Type} (p : α → Bool) (k : Cont α) (cs : Caps α) (l : List α)
    (idx : Nat)
    (hk : ∀ i c r, p c = true → k ⟨i, c :: r⟩ cs = none) :
    greedy p k cs idx l = k ⟨idx + (l.takeWhile p).length, l.dropWhile p⟩ cs := by
  induction l generalizing idx with
  | nil => simp [greedy]
  | cons c t ih =>
    by_cases hc : p c = true
    · simp only [greedy, hc, if_true, hk idx c t hc, firstOf_none_right]
      rw [ih (idx + 1)]
      simp [List.takeWhile, List.dropWhile, hc, Nat.add_assoc, Nat.add_comm 1]
    · simp only [greedy, hc, if_false, Bool.false_eq_true]
      simp [List.takeWhile, List.dropWhile, hc]

theorem takeWhile_append_dropWhile_length {α : Type} (p : α → Bool) (l : List α) :
    (l.takeWhile p).length + (l.dropWhile p).length = l.length := by
  rw [← List.length_append, List.takeWhile_append_dropWhile]

theorem take_takeWhile_length {α : Type} (p : α → Bool) (l : List α) :
    l.take (l.takeWhile p).length = l.takeWhile p := by
  have h : (l.takeWhile p ++ l.dropWhile p).take (l.takeWhile p).length = l.takeWhile p :=
    List.take_left' rfl
  rwa [List.takeWhile_append_dropWhile] at h

theorem plus_run_of_block {α : Type} (p : α → Bool) (k : Cont α) (cs : Caps α) (l : List α)
    (idx : Nat) (hk : ∀ i c r, p c = true → k ⟨i, c :: r⟩ cs = none) :
    (Re.plus p).run ⟨idx, l⟩ cs k
      = if (l.takeWhile p).isEmpty then none
        else k ⟨idx + (l.takeWhile p).length, l.dropWhile p⟩ cs := by
  cases l with
  | nil => simp [Re.run]
  | cons c t =>
    by_cases hc : p c = true
    · simp only [Re.run, hc, if_true, greedy_of_block p k cs t (idx + 1) hk]
      simp [List.takeWhile, List.dropWhile, hc, Nat.add_assoc, Nat.add_comm 1]
    · simp [Re.run, hc, List.takeWhile]

theorem plus_run_of_some {α : Type} (p : α → Bool) (k : Cont α) (cs : Caps α) (l : List α)
    (idx : Nat) (r : Pos α × Caps α)
    (h : k ⟨idx + (l.takeWhile p).length, l.dropWhile p⟩ cs = some r) :
    (Re.plus p).run ⟨idx, l⟩ cs k
      = if (l.takeWhile p).isEmpty then none else some r := by
  cases l with
  | nil => simp [Re.run]
  | cons c t =>
    by_cases hc : p c = true
    · simp only [Re.run, hc, if_true]
      rw [greedy_of_some p k cs t (idx + 1) r]
      · simp [List.takeWhile, hc]
      · simpa [List.takeWhile, List.dropWhile, hc, Nat.add_assoc, Nat.add_comm 1] using h
    · simp [Re.run, hc, List.takeWhile]

theorem run_eps {α : Type} (s : Pos α) (cs : Caps α) (k : Cont α) :
    Re.eps.run s cs k = k s cs := rfl

theorem run_seq {α : Type} (a b : Re α) (s : Pos α) (cs : Caps α) (k : Cont α) :
    (Re.seq a b).run s cs k = a.run s cs (fun s1 cs1 => b.run s1 cs1 k) := rfl

theorem run_alt {α : Type} (a b : Re α) (s : Pos α) (cs : Caps α) (k : Cont α) :
    (Re.alt a b).run s cs k = firstOf (a.run s cs k) (b.run s cs k) := rfl

theorem run_opt {α : Type} (a : Re α) (s : Pos α) (cs : Caps α) (k : Cont α) :
    (Re.opt a).run s cs k = firstOf (a.run s cs k) (k s cs) := rfl

theorem run_cap {α : Type} (i : Nat) (a : Re α) (s : Pos α) (cs : Caps α) (k : Cont α) :
    (Re.cap i a).run s cs k
      = a.run s cs (fun s1 cs1 => k s1 ((i, s.rest.take (s1.idx - s.idx)) :: cs1)) := rfl

theorem run_set_nil {α : Type} (p : α → Bool) (idx : Nat) (cs : Caps α) (k : Cont α) :
    (Re.set p).run ⟨idx, []⟩ cs k = none := rfl

theorem run_set_cons {α : Type} (p : α → Bool) (idx : Nat) (c : α) (r : List α)
    (cs : Caps α) (k : Cont α) :
    (Re.set p).run ⟨idx, c :: r⟩ cs k = if p c then k ⟨idx + 1, r⟩ cs else none := rfl

theorem plus_run_empty {α : Type} (p : α → Bool) (k : Cont α) (cs : Caps α) (l : List α)
    (idx : Nat) (h : (l.takeWhile p).isEmpty = true) :
    (Re.plus p).run ⟨idx, l⟩ cs k = none := by
  cases l with
  | nil => simp [Re.run]
  | cons c t =>
    by_cases hc : p c = true
    · simp [List.takeWhile, hc] at h
    · simp [Re.run, hc]

theorem plus_run_max {α : Type} (p : α → Bool) (k : Cont α) (cs : Caps α) (l : List α)
    (idx : Nat) (r : Pos α × Caps α) (hne : (l.takeWhile p).isEmpty = false)
    (h : k ⟨idx + (l.takeWhile p).length, l.dropWhile p⟩ cs = some r) :
    (Re.plus p).run ⟨idx, l⟩ cs k = some r := by
  rw [plus_run_of_some p k cs l idx r h, hne]
  rfl

theorem take_of_append {α : Type} (tok rest : List α) (n : Nat) (h : n = tok.length) :
    (tok ++ rest).take n = tok := by
  subst h; simp

theorem drop_of_append {α : Type} (tok rest : List α) (n : Nat) (h : n = tok.length) :
    (tok ++ rest).drop n = rest := by
  subst h; simp

theorem split_at_run {α : Type} (p : α → Bool) (l r : List α) (h : l.dropWhile p = r) :
    l = l.takeWhile p ++ r := by
  rw [← h, List.takeWhile_append_dropWhile]

theorem close_token {α : Type} (idx n : Nat) (tok rest l : List α)
    (hl : l = tok ++ rest) (hn : n = idx + tok.length) :
    (some ((⟨n, rest⟩ : Pos α), [(0, l.take (n - idx)), (1, l.take (n - idx))])
        : Option (Pos α × Caps α))
      = some (⟨idx + tok.length, l.drop tok.length⟩, [(0, tok), (1, tok)]) := by
  subst hl hn
  simp

theorem genericRe_matchAt (idx : Nat) (l : List Char) :
    genericRe.matchAt ⟨idx, l⟩
      = (versionTokenAt l).map
          (fun t => (⟨idx + t.length, l.drop t.length⟩, [(0, t), (1, t)])) := by
  unfold Re.matchAt genericRe Re.lit
  simp only [run_seq, run_cap]
  rw [plus_run_of_block]
  · unfold versionTokenAt
    simp only []
    by_cases h1 : (l.takeWhile Char.isDigit).isEmpty = true
    · simp only [h1, if_true, Option.map_none']
    · simp only [h1, if_false, Bool.false_eq_true]
      generalize hr1 : l.dropWhile Char.isDigit = r1
      have hl := split_at_run _ _ _ hr1
      generalize l.takeWhile Char.isDigit = d1 at hl ⊢
      subst hl
      cases r1 with
      | nil => simp only [run_set_nil, Option.map_none']
      | cons c r2 =>
        simp only [run_set_cons]
        by_cases hc : (c == '.') = true
        · have hc2 : c = '.' := by simpa using hc
          subst hc2
          simp only [hc, if_true]
          by_cases h2 : (r2.takeWhile Char.isDigit).isEmpty = true
          · rw [plus_run_empty _ _ _ _ _ h2]
            simp only [h2, if_true, Option.map_none']
          · simp only [h2, if_false, Bool.false_eq_true]
            generalize hr2 : r2.dropWhile Char.isDigit = r3
            have hl2 := split_at_run _ _ _ hr2
            have hn2 : (r2.takeWhile Char.isDigit).isEmpty = false := by simpa using h2
            generalize hd2 : r2.takeWhile Char.isDigit = d2 at hl2 hn2 ⊢
            split
            · next r4 =>
              by_cases h3 : (r4.takeWhile Char.isDigit).isEmpty = true
              · simp only [h3, if_true, Option.map_some']
                apply plus_run_max _ _ _ _ _ _ (by rw [hd2]; exact hn2)
                rw [hr2, hd2, run_opt, run_seq, run_set_cons]
                simp only [beq_self_eq_true, if_true, plus_run_empty _ _ _ _ _ h3,
                  firstOf_none_left]
                exact close_token _ _ _ _ _ (by rw [hl2]; simp) (by simp; omega)
              · simp only [h3, if_false, Bool.false_eq_true, Option.map_some']
                apply plus_run_max _ _ _ _ _ _ (by rw [hd2]; exact hn2)
                rw [hr2, hd2, run_opt, run_seq, run_set_cons]
                simp only [beq_self_eq_true, if_true]
                rw [plus_run_max _ _ _ _ _ _ (by simpa using h3) rfl, firstOf_some]
                exact close_token _ _ _ _ _
                  (by rw [hl2]; conv_lhs => rw [← List.takeWhile_append_dropWhile Char.isDigit r4]
                      simp)
                  (by simp; omega)
            · next hx =>
              simp only [Option.map_some']
              apply plus_run_max _ _ _ _ _ _ (by rw [hd2]; exact hn2)
              rw [hr2, hd2, run_opt, run_seq]
              have hset : ∀ (k : Cont Char) cs i,
                  (Re.set (fun x => x == '.')).run ⟨i, r3⟩ cs k = none := by
                intro k cs i
                cases r3 with
                | nil => rfl
                | cons c r =>
                  rw [run_set_cons]
                  by_cases hcd : (c == '.') = true
                  · have : c = '.' := by simpa using hcd
                    subst this
                    exact absurd rfl (hx r)
                  · simp only [hcd, if_false, Bool.false_eq_true]
              rw [hset, firstOf_none_left]
              exact close_token _ _ _ _ _ (by rw [hl2]; simp) (by simp; omega)
        · simp only [hc, if_false, Bool.false_eq_true]
          split
          · next r4 heq =>
            have : c = '.' := (List.cons.inj heq).1
            subst this
            simp at hc
          · rfl
  · intro i c r hc
    rw [run_set_cons]
    have : (c == '.') = false := by
      cases hcd : (c == '.')
      · rfl
      · have : c = '.' := by simpa using hcd
        subst this
        simp [Char.isDigit] at hc
    simp only [this, if_false, Bool.false_eq_true]

/-! ## `extractVersionNew` -/

theorem ofList_run_word (w : List Char) (idx : Nat) (l : List Char) (cs : Caps Char)
    (k : Cont Char) :
    (Re.ofList (w.map (fun c => Re.set (foldEq c)))).run ⟨idx, l⟩ cs k
      = if wordAt w l then k ⟨idx + w.length, l.drop w.length⟩ cs else none := by
  induction w generalizing idx l with
  | nil => simp [Re.ofList, run_eps, wordAt]
  | cons c w ih =>
    cases l with
    | nil => simp [Re.ofList, run_seq, run_set_nil, wordAt]
    | cons x l =>
      simp only [List.map_cons, Re.ofList, run_seq, run_set_cons, wordAt]
      by_cases hx : foldEq c x = true
      · simp only [hx, if_true, Bool.true_and, ih, List.length_cons, List.drop_succ_cons]
        simp [Nat.add_assoc, Nat.add_comm 1]
      · simp [hx]

theorem word_run (w : String) (idx : Nat) (l : List Char) (cs : Caps Char) (k : Cont Char) :
    (Re.word w).run ⟨idx, l⟩ cs k
      = if wordAt w.data l then k ⟨idx + w.length, l.drop w.length⟩ cs else none :=
  ofList_run_word w.data idx l cs k

theorem verChar_of_reSpace (c : Char) (h : reSpace c = true) : verChar c = false := by
  simp only [reSpace, Bool.or_eq_true, beq_iff_eq] at h
  rcases h with (((h | h) | h) | h) | h <;> subst h <;> decide

theorem product_tail (slash : Bool) (i : Nat) (rest : List Char) (cs : Caps Char)
    (f : Pos Char → List Char) :
    match versionAfter slash rest with
    | none =>
      (Re.seq (if slash then Re.lit '/' else Re.plus reSpace) (Re.cap 2 (Re.plus verChar))).run
        ⟨i, rest⟩ cs (fun s1 cs1 => some (s1, (0, f s1) :: cs1)) = none
    | some v =>
      ∃ p, (Re.seq (if slash then Re.lit '/' else Re.plus reSpace)
          (Re.cap 2 (Re.plus verChar))).run
        ⟨i, rest⟩ cs (fun s1 cs1 => some (s1, (0, f s1) :: cs1))
          = some (p, (0, f p) :: (2, v) :: cs) := by
  have hver : ∀ (j : Nat) (r : List Char),
      (Re.cap 2 (Re.plus verChar)).run ⟨j, r⟩ cs (fun s1 cs1 => some (s1, (0, f s1) :: cs1))
        = if (r.takeWhile verChar).isEmpty then none
          else some (⟨j + (r.takeWhile verChar).length, r.dropWhile verChar⟩,
            (0, f ⟨j + (r.takeWhile verChar).length, r.dropWhile verChar⟩)
              :: (2, r.takeWhile verChar) :: cs) := by
    intro j r
    rw [run_cap, plus_run_of_some _ _ _ _ _ _ rfl]
    simp [take_takeWhile_length]
  cases slash with
  | true =>
    simp only [versionAfter, if_true, run_seq, Re.lit]
    cases rest with
    | nil => simp [run_set_nil]
    | cons c r =>
      rw [run_set_cons]
      by_cases hc : (c == '/') = true
      · have : c = '/' := by simpa using hc
        subst this
        simp only [hc, if_true, hver]
        by_cases hv : (r.takeWhile verChar).isEmpty = true
        · simp only [hv, if_true]
        · simp only [hv, if_false, Bool.false_eq_true]
          exact ⟨_, rfl⟩
      · simp only [hc, if_false, Bool.false_eq_true]
  | false =>
    simp only [versionAfter, Bool.false_eq_true, if_false, run_seq]
    rw [plus_run_of_block]
    · by_cases hs : (rest.takeWhile reSpace).isEmpty = true
      · simp only [hs, if_true]
      · simp only [hs, if_false, Bool.false_eq_true, hver]
        by_cases hv : ((rest.dropWhile reSpace).takeWhile verChar).isEmpty = true
        · simp only [hv, if_true]
        · simp only [hv, if_false, Bool.false_eq_true]
          exact ⟨_, rfl⟩
    · intro j c r hc
      rw [run_cap, plus_run_empty]
      simp [List.takeWhile, verChar_of_reSpace c hc]

theorem agrees_firstOf (e1 e2 : Option (Pos Char × Caps Char))
    (s1 s2 : Option (List Char × List Char)) :
    Agrees e1 s1 → Agrees e2 s2 → Agrees (firstOf e1 e2) (firstOf s1 s2) := by
  intro h1 h2
  cases s1 with
  | none =>
    simp only [Agrees] at h1
    subst h1
    exact h2
  | some nv =>
    obtain ⟨p, whole, h⟩ := h1
    subst h
    exact ⟨p, whole, rfl⟩

theorem findSome_cons_firstOf {α β : Type} (f : α → Option β) (a : α) (l : List α) :
    (a :: l).findSome? f = firstOf (f a) (l.findSome? f) := by
  rw [List.findSome?_cons]
  cases f a <;> rfl

theorem leftmostProductVersion_cons (names : List String) (slash : Bool) (c : Char)
    (r : List Char) :
    leftmostProductVersion names slash (c :: r)
      = firstOf (productVersionAt names slash (c :: r))
          (leftmostProductVersion names slash r) := by
  rw [leftmostProductVersion]
  cases productVersionAt names slash (c :: r) <;> rfl

theorem agrees_none : Agrees none none := rfl

theorem word_agrees (w : String) (slash : Bool) (idx : Nat) (l : List Char) :
    Agrees
      (if wordAt w.data l then
        (Re.seq (if slash then Re.lit '/' else Re.plus reSpace)
            (Re.cap 2 (Re.plus verChar))).run
          ⟨idx + w.length, l.drop w.length⟩ [(1, l.take (idx + w.length - idx))]
          (fun s1 cs1 => some (s1, (0, l.take (s1.idx - idx)) :: cs1))
       else none)
      (if wordAt w.data l then
        (versionAfter slash (l.drop w.length)).map (fun v => (l.take w.length, v))
       else none) := by
  by_cases hw : wordAt w.data l = true
  · simp only [hw, if_true]
    have h := product_tail slash (idx + w.length) (l.drop w.length)
      [(1, l.take (idx + w.length - idx))] (fun s => l.take (s.idx - idx))
    cases hv : versionAfter slash (l.drop w.length) with
    | none =>
      rw [hv] at h
      exact h
    | some v =>
      rw [hv] at h
      obtain ⟨p, hp⟩ := h
      refine ⟨p, l.take (p.idx - idx), ?_⟩
      rw [hp]
      simp
  · simp only [hw, if_false, Bool.false_eq_true]
    exact agrees_none

theorem productRe_matchAt (w1 w2 w3 : String) (slash : Bool) (idx : Nat) (l : List Char) :
    Agrees ((productRe w1 w2 w3 slash).matchAt ⟨idx, l⟩)
      (productVersionAt [w1, w2, w3] slash l) := by
  unfold Re.matchAt productRe productVersionAt
  rw [run_cap, run_seq, run_cap]
  simp only [run_alt, word_run, findSome_cons_firstOf, List.findSome?_nil, firstOf_none_right]
  exact agrees_firstOf _ _ _ _ (word_agrees w1 slash idx l)
    (agrees_firstOf _ _ _ _ (word_agrees w2 slash idx l) (word_agrees w3 slash idx l))

theorem productVersionAt_nil (w1 w2 w3 : String) (slash : Bool) (h1 : w1.data ≠ [])
    (h2 : w2.data ≠ []) (h3 : w3.data ≠ []) :
    productVersionAt [w1, w2, w3] slash [] = none := by
  have hw : ∀ w : List Char, w ≠ [] → wordAt w [] = false := by
    intro w hw
    cases w with
    | nil => exact absurd rfl hw
    | cons c w => rfl
  simp [productVersionAt, hw _ h1, hw _ h2, hw _ h3]

theorem productRe_searchFrom (w1 w2 w3 : String) (slash : Bool) (h1 : w1.data ≠ [])
    (h2 : w2.data ≠ []) (h3 : w3.data ≠ []) (idx : Nat) (l : List Char) :
    Agrees ((productRe w1 w2 w3 slash).searchFrom idx l)
      (leftmostProductVersion [w1, w2, w3] slash l) := by
  induction l generalizing idx with
  | nil =>
    have h := productRe_matchAt w1 w2 w3 slash idx []
    rw [productVersionAt_nil w1 w2 w3 slash h1 h2 h3] at h
    exact h
  | cons c r ih =>
    rw [Re.searchFrom, leftmostProductVersion_cons]
    exact agrees_firstOf _ _ _ _ (productRe_matchAt w1 w2 w3 slash idx (c :: r)) (ih (idx + 1))

theorem findStringSubmatch_product (w1 w2 w3 : String) (slash : Bool) (h1 : w1.data ≠ [])
    (h2 : w2.data ≠ []) (h3 : w3.data ≠ []) (l : List Char) :
    match leftmostProductVersion [w1, w2, w3] slash l with
    | none => findStringSubmatch (productRe w1 w2 w3 slash) 2 l = none
    | some nv =>
      ∃ whole, findStringSubmatch (productRe w1 w2 w3 slash) 2 l = some [whole, nv.1, nv.2] := by
  have h := productRe_searchFrom w1 w2 w3 slash h1 h2 h3 0 l
  cases hl : leftmostProductVersion [w1, w2, w3] slash l with
  | none =>
    rw [hl] at h
    simp only [Agrees] at h
    simp only [findStringSubmatch, h]
  | some nv =>
    rw [hl] at h
    obtain ⟨p, whole, hp⟩ := h
    refine ⟨whole, ?_⟩
    simp only [findStringSubmatch, hp]
    rfl

theorem specificVersion_of_product (w1 w2 w3 : String) (slash : Bool) (h1 : w1.data ≠ [])
    (h2 : w2.data ≠ []) (h3 : w3.data ≠ []) (banner service : String)
    (hp : versionPatterns.lookup service = some (productRe w1 w2 w3 slash, 2)) :
    specificVersion banner service
      = (leftmostProductVersion [w1, w2, w3] slash banner.data).map
          (fun nv => (⟨nv.1 ++ [' '] ++ nv.2⟩ : String)) := by
  have h := findStringSubmatch_product w1 w2 w3 slash h1 h2 h3 banner.data
  cases hl : leftmostProductVersion [w1, w2, w3] slash banner.data with
  | none =>
    rw [hl] at h
    simp only [specificVersion, hp, h, Option.map_none']
  | some nv =>
    rw [hl] at h
    obtain ⟨whole, hw⟩ := h
    simp only [specificVersion, hp, hw, Option.map_some']
    rfl

theorem specificVersion_product (banner service : String) (names : List String)
    (slash : Bool) (hs : (service, names, slash) ∈ productPatterns) :
    specificVersion banner service
      = (leftmostProductVersion names slash banner.data).map
          (fun nv => (⟨nv.1 ++ [' '] ++ nv.2⟩ : String)) := by
  simp only [productPatterns, List.mem_cons, Prod.mk.injEq, List.mem_singleton,
    List.not_mem_nil, or_false] at hs
  rcases hs with ⟨rfl, rfl, rfl⟩ | ⟨rfl, rfl, rfl⟩ | ⟨rfl, rfl, rfl⟩
  · exact specificVersion_of_product "Apache" "nginx" "IIS" true (by decide) (by decide)
      (by decide) banner "HTTP" rfl
  · exact specificVersion_of_product "FileZilla" "vsftpd" "ProFTPD" false (by decide)
      (by decide) (by decide) banner "FTP" rfl
  · exact specificVersion_of_product "Postfix" "Sendmail" "Exchange" false (by decide)
      (by decide) (by decide) banner "SMTP" rfl

theorem leftmostVersionToken_cons (c : Char) (r : List Char) :
    leftmostVersionToken (c :: r)
      = firstOf (versionTokenAt (c :: r)) (leftmostVersionToken r) := by
  rw [leftmostVersionToken]
  cases versionTokenAt (c :: r) <;> rfl

theorem genericRe_searchFrom (idx : Nat) (l : List Char) :
    (genericRe.searchFrom idx l).map Prod.snd
      = (leftmostVersionToken l).map (fun t => [(0, t), (1, t)]) := by
  induction l generalizing idx with
  | nil =>
    rw [Re.searchFrom, genericRe_matchAt]
    rfl
  | cons c r ih =>
    rw [Re.searchFrom, genericRe_matchAt, leftmostVersionToken_cons]
    cases versionTokenAt (c :: r) with
    | none => exact ih (idx + 1)
    | some t => rfl

theorem findStringSubmatch_generic (l : List Char) :
    findStringSubmatch genericRe 1 l = (leftmostVersionToken l).map (fun t => [t, t]) := by
  have h := genericRe_searchFrom 0 l
  unfold findStringSubmatch
  cases hs : genericRe.searchFrom 0 l with
  | none =>
    rw [hs] at h
    cases hl : leftmostVersionToken l with
    | none => rfl
    | some t => rw [hl] at h; simp at h
  | some pc =>
    rw [hs] at h
    cases hl : leftmostVersionToken l with
    | none => rw [hl] at h; simp at h
    | some t =>
      rw [hl] at h
      simp only [Option.map_some', Option.some.injEq] at h
      obtain ⟨p, cs⟩ := pc
      simp only at h
      subst h
      rfl

/-- The value of `extractVersionNew` when the first part finds nothing. -/
theorem extractVersionNew_generic (banner service : String)
    (h : specificVersion banner service = none) :
    extractVersionNew banner service
      = match leftmostVersionToken banner.data with
        | some t => ⟨t⟩
        | none => "" := by
  unfold extractVersionNew
  by_cases hb : banner = ""
  · subst hb
    rfl
  · simp only [hb, if_false, h, findStringSubmatch_generic]
    cases leftmostVersionToken banner.data with
    | none => rfl
    | some t => rfl

theorem specificVersion_ssh (banner : String) : specificVersion banner "SSH" = none := by
  have hp : versionPatterns.lookup "SSH" = some (sshRe, 1) := rfl
  simp only [specificVersion, hp, findStringSubmatch]
  cases sshRe.searchFrom 0 banner.data with
  | none => rfl
  | some pc => simp

theorem takeWhile_all {α : Type} (p : α → Bool) (l : List α) : ∀ c ∈ l.takeWhile p, p c = true :=
  fun _ hc => List.mem_takeWhile_imp hc

theorem isEmpty_false_iff {α : Type} (l : List α) : l.isEmpty = false ↔ l ≠ [] := by
  cases l <;> simp

theorem takeWhile_run {α : Type} (p : α → Bool) (d : List α) (c : α) (r : List α)
    (hd : ∀ x ∈ d, p x = true) (hc : p c = false) :
    (d ++ c :: r).takeWhile p = d ∧ (d ++ c :: r).dropWhile p = c :: r := by
  induction d with
  | nil => simp [List.takeWhile, List.dropWhile, hc]
  | cons x d ih =>
    have hx : p x = true := hd x (List.mem_cons_self _ _)
    have := ih (fun y hy => hd y (List.mem_cons_of_mem _ hy))
    simp [List.takeWhile, List.dropWhile, hx, this]

theorem takeWhile_ne_nil {α : Type} (p : α → Bool) (d r : List α) (hne : d ≠ [])
    (hd : ∀ x ∈ d, p x = true) : ((d ++ r).takeWhile p).isEmpty = false := by
  cases d with
  | nil => exact absurd rfl hne
  | cons x d =>
    have hx : p x = true := hd x (List.mem_cons_self _ _)
    simp [List.takeWhile, hx]

theorem versionTokenAt_form (l t : List Char) (h : versionTokenAt l = some t) :
    isVersionForm t ∧ ∃ post, l = t ++ post := by
  unfold versionTokenAt at h
  simp only [] at h
  by_cases h1 : (l.takeWhile Char.isDigit).isEmpty = true
  · simp [h1] at h
  · simp only [h1, if_false, Bool.false_eq_true] at h
    have hn1 : l.takeWhile Char.isDigit ≠ [] := by
      intro he; rw [he] at h1; simp at h1
    split at h
    · next r2 hr2 =>
      by_cases h2 : (r2.takeWhile Char.isDigit).isEmpty = true
      · simp [h2] at h
      · simp only [h2, if_false, Bool.false_eq_true] at h
        have hn2 : r2.takeWhile Char.isDigit ≠ [] := by
          intro he; rw [he] at h2; simp at h2
        have hl : l = l.takeWhile Char.isDigit ++ '.' :: r2 := split_at_run _ _ _ hr2
        split at h
        · next r4 hr4 =>
          have hl2 : r2 = r2.takeWhile Char.isDigit ++ '.' :: r4 := split_at_run _ _ _ hr4
          by_cases h3 : (r4.takeWhile Char.isDigit).isEmpty = true
          · simp only [h3, if_true, Option.some.injEq] at h
            subst h
            refine ⟨⟨_, _, [], hn1, hn2, takeWhile_all _ _, takeWhile_all _ _, by simp,
              Or.inl rfl⟩, '.' :: r4, ?_⟩
            conv_lhs => rw [hl, hl2]
            simp
          · simp only [h3, if_false, Bool.false_eq_true, Option.some.injEq] at h
            subst h
            have hn3 : r4.takeWhile Char.isDigit ≠ [] := by
              intro he; rw [he] at h3; simp at h3
            refine ⟨⟨_, _, _, hn1, hn2, takeWhile_all _ _, takeWhile_all _ _,
              takeWhile_all _ r4, Or.inr ⟨hn3, rfl⟩⟩, r4.dropWhile Char.isDigit, ?_⟩
            conv_lhs => rw [hl, hl2, ← List.takeWhile_append_dropWhile Char.isDigit r4]
            simp
        · simp only [Option.some.injEq] at h
          subst h
          refine ⟨⟨_, _, [], hn1, hn2, takeWhile_all _ _, takeWhile_all _ _, by simp,
            Or.inl rfl⟩, r2.dropWhile Char.isDigit, ?_⟩
          conv_lhs => rw [hl, ← List.takeWhile_append_dropWhile Char.isDigit r2]
          simp
    · simp at h

theorem versionTokenAt_of_form (t post : List Char) (h : isVersionForm t) :
    (versionTokenAt (t ++ post)).isSome = true := by
  obtain ⟨d1, d2, d3, hn1, hn2, hd1, hd2, hd3, ht⟩ := h
  have key : ∀ rest : List Char, (versionTokenAt (d1 ++ '.' :: (d2 ++ rest))).isSome = true := by
    intro rest
    have hdot : Char.isDigit '.' = false := by decide
    obtain ⟨ht1, hdr1⟩ := takeWhile_run Char.isDigit d1 '.' (d2 ++ rest) hd1 hdot
    have he2 := takeWhile_ne_nil Char.isDigit d2 rest hn2 hd2
    have he1 : d1.isEmpty = false := (isEmpty_false_iff d1).2 hn1
    unfold versionTokenAt
    simp only [ht1, hdr1, he1, he2, if_false, Bool.false_eq_true]
    split
    · split <;> rfl
    · rfl
  rcases ht with rfl | ⟨_, rfl⟩
  · have := key post
    simpa using this
  · have := key ('.' :: d3 ++ post)
    simpa using this

theorem leftmostVersionToken_none (l : List Char) :
    leftmostVersionToken l = none ↔ ∀ pre suf, l = pre ++ suf → versionTokenAt suf = none := by
  induction l with
  | nil =>
    constructor
    · intro _ pre suf h
      have : suf = [] := by
        have := congrArg List.length h
        simp at this
        exact List.length_eq_zero.1 (by omega)
      subst this
      rfl
    · intro _; rfl
  | cons c r ih =>
    rw [leftmostVersionToken_cons]
    constructor
    · intro h pre suf hl
      cases hv : versionTokenAt (c :: r) with
      | some t => rw [hv] at h; simp [firstOf] at h
      | none =>
        rw [hv, firstOf_none_left] at h
        cases pre with
        | nil =>
          simp only [List.nil_append] at hl
          rw [← hl, hv]
        | cons x pre =>
          simp only [List.cons_append, List.cons.injEq] at hl
          exact ih.1 h pre suf hl.2
    · intro h
      rw [h [] (c :: r) rfl, firstOf_none_left]
      exact ih.2 (fun pre suf hl => h (c :: pre) suf (by rw [hl]; rfl))

theorem leftmostVersionToken_some (l t : List Char) (h : leftmostVersionToken l = some t) :
    ∃ pre post, l = pre ++ t ++ post ∧ versionTokenAt (t ++ post) = some t
      ∧ ∀ pre1 suf, l = pre1 ++ suf → pre1.length < pre.length → versionTokenAt suf = none := by
  induction l with
  | nil => simp [leftmostVersionToken] at h
  | cons c r ih =>
    rw [leftmostVersionToken_cons] at h
    cases hv : versionTokenAt (c :: r) with
    | some t1 =>
      rw [hv] at h
      simp only [firstOf, Option.some.injEq] at h
      subst h
      obtain ⟨_, post, hp⟩ := versionTokenAt_form _ _ hv
      refine ⟨[], post, by simpa using hp, by rw [← hp]; exact hv, ?_⟩
      intro pre1 suf _ hlt
      simp at hlt
    | none =>
      rw [hv, firstOf_none_left] at h
      obtain ⟨pre, post, hl, htok, hmin⟩ := ih h
      refine ⟨c :: pre, post, by rw [hl]; rfl, htok, ?_⟩
      intro pre1 suf hl1 hlt
      cases pre1 with
      | nil =>
        simp only [List.nil_append] at hl1
        rw [← hl1, hv]
      | cons x pre1 =>
        simp only [List.cons_append, List.cons.injEq] at hl1
        exact hmin pre1 suf hl1.2 (by simpa using hlt)

theorem leftmostVersionToken_none_iff_form (l : List Char) :
    leftmostVersionToken l = none ↔ ¬ ∃ pre t post, l = pre ++ t ++ post ∧ isVersionForm t := by
  rw [leftmostVersionToken_none]
  constructor
  · intro h ⟨pre, t, post, hl, hf⟩
    have h1 := h pre (t ++ post) (by rw [hl, List.append_assoc])
    have h2 := versionTokenAt_of_form t post hf
    rw [h1] at h2
    simp at h2
  · intro h pre suf hl
    cases hv : versionTokenAt suf with
    | none => rfl
    | some t =>
      exfalso
      obtain ⟨hf, post, hp⟩ := versionTokenAt_form _ _ hv
      exact h ⟨pre, t, post, by rw [hl, hp, List.append_assoc], hf⟩

theorem versionToken_ne_nil (t : List Char) (h : isVersionForm t) : t ≠ [] := by
  obtain ⟨d1, d2, d3, hn1, hn2, hd1, hd2, hd3, ht⟩ := h
  rcases ht with rfl | ⟨_, rfl⟩ <;> simp

/-- C16 (divergence). For the service SSH the pattern of OpenSSH is never used, because it
has one group where `len(matches) > 2` asks for two: the banner
`SSH-2.0-OpenSSH_8.9p1`, in which the pattern finds version 8.9, is reported
as version 2.0, the protocol number. -/
theorem ssh_version_is_protocol_number :
    extractVersionNew "SSH-2.0-OpenSSH_8.9p1" "SSH" = "2.0"
      ∧ findStringSubmatch sshRe 1 "SSH-2.0-OpenSSH_8.9p1".data
          = some ["OpenSSH_8.9".data, "8.9".data]
      ∧ ∀ banner : String, specificVersion banner "SSH" = none :=
  ⟨by decide, by decide, specificVersion_ssh⟩

/-- C17. For HTTP, FTP and SMTP, when a product name of the service, the
separator and a version stand somewhere in the banner, `extractVersionNew`
returns the name as written at the leftmost such place, a space and the
version found there. -/
theorem product_version_reported (banner service : String) (names : List String)
    (slash : Bool) (hs : (service, names, slash) ∈ productPatterns)
    (name ver : List Char)
    (hm : leftmostProductVersion names slash banner.data = some (name, ver)) :
    extractVersionNew banner service = ⟨name ++ [' '] ++ ver⟩ := by
  have h := specificVersion_product banner service names slash hs
  rw [hm] at h
  have hb : banner ≠ "" := by
    intro hb
    subst hb
    simp [leftmostProductVersion] at hm
  unfold extractVersionNew
  simp only [hb, if_false, h, Option.map_some']

theorem product_version_reported_witness :
    (("HTTP", ["Apache", "nginx", "IIS"], true) ∈ productPatterns)
      ∧ leftmostProductVersion ["Apache", "nginx", "IIS"] true
          "HTTP/1.1 200 OK Server: nginx/1.18.0".data = some ("nginx".data, "1.18.0".data)
      ∧ extractVersionNew "HTTP/1.1 200 OK Server: nginx/1.18.0" "HTTP" = "nginx 1.18.0" :=
  ⟨by decide, by decide,
    product_version_reported "HTTP/1.1 200 OK Server: nginx/1.18.0" "HTTP"
      ["Apache", "nginx", "IIS"] true (by decide) "nginx".data "1.18.0".data (by decide)⟩

/-- C18. When the service has no pattern of its own, or that pattern finds
nothing in the banner, `extractVersionNew` returns the leftmost version
token of the banner, and the empty text exactly when no part of the banner
has the form of a version token. -/
theorem generic_version_token (banner service : String)
    (hpre : versionPatterns.lookup service = none
      ∨ ∃ re n, versionPatterns.lookup service = some (re, n)
          ∧ re.searchFrom 0 banner.data = none) :
    extractVersionNew banner service
        = (match leftmostVersionToken banner.data with
          | some t => ⟨t⟩
          | none => "")
      ∧ (∀ t, leftmostVersionToken banner.data = some t →
          ∃ pre post, banner.data = pre ++ t ++ post ∧ isVersionForm t
            ∧ versionTokenAt (t ++ post) = some t
            ∧ ∀ pre1 suf, banner.data = pre1 ++ suf → pre1.length < pre.length →
                versionTokenAt suf = none)
      ∧ (extractVersionNew banner service = ""
          ↔ ¬ ∃ pre t post, banner.data = pre ++ t ++ post ∧ isVersionForm t)
      ∧ extractVersionNew "" service = "" := by
  have hspec : specificVersion banner service = none := by
    rcases hpre with h | ⟨re, n, h, hn⟩
    · simp only [specificVersion, h]
    · simp only [specificVersion, h, findStringSubmatch, hn]
  have hgen := extractVersionNew_generic banner service hspec
  refine ⟨hgen, ?_, ?_, rfl⟩
  · intro t ht
    obtain ⟨pre, post, hl, htok, hmin⟩ := leftmostVersionToken_some _ _ ht
    exact ⟨pre, post, hl, (versionTokenAt_form _ _ htok).1, htok, hmin⟩
  · rw [← leftmostVersionToken_none_iff_form, hgen]
    cases hl : leftmostVersionToken banner.data with
    | none => simp
    | some t =>
      obtain ⟨pre, post, _, htok, _⟩ := leftmostVersionToken_some _ _ hl
      have hne := versionToken_ne_nil t (versionTokenAt_form _ _ htok).1
      simp only [reduceCtorEq, iff_false]
      intro h
      exact hne (congrArg String.data h)

theorem generic_version_token_witness :
    (versionPatterns.lookup "Telnet" = none
        ∨ ∃ re n, versionPatterns.lookup "Telnet" = some (re, n)
            ∧ re.searchFrom 0 "login 10.4.3.2 ok".data = none)
      ∧ extractVersionNew "login 10.4.3.2 ok" "Telnet" = "10.4.3" :=
  ⟨Or.inl rfl, (generic_version_token "login 10.4.3.2 ok" "Telnet" (Or.inl rfl)).1⟩


/-! ## `getBannerNew` -/

theorem printRe_matchAt (idx : Nat) (l : List Char) :
    printRe.matchAt ⟨idx, l⟩
      = if (l.takeWhile printable).isEmpty then none
        else some (⟨idx + (l.takeWhile printable).length, l.dropWhile printable⟩,
          [(0, l.takeWhile printable)]) := by
  unfold Re.matchAt printRe
  rw [run_cap, plus_run_of_some _ _ _ _ _ _ rfl]
  simp [take_takeWhile_length]

theorem printRe_searchFrom (idx : Nat) (l : List Char) (p : Pos Char) (cs : Caps Char)
    (h : printRe.searchFrom idx l = some (p, cs)) :
    ∀ c ∈ groupText cs 0, printable c = true := by
  induction l generalizing idx with
  | nil =>
    rw [Re.searchFrom, printRe_matchAt] at h
    simp at h
  | cons x r ih =>
    rw [Re.searchFrom, printRe_matchAt] at h
    by_cases he : ((x :: r).takeWhile printable).isEmpty = true
    · rw [if_pos he, firstOf_none_left] at h
      exact ih (idx + 1) h
    · rw [if_neg he, firstOf_some] at h
      simp only [Option.some.injEq, Prod.mk.injEq] at h
      obtain ⟨_, hcs⟩ := h
      subst hcs
      intro c hc
      exact List.mem_takeWhile_imp (by simpa [groupText] using hc)

theorem printRe_findAllFrom (fuel idx : Nat) (l : List Char) :
    ∀ m ∈ printRe.findAllFrom fuel idx l, ∀ c ∈ m, printable c = true := by
  induction fuel generalizing idx l with
  | zero => simp [Re.findAllFrom]
  | succ fuel ih =>
    rw [Re.findAllFrom]
    cases hs : printRe.searchFrom idx l with
    | none => simp
    | some pc =>
      obtain ⟨p, cs⟩ := pc
      have hp := printRe_searchFrom idx l p cs hs
      simp only
      split
      · intro m hm
        simp only [List.mem_singleton] at hm
        subst hm
        exact hp
      · intro m hm
        rcases List.mem_cons.1 hm with rfl | hm
        · exact hp
        · exact ih _ _ m hm

theorem joinWith_all {α : Type} (q : α → Prop) (sep : List α) (hsep : ∀ c ∈ sep, q c)
    (parts : List (List α)) (h : ∀ m ∈ parts, ∀ c ∈ m, q c) :
    ∀ c ∈ joinWith sep parts, q c := by
  induction parts with
  | nil => simp [joinWith]
  | cons x rest ih =>
    cases rest with
    | nil =>
      simpa [joinWith] using h x (List.mem_cons_self _ _)
    | cons y rest =>
      intro c hc
      simp only [joinWith, List.mem_append] at hc
      rcases hc with (hc | hc) | hc
      · exact h x (List.mem_cons_self _ _) c hc
      · exact hsep c hc
      · exact ih (fun m hm => h m (List.mem_cons_of_mem _ hm)) c hc

theorem getBannerNew_bound (read : Option (List Char)) :
    (getBannerNew read).length ≤ 103
      ∧ (∀ c ∈ (getBannerNew read).data, printable c = true)
      ∧ ((getBannerNew read).length ≤ 100
        ∨ ∃ pre : List Char, pre.length = 100
            ∧ (getBannerNew read).data = pre ++ ['.', '.', '.']) := by
  cases read with
  | none => exact ⟨by decide, by simp [getBannerNew], Or.inl (by decide)⟩
  | some data =>
    unfold getBannerNew
    by_cases hd : data.isEmpty = true
    · simp only [hd, if_true]
      exact ⟨by decide, by simp, Or.inl (by decide)⟩
    · simp only [hd, if_false, Bool.false_eq_true]
      have hall : ∀ c ∈ joinWith [' '] (findAllString printRe (trimSpace data)),
          printable c = true :=
        joinWith_all (fun c => printable c = true) [' ']
          (by intro c hc; simp only [List.mem_singleton] at hc; subst hc; decide) _
          (printRe_findAllFrom _ _ _)
      generalize joinWith [' '] (findAllString printRe (trimSpace data)) = clean at hall ⊢
      by_cases hlen : clean.length > 100
      · simp only [hlen, if_true]
        refine ⟨?_, ?_, Or.inr ⟨clean.take 100, ?_, rfl⟩⟩
        · simp only [String.length, List.length_append, List.length_take]
          simp
        · intro c hc
          simp only [List.mem_append] at hc
          rcases hc with hc | hc
          · exact hall c (List.mem_of_mem_take hc)
          · simp only [List.mem_cons, List.mem_singleton, List.not_mem_nil, or_false] at hc
            rcases hc with rfl | rfl | rfl <;> decide
        · simp only [List.length_take]
          omega
      · simp only [hlen, if_false]
        exact ⟨by simp only [String.length]; omega, hall, Or.inl (by simp only [String.length]; omega)⟩

/-- C19 (as stated, refuted). Two hundred letters read from the connection give a
cleaned banner of 103 characters. -/
theorem banner_longer_than_100 :
    (getBannerNew (some (List.replicate 200 'a'))).length = 103 := by
  decide

/-- C19 (amended). The cleaned banner of `getBannerNew`, which `scanPortNew`
stores in `ServiceInfo.Banner`, is at most 103 characters long: either at
most 100, or the first 100 characters of the cleaned text and three dots.
All its characters are printable ASCII. -/
theorem banner_at_most_103 (read : Option (List Char)) (env : Env) (ip : String)
    (port timeout : Int) :
    (getBannerNew read).length ≤ 103
      ∧ (∀ c ∈ (getBannerNew read).data, printable c = true)
      ∧ ((getBannerNew read).length ≤ 100
        ∨ ∃ pre : List Char, pre.length = 100
            ∧ (getBannerNew read).data = pre ++ ['.', '.', '.'])
      ∧ (scanPortNew env ip port timeout).1.Banner.length ≤ 103 := by
  obtain ⟨h1, h2, h3⟩ := getBannerNew_bound read
  refine ⟨h1, h2, h3, ?_⟩
  unfold scanPortNew
  simp only
  split
  · show (0 : Nat) ≤ 103
    omega
  · exact (getBannerNew_bound _).1

theorem banner_at_most_103_witness :
    (getBannerNew (some (List.replicate 200 'a'))).length ≤ 103
      ∧ (scanPortNew sampleEnv "10.255.255.1" 22 1).1.Banner.length ≤ 103 :=
  ⟨(banner_at_most_103 (some (List.replicate 200 'a')) sampleEnv "10.255.255.1" 22 1).1,
    (banner_at_most_103 (some (List.replicate 200 'a')) sampleEnv "10.255.255.1" 22 1).2.2.2⟩

/-! ## `strings.TrimSpace` on bytes and `cleanVendorName` -/

theorem hasPrefix_iff (s pre : Bytes) : hasPrefix s pre = true ↔ ∃ t, s = pre ++ t := by
  simp only [hasPrefix, decide_eq_true_eq]
  constructor
  · intro h
    exact ⟨s.drop pre.length, by conv_lhs => rw [← List.take_append_drop pre.length s, h]⟩
  · rintro ⟨t, rfl⟩
    simp

theorem spaceRunes_ne_nil : ∀ r ∈ spaceRunes, r ≠ [] := by decide

theorem runeLen_zero (p : Bytes → Bool) :
    (match spaceRunes.find? p with
      | some r => r.length
      | none => 0) = 0 ↔ ∀ r ∈ spaceRunes, p r = false := by
  cases h : spaceRunes.find? p with
  | none =>
    simp only [true_iff]
    intro r hr
    have := List.find?_eq_none.1 h r hr
    simpa using this
  | some r =>
    have hmem := List.mem_of_find?_eq_some h
    have hp := List.find?_some h
    have hne := spaceRunes_ne_nil r hmem
    simp only [List.length_eq_zero, hne, false_iff, not_forall]
    exact ⟨r, hmem, by simp [hp]⟩

theorem spaceLen_zero (l : Bytes) :
    spaceLen l = 0 ↔ ∀ r ∈ spaceRunes, hasPrefix l r = false :=
  runeLen_zero (fun r => hasPrefix l r)

theorem spaceLenRev_zero (l : Bytes) :
    spaceLenRev l = 0 ↔ ∀ r ∈ spaceRunes, hasPrefix l r.reverse = false :=
  runeLen_zero (fun r => hasPrefix l r.reverse)

theorem dropRunes_of_zero (len : Bytes → Nat) (n : Nat) (l : Bytes) (h : len l = 0) :
    dropRunes len n l = l := by
  cases n with
  | zero => rfl
  | succ n => simp [dropRunes, h]

theorem dropRunes_len_zero (len : Bytes → Nat) (hnil : len [] = 0) (n : Nat) (l : Bytes)
    (hn : l.length ≤ n) : len (dropRunes len n l) = 0 := by
  induction n generalizing l with
  | zero =>
    have : l = [] := List.length_eq_zero.1 (by omega)
    subst this
    exact hnil
  | succ n ih =>
    rw [dropRunes]
    by_cases h : len l = 0
    · simp only [h, if_true]
    · simp only [h, if_false]
      apply ih
      rw [List.length_drop]
      omega

theorem dropRunes_suffix (len : Bytes → Nat) (n : Nat) (l : Bytes) :
    ∃ k, dropRunes len n l = l.drop k := by
  induction n generalizing l with
  | zero => exact ⟨0, rfl⟩
  | succ n ih =>
    rw [dropRunes]
    by_cases h : len l = 0
    · exact ⟨0, by simp [h]⟩
    · obtain ⟨k, hk⟩ := ih (l.drop (len l))
      exact ⟨len l + k, by simp only [h, if_false, hk, List.drop_drop]⟩

theorem spaceLen_nil : spaceLen [] = 0 := by decide

theorem spaceLenRev_nil : spaceLenRev [] = 0 := by decide

/-- The shape of a trimmed text: a piece of the text, with no white space
rune at either end. -/
theorem trimSpaceB_spec (s : Bytes) :
    ∃ i j, trimSpaceB s = (s.drop i).take j
      ∧ spaceLen (trimSpaceB s) = 0 ∧ spaceLenRev (trimSpaceB s).reverse = 0 := by
  obtain ⟨i, hi⟩ := dropRunes_suffix spaceLen s.length s
  have hleft := dropRunes_len_zero spaceLen spaceLen_nil s.length s (le_refl _)
  have ht : trimSpaceB s
      = (dropRunes spaceLenRev (dropRunes spaceLen s.length s).length
          (dropRunes spaceLen s.length s).reverse).reverse := rfl
  obtain ⟨k, hk⟩ := dropRunes_suffix spaceLenRev (dropRunes spaceLen s.length s).length
    (dropRunes spaceLen s.length s).reverse
  have hright := dropRunes_len_zero spaceLenRev spaceLenRev_nil
    (dropRunes spaceLen s.length s).length (dropRunes spaceLen s.length s).reverse (by simp)
  have hpre : trimSpaceB s
      = (dropRunes spaceLen s.length s).take ((dropRunes spaceLen s.length s).length - k) := by
    rw [ht, hk, List.reverse_drop, List.reverse_reverse, List.length_reverse]
  refine ⟨i, (dropRunes spaceLen s.length s).length - k, by rw [hpre, hi], ?_, ?_⟩
  · rw [spaceLen_zero] at hleft ⊢
    intro r hr
    have h1 := hleft r hr
    cases h2 : hasPrefix (trimSpaceB s) r with
    | false => rfl
    | true =>
      obtain ⟨t, ht2⟩ := (hasPrefix_iff _ _).1 h2
      have h3 : hasPrefix (dropRunes spaceLen s.length s) r = true := by
        rw [hasPrefix_iff]
        refine ⟨t ++ (dropRunes spaceLen s.length s).drop
          ((dropRunes spaceLen s.length s).length - k), ?_⟩
        rw [← List.append_assoc, ← ht2, hpre, List.take_append_drop]
      rw [h1] at h3
      exact absurd h3 (by simp)
  · rw [ht, List.reverse_reverse]
    exact hright

theorem trimSpaceB_mem (s : Bytes) (b : Nat) (h : b ∈ trimSpaceB s) : b ∈ s := by
  obtain ⟨i, j, hij, _⟩ := trimSpaceB_spec s
  rw [hij] at h
  exact List.mem_of_mem_drop (List.mem_of_mem_take h)

theorem trimSpaceB_of_clean (s : Bytes) (h1 : spaceLen s = 0) (h2 : spaceLenRev s.reverse = 0) :
    trimSpaceB s = s := by
  unfold trimSpaceB
  simp only [dropRunes_of_zero spaceLen s.length s h1,
    dropRunes_of_zero spaceLenRev s.length s.reverse h2, List.reverse_reverse]

theorem trimSpaceB_idem (s : Bytes) : trimSpaceB (trimSpaceB s) = trimSpaceB s := by
  obtain ⟨_, _, _, h1, h2⟩ := trimSpaceB_spec s
  exact trimSpaceB_of_clean _ h1 h2

/-- The last byte of a trimmed text is no ASCII white space. -/
theorem trimSpaceB_last (s : Bytes) (b : Nat) (h : (trimSpaceB s).getLast? = some b) :
    ¬ ((9 ≤ b ∧ b ≤ 13) ∨ b = 32) := by
  obtain ⟨_, _, _, _, h2⟩ := trimSpaceB_spec s
  rw [spaceLenRev_zero] at h2
  have hrev : ∃ t, (trimSpaceB s).reverse = b :: t := by
    cases hr : (trimSpaceB s).reverse with
    | nil =>
      have : trimSpaceB s = [] := by simpa using hr
      rw [this] at h
      simp at h
    | cons x t =>
      have : (trimSpaceB s).getLast? = some x := by
        rw [← List.head?_reverse, hr]
        rfl
      rw [h] at this
      exact ⟨t, by rw [Option.some.inj this]⟩
  obtain ⟨t, ht⟩ := hrev
  intro hb
  have hmem : [b] ∈ spaceRunes := by
    rcases hb with ⟨h9, h13⟩ | h32
    · interval_cases b <;> decide
    · subst h32; decide
  have := h2 [b] hmem
  rw [ht] at this
  simp [hasPrefix] at this

theorem hasSuffix_iff (s suffix : Bytes) :
    hasSuffix s suffix = true ↔ ∃ p, s = p ++ suffix := by
  simp only [hasSuffix, Bool.and_eq_true, decide_eq_true_eq]
  constructor
  · rintro ⟨_, h⟩
    exact ⟨s.take (s.length - suffix.length), by
      conv_lhs => rw [← List.take_append_drop (s.length - suffix.length) s, h]⟩
  · rintro ⟨p, rfl⟩
    simp

theorem stripSuffix_find (list : List Bytes) (name : Bytes) :
    stripSuffix list name
      = match list.find? (fun suffix => hasSuffix name suffix) with
        | some suffix => trimSpaceB (name.take (name.length - suffix.length))
        | none => name := by
  induction list with
  | nil => rfl
  | cons s rest ih =>
    by_cases h : hasSuffix name s = true
    · simp only [stripSuffix, h, if_true, List.find?_cons_of_pos, trimSuffix]
    · simp only [stripSuffix, h, if_false, Bool.false_eq_true]
      rw [ih, List.find?_cons_of_neg _ h]

theorem cleanVendorName_eq (vendor : Bytes) :
    cleanVendorName vendor = cutAt50 (withoutFirstSuffix (trimSpaceB vendor)) := by
  unfold cleanVendorName cutAt50 withoutFirstSuffix firstSuffix
  simp only [stripSuffix_find]

theorem cleanVendorName_trim (vendor : Bytes) :
    cleanVendorName (trimSpaceB vendor) = cleanVendorName vendor := by
  rw [cleanVendorName_eq, cleanVendorName_eq, trimSpaceB_idem]

theorem cutAt50_length (name : Bytes) :
    (cutAt50 name).length ≤ 53
      ∧ ((cutAt50 name).length ≤ 50
        ∨ ∃ pre : Bytes, pre.length = 50 ∧ cutAt50 name = pre ++ ascii "...") := by
  unfold cutAt50
  by_cases h : name.length > 50
  · simp only [h, if_true]
    have h50 : (name.take 50).length = 50 := by
      rw [List.length_take]; omega
    refine ⟨?_, Or.inr ⟨name.take 50, h50, rfl⟩⟩
    rw [List.length_append, h50]
    decide
  · simp only [h, if_false]
    exact ⟨by omega, Or.inl (by omega)⟩

theorem dots_end_no_suffix (x suffix : Bytes) (hs : suffix ∈ corporateSuffixes) :
    hasSuffix (x ++ ascii "...") suffix = false := by
  cases h : hasSuffix (x ++ ascii "...") suffix with
  | false => rfl
  | true =>
    exfalso
    obtain ⟨p, hp⟩ := (hasSuffix_iff _ _).1 h
    have hrev := congrArg (fun l => l.reverse.take 3) hp
    simp only [List.reverse_append] at hrev
    have hfacts : ∀ s ∈ corporateSuffixes,
        3 ≤ s.length ∧ s.reverse.take 3 ≠ (ascii "...").reverse := by decide
    obtain ⟨hlen, hne⟩ := hfacts suffix hs
    have h3 : (ascii "...").reverse.length = 3 := by decide
    rw [List.take_append_of_le_length (by rw [h3]),
      List.take_append_of_le_length (by rw [List.length_reverse]; exact hlen)] at hrev
    exact hne (by rw [← hrev]; decide)

/-- C14 (as stated, refuted). A name of 66 bytes is returned as its first 50 bytes
and three dots, 53 bytes. -/
theorem clean_name_longer_than_50 :
    cleanVendorName
        (ascii "Hewlett Packard Enterprise Development Limited Partnership Company")
      = ascii "Hewlett Packard Enterprise Development Limited Par..."
      ∧ (cleanVendorName
          (ascii "Hewlett Packard Enterprise Development Limited Partnership Company")).length
        = 53 := by
  decide

/-- C14 (amended). The name returned by `cleanVendorName` is at most 53 bytes
long: a cleaned name of more than 50 bytes is cut to its first 50 bytes,
followed by three dots. -/
theorem clean_name_at_most_53 (vendor : Bytes) :
    (cleanVendorName vendor).length ≤ 53
      ∧ ((cleanVendorName vendor).length ≤ 50
        ∨ ∃ pre : Bytes, pre.length = 50 ∧ cleanVendorName vendor = pre ++ ascii "...") := by
  rw [cleanVendorName_eq]
  exact cutAt50_length _

/-- C15 (as stated, refuted). Of two suffixes at the end only the last is removed;
the name returned still ends with a listed suffix. -/
theorem stacked_suffix_kept :
    cleanVendorName (ascii "Acme Networks Co., Ltd.") = ascii "Acme Networks Co."
      ∧ ascii " Co." ∈ corporateSuffixes
      ∧ hasSuffix (cleanVendorName (ascii "Acme Networks Co., Ltd.")) (ascii " Co.") = true := by
  decide

/-- C15 (amended). The function `cleanVendorName` removes one suffix, the first entry of the
list that the trimmed name ends with, and trims what is left; when what is
left does not itself end with a listed suffix, the name returned ends with
none. -/
theorem one_suffix_stripped (vendor : Bytes)
    (h : ∀ s ∈ corporateSuffixes,
      hasSuffix (withoutFirstSuffix (trimSpaceB vendor)) s = false) :
    cleanVendorName vendor = cutAt50 (withoutFirstSuffix (trimSpaceB vendor))
      ∧ ∀ s ∈ corporateSuffixes, hasSuffix (cleanVendorName vendor) s = false := by
  refine ⟨cleanVendorName_eq vendor, ?_⟩
  intro s hs
  rw [cleanVendorName_eq, cutAt50]
  split
  · exact dots_end_no_suffix _ s hs
  · exact h s hs

theorem one_suffix_stripped_witness :
    (∀ s ∈ corporateSuffixes,
        hasSuffix (withoutFirstSuffix (trimSpaceB (ascii " Apple, Inc. "))) s = false)
      ∧ cleanVendorName (ascii " Apple, Inc. ") = ascii "Apple"
      ∧ ∀ s ∈ corporateSuffixes, hasSuffix (ascii "Apple") s = false :=
  ⟨by decide, by decide, (one_suffix_stripped (ascii " Apple, Inc. ") (by decide)).2⟩

/-! ## Maps and `parseOUIContent` -/

theorem get_set_self (m : GoMap) (k v : Bytes) : (m.set k v).get k = some v := by
  simp [GoMap.get, GoMap.set, List.lookup]

theorem lookup_filter_ne (m : GoMap) (k k1 : Bytes) (h : k1 ≠ k) :
    (m.filter (fun e => decide (e.1 ≠ k))).lookup k1 = m.lookup k1 := by
  induction m with
  | nil => rfl
  | cons e m ih =>
    obtain ⟨a, b⟩ := e
    by_cases ha : a = k
    · subst ha
      have hk : (k1 == a) = false := by simpa using h
      simpa [List.filter, List.lookup, hk] using ih
    · by_cases hk : k1 = a
      · subst hk
        simp [List.filter, List.lookup, ha]
      · have hk2 : (k1 == a) = false := by simpa using hk
        simpa [List.filter, List.lookup, ha, hk2] using ih

theorem get_set_ne (m : GoMap) (k v k1 : Bytes) (h : k1 ≠ k) :
    (m.set k v).get k1 = m.get k1 := by
  have hk : (k1 == k) = false := by simpa using h
  simp only [GoMap.get, GoMap.set, List.lookup, hk]
  exact lookup_filter_ne m k k1 h

theorem get_set (m : GoMap) (k v k1 : Bytes) :
    (m.set k v).get k1 = if k1 = k then some v else m.get k1 := by
  by_cases h : k1 = k
  · subst h; simp [get_set_self]
  · simp [h, get_set_ne m k v k1 h]

theorem get_mapsCopy (dst src : GoMap) (k : Bytes) :
    (mapsCopy dst src).get k = firstOf (src.get k) (dst.get k) := by
  induction src with
  | nil => rfl
  | cons e src ih =>
    obtain ⟨a, b⟩ := e
    simp only [mapsCopy, List.foldr] at ih ⊢
    rw [get_set, ih]
    by_cases h : k = a
    · subst h
      simp [GoMap.get, List.lookup, firstOf]
    · have hk : (k == a) = false := by simpa using h
      simp [GoMap.get, List.lookup, h, hk]

theorem get_foldl_set (entries : List (Bytes × Bytes)) (m : GoMap) (k : Bytes) :
    (entries.foldl (fun t e => t.set e.1 e.2) m).get k
      = firstOf (entries.reverse.lookup k) (m.get k) := by
  induction entries generalizing m with
  | nil => rfl
  | cons e entries ih =>
    obtain ⟨a, b⟩ := e
    rw [List.foldl_cons, ih, get_set, List.reverse_cons]
    cases hl : entries.reverse.lookup k with
    | some v =>
      have : (entries.reverse ++ [(a, b)]).lookup k = some v := by
        rw [List.lookup_append, hl]; rfl
      rw [this]; rfl
    | none =>
      have : (entries.reverse ++ [(a, b)]).lookup k = [(a, b)].lookup k := by
        rw [List.lookup_append, hl]; rfl
      rw [this]
      by_cases h : k = a
      · subst h; simp [List.lookup, firstOf]
      · have hk : (k == a) = false := by simpa using h
        simp [List.lookup, firstOf, h, hk]

theorem linesOf_no_newline (content : Bytes) : ∀ l ∈ linesOf content, ∀ b ∈ l, b ≠ 10 := by
  induction content with
  | nil => simp [linesOf]
  | cons c rest ih =>
    rw [linesOf]
    by_cases hc : c = 10
    · simp only [hc, if_true]
      intro l hl
      rcases List.mem_cons.1 hl with rfl | hl
      · simp
      · exact ih l hl
    · simp only [hc, if_false]
      cases hr : linesOf rest with
      | nil =>
        intro l hl
        simp only [List.mem_singleton] at hl
        subst hl
        simpa using hc
      | cons first others =>
        rw [hr] at ih
        intro l hl
        rcases List.mem_cons.1 hl with rfl | hl
        · intro b hb
          rcases List.mem_cons.1 hb with rfl | hb
          · exact hc
          · exact ih first (List.mem_cons_self _ _) b hb
        · exact ih l (List.mem_cons_of_mem _ hl)

theorem dropCR_mem (l : Bytes) (b : Nat) (h : b ∈ dropCR l) : b ∈ l := by
  unfold dropCR at h
  split at h
  · exact List.mem_of_mem_dropLast h
  · exact h

theorem scannerTexts_short (content : Bytes)
    (h : ∀ l ∈ linesOf content, l.length < 65536) :
    scannerTexts content = (linesOf content).map dropCR := by
  unfold scannerTexts
  rw [List.takeWhile_eq_self_iff.2]
  intro l hl
  simpa using h l hl


theorem run_bot {α : Type} (s : Pos α) (cs : Caps α) (k : Cont α) :
    Re.bot.run s cs k = if s.idx = 0 then k s cs else none := rfl

theorem run_eot {α : Type} (s : Pos α) (cs : Caps α) (k : Cont α) :
    Re.eot.run s cs k = if s.rest.isEmpty then k s cs else none := rfl

theorem bytes_run (w : Bytes) (idx : Nat) (l : Bytes) (cs : Caps Nat) (k : Cont Nat) :
    (Re.ofList (w.map Re.byte)).run ⟨idx, l⟩ cs k
      = if hasPrefix l w then k ⟨idx + w.length, l.drop w.length⟩ cs else none := by
  induction w generalizing idx l with
  | nil => simp [Re.ofList, run_eps, hasPrefix]
  | cons c w ih =>
    cases l with
    | nil => simp [Re.ofList, run_seq, Re.byte, run_set_nil, hasPrefix]
    | cons x l =>
      simp only [List.map_cons, Re.ofList, run_seq, Re.byte, run_set_cons]
      by_cases hx : x = c
      · subst hx
        have := ih (idx + 1) l
        simp only [Re.byte] at this
        simp only [beq_self_eq_true, if_true, this, hasPrefix, List.length_cons,
          List.take_succ_cons, List.cons.injEq, true_and, List.drop_succ_cons]
        simp [Nat.add_assoc, Nat.add_comm 1]
      · have hb : (x == c) = false := by simpa using hx
        simp [hb, hasPrefix, hx]

theorem ouiRegex_later (idx : Nat) (l : Bytes) (h : idx ≠ 0) :
    ouiRegex.matchAt ⟨idx, l⟩ = none := by
  unfold Re.matchAt ouiRegex
  rw [run_cap, run_seq, run_bot]
  simp [h]

theorem ouiRegex_searchFrom_later (idx : Nat) (l : Bytes) :
    ouiRegex.searchFrom (idx + 1) l = none := by
  induction l generalizing idx with
  | nil => exact ouiRegex_later _ _ (by omega)
  | cons c r ih =>
    rw [Re.searchFrom, ouiRegex_later _ _ (by omega), ih]
    rfl

theorem ouiRegex_searchFrom (l : Bytes) :
    ouiRegex.searchFrom 0 l = ouiRegex.matchAt ⟨0, l⟩ := by
  cases l with
  | nil => rfl
  | cons c r => rw [Re.searchFrom, ouiRegex_searchFrom_later, firstOf_none_right]

theorem ouiNameRe_run (i : Nat) (rest : Bytes) (cs : Caps Nat) (f : Pos Nat → Bytes)
    (hnl : ∀ b ∈ rest, b ≠ 10)
    (hlast : ∀ b, rest.getLast? = some b → reSpaceB b = false) :
    match registryName rest with
    | none => ouiNameRe.run ⟨i, rest⟩ cs (fun s1 cs1 => some (s1, (0, f s1) :: cs1)) = none
    | some name =>
      ∃ p, ouiNameRe.run ⟨i, rest⟩ cs (fun s1 cs1 => some (s1, (0, f s1) :: cs1))
        = some (p, (0, f p) :: (2, name) :: cs) := by
  unfold ouiNameRe registryName
  rw [run_seq, plus_run_of_block]
  · by_cases h1 : (rest.takeWhile reSpaceB).isEmpty = true
    · simp only [h1, if_true]
    · simp only [h1, if_false, Bool.false_eq_true]
      rw [run_seq, bytes_run]
      by_cases h2 : hasPrefix (rest.dropWhile reSpaceB) (ascii "(hex)") = true
      · simp only [h2, if_true]
        have h5 : (ascii "(hex)").length = 5 := rfl
        rw [h5]
        generalize hr2 : (rest.dropWhile reSpaceB).drop 5 = r2
        by_cases h3 : (r2.takeWhile reSpaceB).isEmpty = true
        · simp only [h3, if_true]
          rw [run_seq, plus_run_empty _ _ _ _ _ h3]
        · simp only [h3, if_false, Bool.false_eq_true]
          have hrest1 : rest = rest.takeWhile reSpaceB ++ (ascii "(hex)" ++ r2) := by
            obtain ⟨t, ht⟩ := (hasPrefix_iff _ _).1 h2
            have : r2 = t := by
              rw [← hr2, ht]
              exact drop_of_append _ _ _ rfl
            rw [this, ← ht, List.takeWhile_append_dropWhile]
          have hr2s : r2 = r2.takeWhile reSpaceB ++ r2.dropWhile reSpaceB :=
            (List.takeWhile_append_dropWhile _ _).symm
          by_cases h4 : (r2.dropWhile reSpaceB).isEmpty = true
          · exfalso
            have hnil : r2.dropWhile reSpaceB = [] := by simpa using h4
            have hne : r2.takeWhile reSpaceB ≠ [] := by
              intro he; rw [he] at h3; simp at h3
            have hr2w : r2 = r2.takeWhile reSpaceB := by
              conv_lhs => rw [hr2s, hnil, List.append_nil]
            rcases List.eq_nil_or_concat (r2.takeWhile reSpaceB) with he | ⟨ini, x, hx⟩
            · exact hne he
            · have hws : reSpaceB x = true :=
                takeWhile_all reSpaceB r2 x (by rw [hx]; simp)
              have hl : rest.getLast? = some x := by
                rw [hrest1, hr2w, hx]
                simp [← List.append_assoc]
              rw [hlast _ hl] at hws
              exact absurd hws (by simp)
          · simp only [h4, if_false, Bool.false_eq_true]
            have hname : ∀ b ∈ r2.dropWhile reSpaceB, (b != 10) = true := by
              intro b hb
              have hb1 : b ∈ r2 := by rw [hr2s]; exact List.mem_append_right _ hb
              have hb2 : b ∈ rest := by
                rw [hrest1]
                exact List.mem_append_right _ (List.mem_append_right _ hb1)
              simpa using hnl b hb2
            have htw : (r2.dropWhile reSpaceB).takeWhile (fun b => b != 10)
                = r2.dropWhile reSpaceB := List.takeWhile_eq_self_iff.2 hname
            have hdw : (r2.dropWhile reSpaceB).dropWhile (fun b => b != 10) = [] :=
              List.dropWhile_eq_nil_iff.2 hname
            refine ⟨⟨i + (rest.takeWhile reSpaceB).length + 5 + (r2.takeWhile reSpaceB).length
              + (r2.dropWhile reSpaceB).length, []⟩, ?_⟩
            rw [run_seq]
            apply plus_run_max _ _ _ _ _ _ (by simpa using h3)
            rw [run_seq, run_cap]
            rw [plus_run_max _ _ _ _ _ _ (by rw [htw]; simpa using h4)]
            rw [htw, hdw, run_eot]
            simp only [List.isEmpty_nil, if_true]
            simp
      · simp only [h2, if_false, Bool.false_eq_true]
  · intro j c r hc
    rw [run_seq, bytes_run]
    have : hasPrefix (c :: r) (ascii "(hex)") = false := by
      simp only [hasPrefix, decide_eq_false_iff_not]
      intro h
      have h0 : c = 40 := by
        have := congrArg List.head? h
        simpa [ascii] using this
      subst h0
      simp [reSpaceB] at hc
    simp only [this, if_false, Bool.false_eq_true]

theorem hexUpper_ne_dash (b : Nat) (h : hexUpper b = true) : b ≠ 45 := by
  intro hb
  subst hb
  simp [hexUpper] at h

theorem ouiRegex_matchAt (line : Bytes) (hnl : ∀ b ∈ line, b ≠ 10)
    (hlast : ∀ b, line.getLast? = some b → reSpaceB b = false) :
    match registryLine line with
    | none => ouiRegex.matchAt ⟨0, line⟩ = none
    | some e =>
      ∃ p whole g1, ouiRegex.matchAt ⟨0, line⟩ = some (p, [(0, whole), (2, e.2), (1, g1)])
        ∧ replaceByte 45 58 g1 = e.1 := by
  unfold Re.matchAt ouiRegex
  rw [run_cap, run_seq, run_bot]
  simp only [if_true]
  rw [run_seq, run_cap]
  simp only [Re.ofList, run_seq, run_eps, Re.byte]
  rcases line with _ | ⟨a, _ | ⟨b, _ | ⟨d1, _ | ⟨c, _ | ⟨d, _ | ⟨d2, _ | ⟨e, _ | ⟨f, rest⟩⟩⟩⟩⟩⟩⟩⟩
  all_goals try (simp [run_set_cons, run_set_nil, registryLine]; done)
  simp only [run_set_cons, registryLine]
  by_cases hh : (hexUpper a && hexUpper b && d1 == 45 && hexUpper c && hexUpper d && d2 == 45
        && hexUpper e && hexUpper f) = true
  · simp only [hh, if_true]
    simp only [Bool.and_eq_true] at hh
    obtain ⟨⟨⟨⟨⟨⟨⟨ha, hb⟩, hd1⟩, hc⟩, hd⟩, hd2⟩, he⟩, hf⟩ := hh
    simp only [ha, hb, hd1, hc, hd, hd2, he, hf, if_true]
    have hd1e : d1 = 45 := by simpa using hd1
    have hd2e : d2 = 45 := by simpa using hd2
    subst hd1e hd2e
    have hnl2 : ∀ x ∈ rest, x ≠ 10 := fun x hx => hnl x (by simp [hx])
    have hlast2 : ∀ x, rest.getLast? = some x → reSpaceB x = false := by
      intro x hx
      apply hlast x
      cases rest with
      | nil => simp at hx
      | cons y ys =>
        rw [← hx]
        simp [List.getLast?_cons_cons]
    have h := ouiNameRe_run (0 + 1 + 1 + 1 + 1 + 1 + 1 + 1 + 1) rest
      [(1, List.take (0 + 1 + 1 + 1 + 1 + 1 + 1 + 1 + 1 - 0)
        (a :: b :: 45 :: c :: d :: 45 :: e :: f :: rest))]
      (fun s => List.take (s.idx - 0) (a :: b :: 45 :: c :: d :: 45 :: e :: f :: rest))
      hnl2 hlast2
    cases hn : registryName rest with
    | none =>
      rw [hn] at h
      simpa using h
    | some name =>
      rw [hn] at h
      obtain ⟨p, hp⟩ := h
      refine ⟨p, _, _, hp, ?_⟩
      simp [replaceByte, hexUpper_ne_dash _ ha, hexUpper_ne_dash _ hb, hexUpper_ne_dash _ hc,
        hexUpper_ne_dash _ hd, hexUpper_ne_dash _ he, hexUpper_ne_dash _ hf]
  · simp only [hh, if_false, Bool.false_eq_true]
    simp only [Bool.and_eq_true, not_and] at hh
    by_cases ha : hexUpper a = true <;> simp only [ha, if_true, if_false, Bool.false_eq_true]
    by_cases hb : hexUpper b = true <;> simp only [hb, if_true, if_false, Bool.false_eq_true]
    by_cases hd1 : (d1 == 45) = true <;> simp only [hd1, if_true, if_false, Bool.false_eq_true]
    by_cases hc : hexUpper c = true <;> simp only [hc, if_true, if_false, Bool.false_eq_true]
    by_cases hd : hexUpper d = true <;> simp only [hd, if_true, if_false, Bool.false_eq_true]
    by_cases hd2 : (d2 == 45) = true <;> simp only [hd2, if_true, if_false, Bool.false_eq_true]
    by_cases he : hexUpper e = true <;> simp only [he, if_true, if_false, Bool.false_eq_true]
    by_cases hf : hexUpper f = true <;> simp only [hf, if_true, if_false, Bool.false_eq_true]
    exact absurd hf (hh ⟨⟨⟨⟨⟨⟨ha, hb⟩, hd1⟩, hc⟩, hd⟩, hd2⟩, he⟩)

theorem registryLine_not_hex (b : Nat) (t : Bytes) (h : hexUpper b = false) :
    registryLine (b :: t) = none := by
  unfold registryLine
  split
  · next a b1 d1 c d d2 e f rest heq =>
    have : b = a := (List.cons.inj heq).1
    subst this
    simp [h]
  · rfl

theorem findStringSubmatch_oui (line : Bytes) (hnl : ∀ b ∈ line, b ≠ 10)
    (hlast : ∀ b, line.getLast? = some b → reSpaceB b = false) :
    match registryLine line with
    | none => findStringSubmatch ouiRegex 2 line = none
    | some e =>
      ∃ whole g1, findStringSubmatch ouiRegex 2 line = some [whole, g1, e.2]
        ∧ replaceByte 45 58 g1 = e.1 := by
  have h := ouiRegex_matchAt line hnl hlast
  unfold findStringSubmatch
  rw [ouiRegex_searchFrom]
  cases hr : registryLine line with
  | none =>
    rw [hr] at h
    simp only [h]
  | some e =>
    rw [hr] at h
    obtain ⟨p, whole, g1, hp, hg⟩ := h
    refine ⟨whole, g1, ?_, hg⟩
    simp only [hp]
    rfl

theorem parseOUILine_eq (tempCache : GoMap) (text : Bytes) (hnl : ∀ b ∈ text, b ≠ 10) :
    parseOUILine tempCache text
      = match registryLine (trimSpaceB text) with
        | some e => tempCache.set e.1 (cleanVendorName e.2)
        | none => tempCache := by
  have hnl2 : ∀ b ∈ trimSpaceB text, b ≠ 10 := fun b hb => hnl b (trimSpaceB_mem _ _ hb)
  have hlast : ∀ b, (trimSpaceB text).getLast? = some b → reSpaceB b = false := by
    intro b hb
    have := trimSpaceB_last text b hb
    cases hs : reSpaceB b with
    | false => rfl
    | true =>
      exfalso
      apply this
      simp only [reSpaceB, Bool.or_eq_true, beq_iff_eq] at hs
      omega
  have h := findStringSubmatch_oui (trimSpaceB text) hnl2 hlast
  unfold parseOUILine
  simp only []
  by_cases hskip : ((trimSpaceB text).isEmpty || hasPrefix (trimSpaceB text) (ascii "#")) = true
  · simp only [hskip, if_true]
    have hnone : registryLine (trimSpaceB text) = none := by
      simp only [Bool.or_eq_true] at hskip
      rcases hskip with he | hp
      · have : trimSpaceB text = [] := by simpa using he
        rw [this]
        rfl
      · obtain ⟨t, ht⟩ := (hasPrefix_iff _ _).1 hp
        rw [ht]
        exact registryLine_not_hex 35 t (by decide)
    rw [hnone]
  · simp only [hskip, if_false, Bool.false_eq_true]
    cases hr : registryLine (trimSpaceB text) with
    | none =>
      rw [hr] at h
      simp only [h]
    | some e =>
      rw [hr] at h
      obtain ⟨whole, g1, hf, hg⟩ := h
      simp only [hf, List.length_cons, List.length_nil, if_true, List.getD_cons_succ,
        List.getD_cons_zero, hg, cleanVendorName_trim]

theorem foldl_parseOUILine (texts : List Bytes) (tempCache : GoMap)
    (hnl : ∀ l ∈ texts, ∀ b ∈ l, b ≠ 10) :
    texts.foldl parseOUILine tempCache
      = (((texts.map trimSpaceB).filterMap registryLine).map
          (fun e => (e.1, cleanVendorName e.2))).foldl (fun t e => t.set e.1 e.2) tempCache := by
  induction texts generalizing tempCache with
  | nil => rfl
  | cons text rest ih =>
    rw [List.foldl_cons, parseOUILine_eq _ _ (hnl text (List.mem_cons_self _ _)),
      ih _ (fun l hl => hnl l (List.mem_cons_of_mem _ hl))]
    cases hr : registryLine (trimSpaceB text) with
    | none => simp [List.filterMap_cons, hr]
    | some e => simp [List.filterMap_cons, hr]

theorem lookup_map_clean (entries : List (Bytes × Bytes)) (key : Bytes) :
    (entries.map (fun e => (e.1, cleanVendorName e.2))).lookup key
      = (entries.lookup key).map cleanVendorName := by
  induction entries with
  | nil => rfl
  | cons e rest ih =>
    obtain ⟨a, b⟩ := e
    by_cases h : key = a
    · subst h; simp [List.lookup]
    · have hk : (key == a) = false := by simpa using h
      simp [List.lookup, hk, ih]

theorem parseOUIContent_get (content : Bytes) (cache : GoMap)
    (h : ∀ l ∈ linesOf content, l.length < 65536) (key : Bytes) :
    (parseOUIContent content cache).get key
      = firstOf ((lastNamed content key).map cleanVendorName) (cache.get key) := by
  unfold parseOUIContent
  simp only []
  rw [get_mapsCopy, scannerTexts_short content h, foldl_parseOUILine, get_foldl_set]
  · simp only [firstOf_none_right, lastNamed, registryEntries, GoMap.get, ← List.map_reverse,
      lookup_map_clean, List.map_map, List.lookup_nil]
    rfl
  · intro l hl b hb
    obtain ⟨l0, hl0, rfl⟩ := List.mem_map.1 hl
    exact linesOf_no_newline content l0 hl0 b (dropCR_mem _ _ hb)

/-- C13. After `parseOUIContent` on a registry text whose lines are all
shorter than 65536 bytes, the OUI cache maps a key to the cleaned name of
the last registry line with that prefix, and a key that no registry line
names to its value before. -/
theorem registry_lines_merged (content : Bytes) (cache : GoMap)
    (h : ∀ l ∈ linesOf content, l.length < 65536) (key : Bytes) :
    (parseOUIContent content cache).get key
      = match lastNamed content key with
        | some name => some (cleanVendorName name)
        | none => cache.get key := by
  rw [parseOUIContent_get content cache h key]
  cases lastNamed content key <;> rfl

theorem registry_lines_merged_witness :
    (∀ l ∈ linesOf (ascii "OUI/MA-L\n00-22-72   (hex)\t\tAcme Corp.\r\n00-22-72 (hex) Other, Inc.\n"),
        l.length < 65536)
      ∧ (parseOUIContent
            (ascii "OUI/MA-L\n00-22-72   (hex)\t\tAcme Corp.\r\n00-22-72 (hex) Other, Inc.\n")
            [(ascii "AA:BB:CC", ascii "x")]).get (ascii "00:22:72")
          = some (ascii "Other") :=
  ⟨by decide,
    registry_lines_merged
      (ascii "OUI/MA-L\n00-22-72   (hex)\t\tAcme Corp.\r\n00-22-72 (hex) Other, Inc.\n")
      [(ascii "AA:BB:CC", ascii "x")] (by decide) (ascii "00:22:72")⟩


/-! ## `parsePortList` -/

theorem parseInt_digits (t : List Char) (hne : t ≠ []) (hd : t.all Char.isDigit = true)
    (hv : digitsVal t < 2 ^ 63) : parseInt t = some (digitsVal t : Int) := by
  cases t with
  | nil => exact absurd rfl hne
  | cons c cs =>
    have hc : c.isDigit = true := by
      simp only [List.all_cons, Bool.and_eq_true] at hd
      exact hd.1
    have h1 : c ≠ '+' := by
      intro h; subst h; simp [Char.isDigit] at hc
    have h2 : c ≠ '-' := by
      intro h; subst h; simp [Char.isDigit] at hc
    have hneg : ¬ ((c :: cs).head? = some '-') := by
      simp only [List.head?_cons, Option.some.injEq]
      exact h2
    have hge : ¬ (digitsVal (c :: cs) ≥ 2 ^ 63) := by omega
    have hds : parseInt.match_1 (fun _ => List Char) (c :: cs) (fun r => r) (fun r => r)
        (fun r => r) = c :: cs := by
      split
      · next r heq => exact absurd (List.cons.inj heq).1 h1
      · next r heq => exact absurd (List.cons.inj heq).1 h2
      · rfl
    unfold parseInt
    simp only [hds, hneg, hne, hd, hge, if_true, if_false, decide_False, Bool.false_eq_true]

theorem parsePortTokens_valid (toks : List (List Char)) (ports : List Int)
    (h : ∀ tok ∈ toks, trimSpace tok = [] ∨ isPortToken (trimSpace tok)) :
    parsePortTokens toks ports
      = .ok (ports ++ ((toks.map trimSpace).filter (fun t => decide (t ≠ []))).map
          (fun t => (digitsVal t : Int))) := by
  induction toks generalizing ports with
  | nil => simp [parsePortTokens]
  | cons tok rest ih =>
    have hrest : ∀ t ∈ rest, trimSpace t = [] ∨ isPortToken (trimSpace t) :=
      fun t ht => h t (List.mem_cons_of_mem _ ht)
    rcases h tok (List.mem_cons_self _ _) with he | ⟨hne, hd, h1, h2⟩
    · simp only [parsePortTokens, he, if_true, List.map_cons, ne_eq, not_true_eq_false,
        decide_False, List.filter_cons_of_neg, Bool.false_eq_true, not_false_eq_true]
      exact ih ports hrest
    · have hat : atoi (trimSpace tok) = some (digitsVal (trimSpace tok) : Int) :=
        parseInt_digits _ hne hd (by omega)
      have hr : ¬ (((digitsVal (trimSpace tok) : Nat) : Int) < 1
          ∨ ((digitsVal (trimSpace tok) : Nat) : Int) > 65535) := by omega
      simp only [parsePortTokens, hne, if_false, hat, hr, List.map_cons]
      rw [ih _ hrest]
      simp [hne]

/-! ## `getEnhancedVendor` -/


theorem vendorTable_values :
    ∀ e ∈ vendorTable, ascii e.2 ≠ [] ∧ ascii e.2 ≠ ascii "Unknown" := by
  decide

theorem lookup_mem {α β : Type} [BEq α] [LawfulBEq α] (l : List (α × β)) (k : α) (v : β)
    (h : l.lookup k = some v) : (k, v) ∈ l := by
  induction l with
  | nil => simp at h
  | cons e rest ih =>
    obtain ⟨a, b⟩ := e
    by_cases hk : k = a
    · subst hk
      simp [List.lookup] at h
      subst h
      exact List.mem_cons_self _ _
    · have hb : (k == a) = false := by simpa using hk
      simp only [List.lookup, hb] at h
      exact List.mem_cons_of_mem _ (ih h)

theorem static_value_known (oui v : Bytes) (h : getComprehensiveVendorDB.get oui = some v) :
    v ≠ [] ∧ v ≠ ascii "Unknown" := by
  have hm := lookup_mem _ _ _ h
  simp only [getComprehensiveVendorDB, List.mem_map, Prod.mk.injEq] at hm
  obtain ⟨e, he, _, rfl⟩ := hm
  exact vendorTable_values e he

theorem getLocalVendor_exact (up : Bytes → Bytes) (order : GoMap → GoMap) (mac v : Bytes)
    (hlen : 8 ≤ mac.length)
    (h : getComprehensiveVendorDB.get (toUpper up (mac.take 8)) = some v) :
    getLocalVendor up order mac = v := by
  unfold getLocalVendor
  have : ¬ mac.length < 8 := by omega
  simp only [this, if_false, h]

theorem getEnhancedVendor_hit (up : Bytes → Bytes) (env : VendorEnv) (st : VendorState)
    (mac v : Bytes) (hlen : 8 ≤ mac.length)
    (h : st.vendorCache.get (toUpper up (mac.take 8)) = some v) :
    getEnhancedVendor up env st mac = (v, st, []) := by
  unfold getEnhancedVendor
  have : ¬ mac.length < 8 := by omega
  simp only [this, if_false, h]

/-- The resolved cache after a call holds the value returned, under the OUI. -/
theorem getEnhancedVendor_stores (up : Bytes → Bytes) (env : VendorEnv) (st : VendorState)
    (mac : Bytes) (hlen : 8 ≤ mac.length) :
    (getEnhancedVendor up env st mac).2.1.vendorCache.get (toUpper up (mac.take 8))
      = some (getEnhancedVendor up env st mac).1 := by
  unfold getEnhancedVendor
  have : ¬ mac.length < 8 := by omega
  simp only [this, if_false]
  cases hc : st.vendorCache.get (toUpper up (mac.take 8)) with
  | some v => simpa using hc
  | none =>
    simp only
    split
    · exact get_set_self _ _ _
    · split
      · exact get_set_self _ _ _
      · split
        · exact get_set_self _ _ _
        · exact get_set_self _ _ _

theorem get_some_not_empty (m : GoMap) (k v : Bytes) (h : m.get k = some v) :
    m.isEmpty = false := by
  cases m with
  | nil => simp [GoMap.get] at h
  | cons e rest => rfl

/-- A call leaves the entries of the resolved cache as they are. -/
theorem getEnhancedVendor_keeps (up : Bytes → Bytes) (env : VendorEnv) (st : VendorState)
    (mac k v : Bytes) (h : st.vendorCache.get k = some v) :
    (getEnhancedVendor up env st mac).2.1.vendorCache.get k = some v := by
  unfold getEnhancedVendor
  by_cases hlen : mac.length < 8
  · simpa only [hlen, if_true] using h
  · simp only [hlen, if_false]
    cases hc : st.vendorCache.get (toUpper up (mac.take 8)) with
    | some w => simpa using h
    | none =>
      have hne : k ≠ toUpper up (mac.take 8) := by
        intro he
        rw [he, hc] at h
        exact absurd h (by simp)
      have hemp := get_some_not_empty _ _ _ h
      simp only [hemp, if_false, Bool.false_eq_true]
      split
      · rw [get_set_ne _ _ _ _ hne]; exact h
      · split
        · rw [get_set_ne _ _ _ _ hne]; exact h
        · split
          · rw [get_set_ne _ _ _ _ hne]; exact h
          · rw [get_set_ne _ _ _ _ hne]; exact h

theorem runLookups_keeps (up : Bytes → Bytes) (later : List (VendorEnv × Bytes))
    (st : VendorState) (k v : Bytes) (h : st.vendorCache.get k = some v) :
    (runLookups up st later).vendorCache.get k = some v := by
  induction later generalizing st with
  | nil => exact h
  | cons call rest ih =>
    obtain ⟨env, mac⟩ := call
    exact ih _ (getEnhancedVendor_keeps up env st mac k v h)

/-- C11 (as stated, refuted). In a process that has just started, with a saved
OUI cache file that names the prefix `00:03:FF`, the lookup of a MAC with
that prefix returns the name of the file, while the static table has
another name for it. -/
theorem oui_cache_precedes_static_table :
    getComprehensiveVendorDB.get (toUpper id ((ascii "00:03:ff:12:34:56").take 8))
        = some (ascii "Microsoft Hyper-V")
      ∧ VendorState.init.vendorCache.get (toUpper id ((ascii "00:03:ff:12:34:56").take 8))
        = none
      ∧ (getEnhancedVendor id savedOUIEnv VendorState.init (ascii "00:03:ff:12:34:56")).1
        = ascii "Microsoft Corporation" := by
  decide

/-- C11 (amended). For a MAC of at least 8 bytes whose OUI is a key of the
static table and absent from the resolved cache, `getEnhancedVendor` looks
the OUI up in the OUI cache first, after the lazy load of that cache: if it
is absent there, the vendor of the static table is returned and stored in
the resolved cache under the OUI; if it is present, the value of the OUI
cache is returned and stored instead. -/
theorem static_vendor_after_oui_cache (up : Bytes → Bytes) (env : VendorEnv)
    (st : VendorState) (mac v : Bytes) (hlen : 8 ≤ mac.length)
    (hstatic : getComprehensiveVendorDB.get (toUpper up (mac.take 8)) = some v)
    (hmiss : st.vendorCache.get (toUpper up (mac.take 8)) = none) :
    match (lazyLoadOUI env st.ieeeOUICache).1.get (toUpper up (mac.take 8)) with
    | none =>
      (getEnhancedVendor up env st mac).1 = v
        ∧ (getEnhancedVendor up env st mac).2.1.vendorCache.get (toUpper up (mac.take 8))
          = some v
    | some w =>
      (getEnhancedVendor up env st mac).1 = w
        ∧ (getEnhancedVendor up env st mac).2.1.vendorCache.get (toUpper up (mac.take 8))
          = some w := by
  have hst := getEnhancedVendor_stores up env st mac hlen
  have hval : (getEnhancedVendor up env st mac).1
      = match (lazyLoadOUI env st.ieeeOUICache).1.get (toUpper up (mac.take 8)) with
        | none => v
        | some w => w := by
    unfold getEnhancedVendor
    have : ¬ mac.length < 8 := by omega
    simp only [this, if_false, hmiss]
    cases (lazyLoadOUI env st.ieeeOUICache).1.get (toUpper up (mac.take 8)) with
    | some w => rfl
    | none =>
      simp only [getLocalVendor_exact up env.order mac v hlen hstatic]
      have hk := static_value_known _ _ hstatic
      simp only [hk.1, hk.2, ne_eq, not_false_eq_true, and_self, if_true]
  cases hc : (lazyLoadOUI env st.ieeeOUICache).1.get (toUpper up (mac.take 8)) with
  | none =>
    rw [hc] at hval
    exact ⟨hval, by rw [hst, hval]⟩
  | some w =>
    rw [hc] at hval
    exact ⟨hval, by rw [hst, hval]⟩

theorem static_vendor_after_oui_cache_witness :
    8 ≤ (ascii "00:50:56:aa:bb:cc").length
      ∧ getComprehensiveVendorDB.get (toUpper id ((ascii "00:50:56:aa:bb:cc").take 8))
        = some (ascii "VMware")
      ∧ VendorState.init.vendorCache.get (toUpper id ((ascii "00:50:56:aa:bb:cc").take 8))
        = none
      ∧ (getEnhancedVendor id quietEnv VendorState.init (ascii "00:50:56:aa:bb:cc")).1
        = ascii "VMware"
      ∧ (getEnhancedVendor id quietEnv VendorState.init
          (ascii "00:50:56:aa:bb:cc")).2.1.vendorCache.get (ascii "00:50:56")
        = some (ascii "VMware") :=
  ⟨by decide, by decide, by decide,
    static_vendor_after_oui_cache id quietEnv VendorState.init (ascii "00:50:56:aa:bb:cc")
      (ascii "VMware") (by decide) (by decide) (by decide)⟩

/-- Calls that do not overlap, each run to its end before the next begins.
Once `getEnhancedVendor` has returned a value for a MAC of at least 8 bytes,
the resolved cache holds the value under the OUI, and after any further such
calls every lookup of a MAC with the same upper-cased first 8 bytes returns
that value, takes no step beyond the resolved cache and leaves both caches
as they are. For calls that overlap see `Process.run`. -/
theorem resolved_cache_answers (up : Bytes → Bytes) (env : VendorEnv) (st : VendorState)
    (mac : Bytes) (hlen : 8 ≤ mac.length) :
    (getEnhancedVendor up env st mac).2.1.vendorCache.get (toUpper up (mac.take 8))
        = some (getEnhancedVendor up env st mac).1
      ∧ ∀ (later : List (VendorEnv × Bytes)) (env2 : VendorEnv) (mac2 : Bytes),
          8 ≤ mac2.length → toUpper up (mac2.take 8) = toUpper up (mac.take 8) →
          getEnhancedVendor up env2
              (runLookups up (getEnhancedVendor up env st mac).2.1 later) mac2
            = ((getEnhancedVendor up env st mac).1,
                runLookups up (getEnhancedVendor up env st mac).2.1 later, []) := by
  have hst := getEnhancedVendor_stores up env st mac hlen
  refine ⟨hst, ?_⟩
  intro later env2 mac2 hlen2 hsame
  apply getEnhancedVendor_hit up env2 _ mac2 _ hlen2
  rw [hsame]
  exact runLookups_keeps up later _ _ _ hst

theorem resolved_cache_answers_witness :
    8 ≤ (ascii "zz:zz:zz:00:00:01").length
      ∧ (getEnhancedVendor id quietEnv VendorState.init
          (ascii "zz:zz:zz:00:00:01")).2.1.vendorCache.get (ascii "ZZ:ZZ:ZZ")
        = some (ascii "Unknown")
      ∧ getEnhancedVendor id savedOUIEnv
          (runLookups id
            (getEnhancedVendor id quietEnv VendorState.init (ascii "zz:zz:zz:00:00:01")).2.1
            [(savedOUIEnv, ascii "00:03:ff:12:34:56")])
          (ascii "ZZ:zz:ZZ:aa:bb:cc")
        = (ascii "Unknown",
            runLookups id
              (getEnhancedVendor id quietEnv VendorState.init (ascii "zz:zz:zz:00:00:01")).2.1
              [(savedOUIEnv, ascii "00:03:ff:12:34:56")], []) :=
  ⟨by decide,
    (resolved_cache_answers id quietEnv VendorState.init (ascii "zz:zz:zz:00:00:01")
      (by decide)).1,
    (resolved_cache_answers id quietEnv VendorState.init (ascii "zz:zz:zz:00:00:01")
      (by decide)).2 [(savedOUIEnv, ascii "00:03:ff:12:34:56")] savedOUIEnv
      (ascii "ZZ:zz:ZZ:aa:bb:cc") (by decide) (by decide)⟩


/-! ## `ipToInt` on valid and invalid texts -/

/-- C24. For octets `a`, `b`, `c`, `d` below 256 `ipToInt` of the dotted
decimal text is `a*2^24 + b*2^16 + c*2^8 + d`, a value below `2^32`;
`192.168.1.1` gives 3232235777 and `255.255.255.255` gives 4294967295. -/
theorem ipToInt_dotted (a b c d : Nat) (ha : a < 256) (hb : b < 256) (hc : c < 256)
    (hd : d < 256) :
    ipToInt (ipString [a, b, c, d]) = a * 2 ^ 24 + b * 2 ^ 16 + c * 2 ^ 8 + d
      ∧ ipToInt (ipString [a, b, c, d]) < 2 ^ 32
      ∧ ipToInt "192.168.1.1" = 3232235777
      ∧ ipToInt "255.255.255.255" = 4294967295 := by
  have h := ipToInt_ipString a b c d ha hb hc hd
  have hv : ipVal [a, b, c, d] = a * 2 ^ 24 + b * 2 ^ 16 + c * 2 ^ 8 + d := by
    simp only [ipVal, List.foldl_cons, List.foldl_nil]
    ring
  rw [h, hv]
  refine ⟨rfl, by omega, by decide, by decide⟩

theorem ipToInt_dotted_witness :
    ipString [127, 0, 0, 1] = "127.0.0.1" ∧ ipToInt "127.0.0.1" = 2130706433 :=
  ⟨by decide, (ipToInt_dotted 127 0 0 1 (by decide) (by decide) (by decide) (by decide)).1⟩

theorem ipToInt_parts (ip : String) (h : (splitOn '.' ip.data).length ≠ 4) : ipToInt ip = 0 := by
  unfold ipToInt
  simp only [h, ne_eq, not_false_eq_true, if_true]

/-- C25 (divergence). A text of four parts is never refused: a part that is
no number counts as 0 and an octet above 255 is cut to 32 bits, so
`192.168.1.abc` gives 3232235776 and `256.1.1.1` gives 65793, not 0. Only a
text that does not have four parts gives 0, as the texts of the test do. -/
theorem ipToInt_invalid_nonzero :
    ipToInt "192.168.1.abc" = 3232235776
      ∧ ipToInt "256.1.1.1" = 65793
      ∧ (∀ ip : String, ipToInt ip = 0 ∨ (splitOn '.' ip.data).length = 4)
      ∧ ipToInt "" = 0 ∧ ipToInt "not.an.ip" = 0 ∧ ipToInt "192.168.1" = 0
      ∧ ipToInt "192.168.1.1.1" = 0 ∧ ipToInt "2001:db8::1" = 0 :=
  ⟨by decide, by decide,
    fun ip => (em ((splitOn '.' ip.data).length = 4)).elim Or.inr
      (fun h => Or.inl (ipToInt_parts ip h)),
    by decide, by decide, by decide, by decide, by decide⟩

/-! ## `parsePortList`: when it fails -/

theorem parseInt_numeric (t : List Char) :
    parseInt t
      = if isNumeric t = true then
          (if -(2 : Int) ^ 63 ≤ numericValue t ∧ numericValue t < (2 : Int) ^ 63 then
            some (numericValue t)
          else none)
        else none := by
  cases t with
  | nil => rfl
  | cons c cs =>
    by_cases h1 : c = '+'
    · subst h1
      simp only [parseInt, isNumeric, unsignedPart, numericValue, true_or, if_true,
        List.head?_cons, Option.some.injEq, Bool.and_eq_true, Bool.not_eq_true',
        List.isEmpty_eq_false]
      have hneg : ¬ ('+' = '-') := by decide
      simp only [hneg, if_false, decide_False, Bool.false_eq_true]
      by_cases he : cs = []
      · simp [he]
      · by_cases hd : cs.all Char.isDigit = true
        · simp only [he, hd, if_false, if_true, not_false_eq_true, and_self, ne_eq]
          by_cases hv : digitsVal cs ≥ 2 ^ 63
          · have : ¬ (-(2 : Int) ^ 63 ≤ (digitsVal cs : Int) ∧ (digitsVal cs : Int) < 2 ^ 63) := by
              omega
            simp only [hv, if_true, this, if_false]
          · have : (-(2 : Int) ^ 63 ≤ (digitsVal cs : Int) ∧ (digitsVal cs : Int) < 2 ^ 63) := by
              omega
            simp only [hv, if_false, this, if_true, and_self]
        · simp [he, hd]
    · by_cases h2 : c = '-'
      · subst h2
        simp only [parseInt, isNumeric, unsignedPart, numericValue, or_true, if_true,
          List.head?_cons, Bool.and_eq_true, Bool.not_eq_true', List.isEmpty_eq_false,
          decide_True]
        by_cases he : cs = []
        · simp [he]
        · by_cases hd : cs.all Char.isDigit = true
          · simp only [he, hd, if_false, if_true, not_false_eq_true, and_self, ne_eq]
            by_cases hv : digitsVal cs > 2 ^ 63
            · have : ¬ (-(2 : Int) ^ 63 ≤ -(digitsVal cs : Int)
                  ∧ -(digitsVal cs : Int) < 2 ^ 63) := by omega
              simp only [hv, if_true, this, if_false]
            · have : (-(2 : Int) ^ 63 ≤ -(digitsVal cs : Int)
                  ∧ -(digitsVal cs : Int) < 2 ^ 63) := by omega
              simp only [hv, if_false, this, if_true, and_self]
          · simp [he, hd]
      · have hds : parseInt.match_1 (fun _ => List Char) (c :: cs) (fun r => r) (fun r => r)
            (fun r => r) = c :: cs := by
          split
          · next r heq => exact absurd (List.cons.inj heq).1 h1
          · next r heq => exact absurd (List.cons.inj heq).1 h2
          · rfl
        have hneg : ¬ ((c :: cs).head? = some '-') := by
          simp only [List.head?_cons, Option.some.injEq]
          exact h2
        unfold parseInt
        simp only [hds, hneg, isNumeric, unsignedPart, numericValue, h1, h2, or_self, if_false,
          decide_False, Bool.false_eq_true, Bool.and_eq_true, Bool.not_eq_true',
          List.isEmpty_eq_false]
        by_cases hd : (c :: cs).all Char.isDigit = true
        · simp only [hd, if_true, ne_eq, not_false_eq_true, and_self, reduceCtorEq]
          by_cases hv : digitsVal (c :: cs) ≥ 2 ^ 63
          · have : ¬ (-(2 : Int) ^ 63 ≤ (digitsVal (c :: cs) : Int)
                ∧ (digitsVal (c :: cs) : Int) < 2 ^ 63) := by omega
            simp only [hv, if_true, this, if_false]
          · have : (-(2 : Int) ^ 63 ≤ (digitsVal (c :: cs) : Int)
                ∧ (digitsVal (c :: cs) : Int) < 2 ^ 63) := by omega
            simp only [hv, if_false, this, if_true, and_self]
        · simp [hd]

/-- One token of the loop: `Atoi` fails or the port is out of range exactly
for a bad token; otherwise the port is the value of the token. -/
theorem atoi_port (t : List Char) :
    (badPortToken t ∧
        (atoi t = none ∨ ∃ port, atoi t = some port ∧ (port < 1 ∨ port > 65535)))
      ∨ (¬ badPortToken t ∧ atoi t = some (numericValue t)
          ∧ 1 ≤ numericValue t ∧ numericValue t ≤ 65535) := by
  unfold atoi
  rw [parseInt_numeric]
  by_cases hn : isNumeric t = true
  · simp only [hn, if_true]
    by_cases hr : numericValue t < 1 ∨ numericValue t > 65535
    · left
      refine ⟨Or.inr hr, ?_⟩
      by_cases hi : -(2 : Int) ^ 63 ≤ numericValue t ∧ numericValue t < (2 : Int) ^ 63
      · exact Or.inr ⟨numericValue t, by simp only [hi, and_self, if_true], hr⟩
      · exact Or.inl (by simp only [hi, if_false])
    · right
      have hi : -(2 : Int) ^ 63 ≤ numericValue t ∧ numericValue t < (2 : Int) ^ 63 := by omega
      refine ⟨?_, by simp only [hi, and_self, if_true], by omega, by omega⟩
      intro hb
      rcases hb with hb | hb
      · rw [hn] at hb; exact absurd hb (by simp)
      · exact hr hb
  · left
    have hf : isNumeric t = false := by simpa using hn
    exact ⟨Or.inl hf, Or.inl (by rw [if_neg hn])⟩

theorem parsePortTokens_cases (toks : List (List Char)) (acc : List Int) :
    ((∃ e, parsePortTokens toks acc = .error e)
        ∧ ∃ tok ∈ toks, trimSpace tok ≠ [] ∧ badPortToken (trimSpace tok))
      ∨ ((∃ ports, parsePortTokens toks acc = .ok (acc ++ ports)
            ∧ ∀ p ∈ ports, 1 ≤ p ∧ p ≤ 65535)
          ∧ ∀ tok ∈ toks, trimSpace tok = [] ∨ ¬ badPortToken (trimSpace tok)) := by
  induction toks generalizing acc with
  | nil =>
    right
    exact ⟨⟨[], by simp [parsePortTokens], by simp⟩, by simp⟩
  | cons tok rest ih =>
    by_cases he : trimSpace tok = []
    · have hstep : parsePortTokens (tok :: rest) acc = parsePortTokens rest acc := by
        simp only [parsePortTokens, he, if_true]
      rw [hstep]
      rcases ih acc with ⟨herr, t, ht, hne, hbad⟩ | ⟨hok, hall⟩
      · exact Or.inl ⟨herr, t, List.mem_cons_of_mem _ ht, hne, hbad⟩
      · right
        refine ⟨hok, ?_⟩
        intro t ht
        rcases List.mem_cons.1 ht with rfl | ht
        · exact Or.inl he
        · exact hall t ht
    · rcases atoi_port (trimSpace tok) with ⟨hbad, hfail⟩ | ⟨hgood, hval, h1, h2⟩
      · left
        refine ⟨?_, tok, List.mem_cons_self _ _, he, hbad⟩
        rcases hfail with hnone | ⟨port, hport, hrange⟩
        · exact ⟨PortError.invalid ⟨trimSpace tok⟩,
            by simp only [parsePortTokens, he, if_false, hnone]⟩
        · exact ⟨PortError.outOfRange port,
            by simp only [parsePortTokens, he, if_false, hport, hrange, if_true]⟩
      · have hr : ¬ (numericValue (trimSpace tok) < 1 ∨ numericValue (trimSpace tok) > 65535) := by
          omega
        have hstep : parsePortTokens (tok :: rest) acc
            = parsePortTokens rest (acc ++ [numericValue (trimSpace tok)]) := by
          simp only [parsePortTokens, he, if_false, hval, hr]
        rw [hstep]
        rcases ih (acc ++ [numericValue (trimSpace tok)]) with
          ⟨herr, t, ht, hne, hbad⟩ | ⟨⟨ports, hok, hrange⟩, hall⟩
        · exact Or.inl ⟨herr, t, List.mem_cons_of_mem _ ht, hne, hbad⟩
        · right
          refine ⟨⟨numericValue (trimSpace tok) :: ports, ?_, ?_⟩, ?_⟩
          · rw [hok, List.append_assoc]; rfl
          · intro p hp
            rcases List.mem_cons.1 hp with rfl | hp
            · exact ⟨h1, h2⟩
            · exact hrange p hp
          · intro t ht
            rcases List.mem_cons.1 ht with rfl | ht
            · exact Or.inr hgood
            · exact hall t ht

theorem parsePortList_tokens (portStr : String) :
    parsePortList portStr = parsePortTokens (splitOn ',' portStr.data) [] := by
  unfold parsePortList
  by_cases h : portStr = ""
  · subst h; rfl
  · simp only [h, if_false]

/-- C21. The function `parsePortList` returns an error exactly when some
piece between the commas is, after trimming, not empty and either not
numeric or outside 1..65535; when it returns without error every port is
between 1 and 65535. The texts `22,abc,443`, `0,80` and `22,65536` are
rejected. -/
theorem parsePortList_error_iff (portStr : String) :
    ((∃ e, parsePortList portStr = .error e)
        ↔ ∃ tok ∈ splitOn ',' portStr.data,
            trimSpace tok ≠ [] ∧ badPortToken (trimSpace tok))
      ∧ (∀ ports, parsePortList portStr = .ok ports → ∀ p ∈ ports, 1 ≤ p ∧ p ≤ 65535)
      ∧ parsePortList "22,abc,443" = .error (PortError.invalid "abc")
      ∧ parsePortList "0,80" = .error (PortError.outOfRange 0)
      ∧ parsePortList "22,65536" = .error (PortError.outOfRange 65536) := by
  rw [parsePortList_tokens]
  refine ⟨⟨?_, ?_⟩, ?_, rfl, rfl, rfl⟩
  · rintro ⟨e, he⟩
    rcases parsePortTokens_cases (splitOn ',' portStr.data) [] with ⟨_, hbad⟩ | ⟨⟨ports, hok, _⟩, _⟩
    · exact hbad
    · rw [hok] at he
      exact absurd he (by simp)
  · rintro ⟨tok, htok, hne, hbad⟩
    rcases parsePortTokens_cases (splitOn ',' portStr.data) [] with ⟨herr, _⟩ | ⟨_, hall⟩
    · exact herr
    · rcases hall tok htok with h | h
      · exact absurd h hne
      · exact absurd hbad h
  · intro ports hp p hmem
    rcases parsePortTokens_cases (splitOn ',' portStr.data) [] with ⟨⟨e, he⟩, _⟩ | ⟨⟨ps, hok, hr⟩, _⟩
    · rw [he] at hp
      exact absurd hp (by simp)
    · rw [hok] at hp
      simp only [List.nil_append, Except.ok.injEq] at hp
      subst hp
      exact hr p hmem

theorem parsePortList_error_iff_witness :
    (∃ tok ∈ splitOn ',' "80, +443,x1".data,
        trimSpace tok ≠ [] ∧ badPortToken (trimSpace tok))
      ∧ ∃ e, parsePortList "80, +443,x1" = .error e :=
  ⟨by decide, (parsePortList_error_iff "80, +443,x1").1.2 (by decide)⟩

/-! ## `fuzzyMatch` -/

theorem fuzzyLoop_iff (text pattern : Bytes) :
    fuzzyLoop text pattern = true ↔ pattern.Sublist text := by
  induction text generalizing pattern with
  | nil =>
    cases pattern with
    | nil => simp [fuzzyLoop]
    | cons p ps => simp [fuzzyLoop]
  | cons t ts ih =>
    cases pattern with
    | nil => simp [fuzzyLoop]
    | cons p ps =>
      by_cases h : t = p
      · subst h
        simp only [fuzzyLoop, if_true, ih, List.cons_sublist_cons]
      · simp only [fuzzyLoop, h, if_false, ih]
        constructor
        · intro hs
          exact List.Sublist.cons _ hs
        · intro hs
          cases hs with
          | cons _ h1 => exact h1
          | cons₂ _ h1 => exact absurd rfl h

theorem containsBytes_sublist (text pattern : Bytes) (h : containsBytes text pattern = true) :
    pattern.Sublist text := by
  simp only [containsBytes, List.any_eq_true] at h
  obtain ⟨i, _, hi⟩ := h
  obtain ⟨t, ht⟩ := (hasPrefix_iff _ _).1 hi
  have h1 : pattern.Sublist (text.drop i) := by
    rw [ht]
    exact List.sublist_append_left _ _
  exact h1.trans (List.drop_sublist _ _)

theorem containsBytes_infix (pre pattern post : Bytes) :
    containsBytes (pre ++ pattern ++ post) pattern = true := by
  simp only [containsBytes, List.any_eq_true, List.mem_range]
  refine ⟨pre.length, by simp; omega, ?_⟩
  rw [hasPrefix_iff]
  exact ⟨post, by simp⟩

/-- C27. The function `fuzzyMatch` is true exactly when the bytes of the
pattern occur in the text in the same order: for the empty pattern, for every
part of the text, and never for a pattern longer than the text; `leh` does
not match `hello`. -/
theorem fuzzyMatch_iff_subsequence (text pattern : Bytes) :
    (fuzzyMatch text pattern = true ↔ pattern.Sublist text)
      ∧ fuzzyMatch text [] = true
      ∧ (∀ pre post : Bytes, fuzzyMatch (pre ++ pattern ++ post) pattern = true)
      ∧ (fuzzyMatch text pattern = false ∨ pattern.length ≤ text.length)
      ∧ fuzzyMatch (ascii "hello") (ascii "leh") = false := by
  have hiff : fuzzyMatch text pattern = true ↔ pattern.Sublist text := by
    unfold fuzzyMatch
    by_cases he : pattern.isEmpty = true
    · have : pattern = [] := by simpa using he
      subst this
      simp
    · simp only [he, if_false, Bool.false_eq_true]
      by_cases hc : containsBytes text pattern = true
      · simp only [hc, if_true, true_iff]
        exact containsBytes_sublist text pattern hc
      · simp only [hc, if_false, Bool.false_eq_true]
        exact fuzzyLoop_iff text pattern
  refine ⟨hiff, rfl, ?_, ?_, by decide⟩
  · intro pre post
    unfold fuzzyMatch
    by_cases he : pattern.isEmpty = true
    · simp only [he, if_true]
    · simp only [he, if_false, containsBytes_infix, if_true, Bool.false_eq_true]
  · cases hm : fuzzyMatch text pattern with
    | false => exact Or.inl rfl
    | true => exact Or.inr (hiff.1 hm).length_le

theorem fuzzyMatch_iff_subsequence_witness :
    (ascii "hlo").Sublist (ascii "hello world")
      ∧ fuzzyMatch (ascii "hello world") (ascii "hlo") = true :=
  ⟨(fuzzyMatch_iff_subsequence (ascii "hello world") (ascii "hlo")).1.1 (by decide),
    by decide⟩

/-! ## `exportToCSV` -/

theorem writeRows_ok (env : CsvEnv) (hw : ∀ n, env.writeError n = none) (n : Nat)
    (hosts : List HostInfo) : writeRows env n hosts = (hosts.map (csvRow env), none) := by
  induction hosts generalizing n with
  | nil => rfl
  | cons host rest ih => simp only [writeRows, hw n, ih (n + 1), List.map_cons]

/-- C26. When the file can be created and no write fails, `exportToCSV` hands
to the writer the header of the 8 column names and then one row for each
host, in the order of the list; in a row the field Open Ports is the ports
of the services joined by `;` and the field Services is the details
`port/name`, each with ` (version)` exactly when the version is not empty,
joined by `;`. The services 22/SSH and 80/HTTP give the field `22;80`, and
a host without services gives two empty fields. -/
theorem exportToCSV_rows (env : CsvEnv) (hosts : List HostInfo) (hc : env.create = none)
    (hw : ∀ n, env.writeError n = none) :
    exportToCSV env hosts = (csvHeader :: hosts.map (csvRow env), none)
      ∧ csvHeader.length = 8
      ∧ (exportToCSV env hosts).1.length = hosts.length + 1
      ∧ (∀ host : HostInfo, (csvRow env host).length = 8
          ∧ (csvRow env host).getD 6 ""
            = joinStrings ";" (host.Services.map (fun service => formatInt service.Port))
          ∧ (csvRow env host).getD 7 "" = joinStrings ";" (host.Services.map serviceDetail))
      ∧ (∀ service : ServiceInfo,
          serviceDetail service
            = if service.Version = "" then formatInt service.Port ++ "/" ++ service.Service
              else formatInt service.Port ++ "/" ++ service.Service
                ++ (" (" ++ service.Version ++ ")"))
      ∧ (csvRow env sampleCsvHost).getD 6 "" = "22;80"
      ∧ (csvRow env sampleCsvHost).getD 7 "" = "22/SSH;80/HTTP (1.1)"
      ∧ (csvRow env sampleBareHost).getD 6 "" = ""
      ∧ (csvRow env sampleBareHost).getD 7 "" = "" := by
  have h : exportToCSV env hosts = (csvHeader :: hosts.map (csvRow env), none) := by
    simp only [exportToCSV, hc, hw 0, writeRows_ok env hw]
  refine ⟨h, rfl, by rw [h]; simp, fun host => ⟨rfl, rfl, rfl⟩, ?_, rfl, rfl, rfl, rfl⟩
  intro service
  unfold serviceDetail
  by_cases hv : service.Version = ""
  · simp only [hv, ne_eq, not_true_eq_false, if_false, if_true]
  · simp only [hv, ne_eq, not_false_eq_true, if_true, if_false]

theorem exportToCSV_rows_witness :
    sampleCsvEnv.create = none ∧ (∀ n, sampleCsvEnv.writeError n = none)
      ∧ exportToCSV sampleCsvEnv [sampleCsvHost, sampleBareHost]
        = ([csvHeader,
            ["192.168.1.1", "AA:BB:CC:DD:EE:FF", "Test Vendor", "test-host", "true", "50.00",
             "22;80", "22/SSH;80/HTTP (1.1)"],
            ["192.168.1.2", "", "", "", "false", "50.00", "", ""]], none) :=
  ⟨rfl, fun _ => rfl,
    (exportToCSV_rows sampleCsvEnv [sampleCsvHost, sampleBareHost] rfl (fun _ => rfl)).1⟩

/-! ## `getUniqueVendors` -/

/-- C28 (divergence). The vendors are listed in the order in which `range`
visits the map, not in the order of their first appearance: for the hosts
Dell, HP, Dell the keys are Dell and HP, and when the map is visited from HP
on the text is `HP, Dell`; only when it is visited from Dell on is it
`Dell, HP`. -/
theorem vendors_in_map_order :
    vendorKeys dellHpDell = ["Dell", "HP"]
      ∧ (List.reverse (vendorKeys dellHpDell)).Perm (vendorKeys dellHpDell)
      ∧ getUniqueVendors List.reverse dellHpDell = "HP, Dell"
      ∧ getUniqueVendors (fun keys => keys) dellHpDell = "Dell, HP"
      ∧ getUniqueVendors List.reverse [vendorHost "", vendorHost "Unknown"] = "None detected" :=
  ⟨by decide, List.reverse_perm _, by decide, by decide, by decide⟩

/-! ## `sortHostsByIP` -/

theorem octetLess_irrefl (x : List Nat) : octetLess x x = false := by
  induction x with
  | nil => rfl
  | cons a xs ih => simp [octetLess, ih]

theorem octetLess_asymm (x y : List Nat) (h : octetLess x y = true) : octetLess y x = false := by
  induction x generalizing y with
  | nil => simp [octetLess] at h
  | cons a xs ih =>
    cases y with
    | nil => simp [octetLess] at h
    | cons b ys =>
      by_cases hab : a = b
      · subst hab
        simp only [octetLess, ne_eq, not_true_eq_false, if_false] at h ⊢
        exact ih ys h
      · have hba : ¬ b = a := fun e => hab e.symm
        simp only [octetLess, ne_eq, hab, not_false_eq_true, if_true, decide_eq_true_eq] at h
        simp only [octetLess, ne_eq, hba, not_false_eq_true, if_true, decide_eq_false_iff_not]
        omega

theorem octetLess_trans (x y z : List Nat) (h1 : octetLess x y = true)
    (h2 : octetLess y z = true) : octetLess x z = true := by
  induction x generalizing y z with
  | nil => simp [octetLess] at h1
  | cons a xs ih =>
    cases y with
    | nil => simp [octetLess] at h1
    | cons b ys =>
      cases z with
      | nil => simp [octetLess] at h2
      | cons c zs =>
        by_cases hab : a = b
        · subst hab
          simp only [octetLess, ne_eq, not_true_eq_false, if_false] at h1
          by_cases hac : a = c
          · subst hac
            simp only [octetLess, ne_eq, not_true_eq_false, if_false] at h2 ⊢
            exact ih ys zs h1 h2
          · simp only [octetLess, ne_eq, hac, not_false_eq_true, if_true] at h2 ⊢
            exact h2
        · simp only [octetLess, ne_eq, hab, not_false_eq_true, if_true, decide_eq_true_eq] at h1
          by_cases hbc : b = c
          · subst hbc
            simp only [octetLess, ne_eq, hab, not_false_eq_true, if_true, decide_eq_true_eq]
            exact h1
          · simp only [octetLess, ne_eq, hbc, not_false_eq_true, if_true, decide_eq_true_eq] at h2
            have hac : ¬ a = c := by omega
            simp only [octetLess, ne_eq, hac, not_false_eq_true, if_true, decide_eq_true_eq]
            omega

theorem octetLess_iff_ipVal (a b c d a1 b1 c1 d1 : Nat) (hb : b < 256) (hc : c < 256)
    (hd : d < 256) (hb1 : b1 < 256) (hc1 : c1 < 256) (hd1 : d1 < 256) :
    octetLess [a, b, c, d] [a1, b1, c1, d1] = true
      ↔ ipVal [a, b, c, d] < ipVal [a1, b1, c1, d1] := by
  simp only [ipVal, List.foldl_cons, List.foldl_nil, octetLess]
  by_cases h1 : a = a1
  · subst h1
    by_cases h2 : b = b1
    · subst h2
      by_cases h3 : c = c1
      · subst h3
        by_cases h4 : d = d1
        · subst h4
          simp
        · simp only [ne_eq, not_true_eq_false, if_false, h4, not_false_eq_true, if_true,
            decide_eq_true_eq]
          omega
      · simp only [ne_eq, not_true_eq_false, if_false, h3, not_false_eq_true, if_true,
          decide_eq_true_eq]
        omega
    · simp only [ne_eq, not_true_eq_false, if_false, h2, not_false_eq_true, if_true,
        decide_eq_true_eq]
      omega
  · simp only [ne_eq, h1, not_false_eq_true, if_true, decide_eq_true_eq]
    omega

/-- The comparison in terms of the octets the texts parse to. -/
theorem ipTextLess_octets (v6 : String → Option IP) (a b : String) :
    ipTextLess v6 a b
      = match octetsOf v6 a, octetsOf v6 b with
        | some x, some y => octetLess x y
        | _, _ => decide (a.data < b.data) := by
  unfold ipTextLess octetsOf
  cases ParseIP v6 a with
  | none => rfl
  | some ipI =>
    cases ParseIP v6 b with
    | none =>
      first
      | rfl
      | (simp only; done)
      | (simp only; cases To4 ipI <;> rfl)
    | some ipJ => rfl


theorem insertBy_sorted_on {α κ : Type} [LinearOrder κ] (key : α → κ) (less : α → α → Bool)
    (S : α → Prop) (hless : ∀ a b, S a → S b → (less a b = true ↔ key a < key b)) (x : α)
    (hx : S x) (l : List α) (hl : ∀ y ∈ l, S y) (h : l.Pairwise (fun a b => key a ≤ key b)) :
    (insertBy less x l).Pairwise (fun a b => key a ≤ key b) := by
  induction l with
  | nil => simp [insertBy]
  | cons y ys ih =>
    have hy : S y := hl y (List.mem_cons_self _ _)
    rw [List.pairwise_cons] at h
    simp only [insertBy]
    split_ifs with hlt
    · have hxy : key x < key y := (hless x y hx hy).mp hlt
      rw [List.pairwise_cons, List.pairwise_cons]
      refine ⟨?_, h.1, h.2⟩
      intro z hz
      rcases List.mem_cons.mp hz with rfl | hz
      · exact le_of_lt hxy
      · exact le_trans (le_of_lt hxy) (h.1 z hz)
    · have hyx : key y ≤ key x := by
        by_contra hc
        exact hlt ((hless x y hx hy).mpr (lt_of_not_le hc))
      rw [List.pairwise_cons]
      refine ⟨?_, ih (fun z hz => hl z (List.mem_cons_of_mem _ hz)) h.2⟩
      intro z hz
      have hz1 := (insertBy_perm less x ys).subset hz
      rcases List.mem_cons.mp hz1 with rfl | hz1
      · exact hyx
      · exact h.1 z hz1

theorem sortSlice_sorted_on {α κ : Type} [LinearOrder κ] (key : α → κ) (less : α → α → Bool)
    (S : α → Prop) (hless : ∀ a b, S a → S b → (less a b = true ↔ key a < key b))
    (l : List α) (hl : ∀ y ∈ l, S y) :
    (sortSlice less l).Pairwise (fun a b => key a ≤ key b) := by
  induction l with
  | nil => exact List.Pairwise.nil
  | cons x xs ih =>
    have hxs : ∀ y ∈ xs, S y := fun y hy => hl y (List.mem_cons_of_mem _ hy)
    exact insertBy_sorted_on key less S hless x (hl x (List.mem_cons_self _ _)) _
      (fun y hy => hxs y ((sortSlice_perm less xs).subset hy)) (ih hxs)

/-- C22. For hosts whose IP texts all parse as IPv4 addresses, the list after
`sortHostsByIP` is a rearrangement of the list before, in ascending order of
the four octets, the most significant first, that is of the number
`a*256^3 + b*256^2 + c*256 + d`; the list of the test comes out as
10.0.0.1, 192.168.1.1, 192.168.1.2, 192.168.1.10, 192.168.1.20,
192.168.1.100. -/
theorem sortHostsByIP_numeric (v6 : String → Option IP) (hosts : List HostInfo)
    (h : ∀ host ∈ hosts, ∃ a b c d, a < 256 ∧ b < 256 ∧ c < 256 ∧ d < 256
      ∧ octetsOf v6 host.IP = some [a, b, c, d]) :
    (sortHostsByIP v6 hosts).Perm hosts
      ∧ (sortHostsByIP v6 hosts).Pairwise
          (fun x y => ∀ ox oy, octetsOf v6 x.IP = some ox → octetsOf v6 y.IP = some oy →
            ipVal ox ≤ ipVal oy ∧ octetLess oy ox = false)
      ∧ (sortHostsByIP v6
            [ipHost "192.168.1.10", ipHost "192.168.1.2", ipHost "192.168.1.100",
             ipHost "192.168.1.1", ipHost "10.0.0.1", ipHost "192.168.1.20"]).map
          (fun host => host.IP)
        = ["10.0.0.1", "192.168.1.1", "192.168.1.2", "192.168.1.10", "192.168.1.20",
           "192.168.1.100"] := by
  refine ⟨sortSlice_perm _ _, ?_, rfl⟩
  have hsorted := sortSlice_sorted_on
    (fun host : HostInfo => match octetsOf v6 host.IP with
      | some o => ipVal o
      | none => 0)
    (fun a b => ipTextLess v6 a.IP b.IP)
    (fun host => ∃ a b c d, a < 256 ∧ b < 256 ∧ c < 256 ∧ d < 256
      ∧ octetsOf v6 host.IP = some [a, b, c, d])
    (by
      rintro x y ⟨a, b, c, d, ha, hb, hc, hd, hx⟩ ⟨a1, b1, c1, d1, ha1, hb1, hc1, hd1, hy⟩
      simp only [ipTextLess_octets, hx, hy]
      exact octetLess_iff_ipVal a b c d a1 b1 c1 d1 hb hc hd hb1 hc1 hd1)
    hosts h
  have hmem : ∀ x ∈ sortHostsByIP v6 hosts, ∃ a b c d, a < 256 ∧ b < 256 ∧ c < 256 ∧ d < 256
      ∧ octetsOf v6 x.IP = some [a, b, c, d] :=
    fun x hx => h x ((sortSlice_perm _ hosts).subset hx)
  refine (List.Pairwise.and_mem.1 hsorted).imp ?_
  rintro x y ⟨hx, hy, hle⟩ ox oy hox hoy
  obtain ⟨a, b, c, d, ha, hb, hc, hd, hx1⟩ := hmem x hx
  obtain ⟨a1, b1, c1, d1, ha1, hb1, hc1, hd1, hy1⟩ := hmem y hy
  simp only [hox, hoy] at hle
  refine ⟨hle, ?_⟩
  rw [hox] at hx1
  rw [hoy] at hy1
  cases hx1
  cases hy1
  cases hl : octetLess [a1, b1, c1, d1] [a, b, c, d] with
  | false => rfl
  | true =>
    have := (octetLess_iff_ipVal a1 b1 c1 d1 a b c d hb1 hc1 hd1 hb hc hd).1 hl
    omega

theorem sortHostsByIP_numeric_witness :
    (∀ host ∈ [ipHost "192.168.1.2", ipHost "10.0.0.1"],
        ∃ a b c d, a < 256 ∧ b < 256 ∧ c < 256 ∧ d < 256
          ∧ octetsOf noV6 host.IP = some [a, b, c, d])
      ∧ (sortHostsByIP noV6 [ipHost "192.168.1.2", ipHost "10.0.0.1"]).Perm
          [ipHost "192.168.1.2", ipHost "10.0.0.1"]
      ∧ sortHostsByIP noV6 [ipHost "192.168.1.2", ipHost "10.0.0.1"]
        = [ipHost "10.0.0.1", ipHost "192.168.1.2"] :=
  have hw : ∀ host ∈ [ipHost "192.168.1.2", ipHost "10.0.0.1"],
      ∃ a b c d, a < 256 ∧ b < 256 ∧ c < 256 ∧ d < 256
        ∧ octetsOf noV6 host.IP = some [a, b, c, d] := by
    intro host hh
    simp only [List.mem_cons, List.mem_singleton, List.not_mem_nil, or_false] at hh
    rcases hh with rfl | rfl
    · exact ⟨192, 168, 1, 2, by decide, by decide, by decide, by decide, by decide⟩
    · exact ⟨10, 0, 0, 1, by decide, by decide, by decide, by decide, by decide⟩
  ⟨hw, (sortHostsByIP_numeric noV6 [ipHost "192.168.1.2", ipHost "10.0.0.1"] hw).1, by decide⟩

/-- C23 (as stated, refuted). The comparison is not transitive: `10.0.0.1` is
less than `5x` and `5x` is less than `9.0.0.1`, both as texts, since `5x` is
no address; but `10.0.0.1` is not less than `9.0.0.1`, which is compared by
octets, and `9.0.0.1` is less than `10.0.0.1`. -/
theorem comparison_not_transitive :
    ipTextLess noV6 "10.0.0.1" "5x" = true
      ∧ ipTextLess noV6 "5x" "9.0.0.1" = true
      ∧ ipTextLess noV6 "10.0.0.1" "9.0.0.1" = false
      ∧ ipTextLess noV6 "9.0.0.1" "10.0.0.1" = true := by
  decide

/-- C23 (amended). The comparison that `sortHostsByIP` sorts by is
irreflexive and asymmetric on arbitrary IP texts; it is transitive among
texts that parse as IPv4 addresses, where it compares the octets, and a
strict total order among texts that do not, where it compares the texts;
and the sort always yields a rearrangement of its input. -/
theorem comparison_orders_each_kind (v6 : String → Option IP) :
    (∀ a, ipTextLess v6 a a = false)
      ∧ (∀ a b, ipTextLess v6 a b = true → ipTextLess v6 b a = false)
      ∧ (∀ a b c, octetsOf v6 a ≠ none → octetsOf v6 b ≠ none → octetsOf v6 c ≠ none →
          ipTextLess v6 a b = true → ipTextLess v6 b c = true → ipTextLess v6 a c = true)
      ∧ (∀ a b c, octetsOf v6 a = none → octetsOf v6 b = none → octetsOf v6 c = none →
          ipTextLess v6 a b = true → ipTextLess v6 b c = true → ipTextLess v6 a c = true)
      ∧ (∀ a b, octetsOf v6 a = none → octetsOf v6 b = none → a ≠ b →
          ipTextLess v6 a b = true ∨ ipTextLess v6 b a = true)
      ∧ (∀ hosts, (sortHostsByIP v6 hosts).Perm hosts) := by
  refine ⟨?_, ?_, ?_, ?_, ?_, fun hosts => sortSlice_perm _ hosts⟩
  · intro a
    rw [ipTextLess_octets]
    cases octetsOf v6 a with
    | none => simp
    | some x => exact octetLess_irrefl x
  · intro a b h
    rw [ipTextLess_octets] at h ⊢
    cases ha : octetsOf v6 a with
    | none =>
      rw [ha] at h
      have h1 : a.data < b.data := by simpa using h
      have h2 : ¬ b.data < a.data := not_lt_of_lt h1
      cases octetsOf v6 b <;> simpa using h2
    | some x =>
      rw [ha] at h
      cases hb : octetsOf v6 b with
      | none =>
        rw [hb] at h
        have h1 : a.data < b.data := by simpa using h
        have h2 : ¬ b.data < a.data := not_lt_of_lt h1
        simpa using h2
      | some y =>
        rw [hb] at h
        exact octetLess_asymm x y h
  · intro a b c ha hb hc h1 h2
    rw [ipTextLess_octets] at h1 h2 ⊢
    obtain ⟨x, hx⟩ := Option.ne_none_iff_exists'.1 ha
    obtain ⟨y, hy⟩ := Option.ne_none_iff_exists'.1 hb
    obtain ⟨z, hz⟩ := Option.ne_none_iff_exists'.1 hc
    rw [hx, hy] at h1
    rw [hy, hz] at h2
    rw [hx, hz]
    exact octetLess_trans x y z h1 h2
  · intro a b c ha hb hc h1 h2
    rw [ipTextLess_octets] at h1 h2 ⊢
    rw [ha, hb] at h1
    rw [hb, hc] at h2
    rw [ha, hc]
    have e1 : a.data < b.data := by simpa using h1
    have e2 : b.data < c.data := by simpa using h2
    simpa using lt_trans e1 e2
  · intro a b ha hb hne
    rw [ipTextLess_octets, ipTextLess_octets, ha, hb]
    have hd : a.data ≠ b.data := fun e => hne (String.ext e)
    rcases lt_trichotomy a.data b.data with h | h | h
    · exact Or.inl (by simpa using h)
    · exact absurd h hd
    · exact Or.inr (by simpa using h)

theorem comparison_orders_each_kind_witness :
    octetsOf noV6 "invalid-ip" = none ∧ octetsOf noV6 "another-invalid" = none
      ∧ ("invalid-ip" : String) ≠ "another-invalid"
      ∧ (ipTextLess noV6 "invalid-ip" "another-invalid" = true
          ∨ ipTextLess noV6 "another-invalid" "invalid-ip" = true)
      ∧ (sortHostsByIP noV6
            [ipHost "invalid-ip", ipHost "192.168.1.1", ipHost "another-invalid",
             ipHost "10.0.0.1"]).Perm
          [ipHost "invalid-ip", ipHost "192.168.1.1", ipHost "another-invalid",
           ipHost "10.0.0.1"] :=
  ⟨by decide, by decide, by decide,
    (comparison_orders_each_kind noV6).2.2.2.2.1 "invalid-ip" "another-invalid" (by decide)
      (by decide) (by decide),
    (comparison_orders_each_kind noV6).2.2.2.2.2 _⟩


/-! ## Counters and result list of the scan state -/

theorem recordHost_agrees (grow : Nat → Nat) (h : HostInfo) (w : World)
    (hv : ∀ a, w.gs.results.arr = some a → a < w.mem.length) (ha : w.agrees) :
    (recordHost grow h w).agrees := by
  obtain ⟨hres, _⟩ := recordHost_spec grow h w hv
  obtain ⟨h1, h2⟩ := ha
  unfold World.agrees
  rw [hres]
  by_cases hr : h.IsReachable = true
  · have hperm := sortSlice_perm ipLess (w.results ++ [h])
    have hlen : (sortSlice ipLess (w.results ++ [h])).length = w.results.length + 1 := by
      rw [hperm.length_eq]; simp
    have hsum : ((sortSlice ipLess (w.results ++ [h])).map
        (fun host => host.Services.length)).sum
        = (w.results.map (fun host => host.Services.length)).sum + h.Services.length := by
      rw [(hperm.map _).sum_eq]; simp
    simp only [hr, if_true, hlen, hsum]
    simp only [recordHost, hr, if_true]
    constructor
    · rw [h1]; push_cast; ring
    · rw [h2]; push_cast; ring
  · simp only [hr, if_false, Bool.false_eq_true]
    simp only [recordHost, hr, if_false, Bool.false_eq_true]
    exact ⟨h1, h2⟩

/-- Every step keeps the counters in agreement with the result list. -/
theorem step_agrees (c c1 : Config) (hs : Step c c1) (hm : c.memOk) (ha : c.world.agrees) :
    c1.world.agrees := by
  obtain ⟨hv, hh⟩ := hm
  cases hs with
  | start p now h =>
    simp [World.agrees, World.results, Mem.read, beginScan]
  | parseFail p h hp => exact ha
  | enumerated p ipnet fuel ips h hp he => exact ha
  | spawn p ip todo started running h hsem => exact ha
  | announce p ip todo started running h hip => exact ha
  | finish p h => exact ha
  | complete p ip todo started running env sched grow hostInfo tr h hip hscan =>
    exact recordHost_agrees grow hostInfo c.world hv ha
  | observe =>
    have hres : (GetScanResults c.world).1.results = c.world.results := by
      simp only [World.results, GetScanResults, cloneSlice, Mem.read]
      cases ha1 : c.world.gs.results.arr with
      | none => rfl
      | some a => simp only []; rw [getD_append_lt _ _ _ (hv a ha1)]
    unfold World.agrees
    rw [hres]
    exact ha
  | caller s op m hs hop =>
    obtain ⟨b, hb, hlt, hne⟩ := hh s hs
    obtain ⟨hlen, hframe⟩ := callerOp_frame op c.world.mem m s b hb hop
    have hres : World.results { c.world with mem := m } = c.world.results := by
      simp only [World.results, Mem.read]
      cases ha1 : c.world.gs.results.arr with
      | none => rfl
      | some a =>
        simp only []
        rw [hframe a (fun e => hne (by rw [ha1, e]))]
    unfold World.agrees
    rw [hres]
    exact ha

theorem reachable_agrees (c : Config) (hc : Reachable c) : c.world.agrees := by
  induction hc with
  | init => simp [World.agrees, Config.init, World.init, World.results, Mem.read, Slice.nil]
  | step c c1 hc hs ih => exact step_agrees c c1 hs (reachable_memOk c hc) ih

/-- C29. In every configuration reachable from the initial one by the steps
of the scan (reset, setting the total, one completion for each host in any
order, finish, and a new scan after the end of the last), the counter
`activeHosts` is the number of hosts in the result list and the counter
`openPorts` is the sum of the lengths of their `Services` lists. -/
theorem counters_agree_with_results (c : Config) (hc : Reachable c) :
    (GetScanProgress c.world).ActiveHosts = (c.world.results.length : Int)
      ∧ (GetScanProgress c.world).OpenPorts
        = (((c.world.results.map (fun host => host.Services.length)).sum : Nat) : Int) :=
  reachable_agrees c hc

theorem counters_agree_with_results_witness :
    Reachable sampleRun7
      ∧ sampleRun7.world.results.length = 1
      ∧ (GetScanProgress sampleRun7.world).ActiveHosts = 1
      ∧ (GetScanProgress sampleRun7.world).OpenPorts
        = (((sampleRun7.world.results.map (fun host => host.Services.length)).sum : Nat)
            : Int) :=
  ⟨sampleRun7_reachable, by decide,
    (counters_agree_with_results sampleRun7 sampleRun7_reachable).1,
    (counters_agree_with_results sampleRun7 sampleRun7_reachable).2⟩

/-! ## `getLocalVendor` -/

theorem vendorTable_keys :
    ∀ e ∈ vendorTable, (ascii e.1).length = 8 ∧ (ascii e.1).all keyByte = true := by
  decide

theorem lookup_of_mem {α β : Type} [BEq α] [LawfulBEq α] (l : List (α × β)) (k : α) (v : β)
    (h : (k, v) ∈ l) : l.lookup k ≠ none := by
  induction l with
  | nil => simp at h
  | cons e rest ih =>
    obtain ⟨a, b⟩ := e
    by_cases hk : k = a
    · subst hk
      simp [List.lookup]
    · have hb : (k == a) = false := by simpa using hk
      simp only [List.lookup, hb]
      rcases List.mem_cons.1 h with he | he
      · exact absurd (Prod.mk.inj he).1 hk
      · exact ih he

theorem static_key_shape (k v : Bytes) (h : (k, v) ∈ getComprehensiveVendorDB) :
    k.length = 8 ∧ k.all keyByte = true := by
  simp only [getComprehensiveVendorDB, List.mem_map, Prod.mk.injEq] at h
  obtain ⟨e, he, rfl, _⟩ := h
  exact vendorTable_keys e he

theorem upperKeepsHex_id : UpperKeepsHex id := by
  intro s k _ hlen hkey hpre
  obtain ⟨t, ht⟩ := (hasPrefix_iff _ _).1 hpre
  have htake : s.take 8 = k := by
    have : s = k ++ t := ht
    rw [this, ← hlen]
    simp
  rw [htake]
  have hall : ∀ b ∈ k, b < 128 ∧ ¬ (97 ≤ b ∧ b ≤ 122) := by
    intro b hb
    have := List.all_eq_true.1 hkey b hb
    simp only [keyByte, hexUpper, Bool.or_eq_true, Bool.and_eq_true, decide_eq_true_eq,
      beq_iff_eq] at this
    omega
  constructor
  · rw [List.all_eq_true]
    intro b hb
    simpa using (hall b hb).1
  · conv_rhs => rw [← List.map_id k]
    apply List.map_congr_left
    intro b hb
    simp only [(hall b hb).2, if_false, id]

/-- The prefix scan finds nothing that the exact lookup has missed. -/
theorem prefix_scan_empty (up : Bytes → Bytes) (mac : Bytes)
    (hup : mac.all (fun b => decide (b < 128)) = true ∨ UpperKeepsHex up)
    (hnone : getComprehensiveVendorDB.get (toUpper up (mac.take 8)) = none)
    (k v : Bytes) (hmem : (k, v) ∈ getComprehensiveVendorDB) :
    hasPrefix (toUpper up mac) k = false := by
  cases hp : hasPrefix (toUpper up mac) k with
  | false => rfl
  | true =>
    exfalso
    obtain ⟨hk8, hkey⟩ := static_key_shape k v hmem
    have hkeyeq : toUpper up (mac.take 8) = k := by
      by_cases hascii : mac.all (fun b => decide (b < 128)) = true
      · have h8 : (mac.take 8).all (fun b => decide (b < 128)) = true := by
          rw [List.all_eq_true] at hascii ⊢
          exact fun b hb => hascii b (List.mem_of_mem_take hb)
        simp only [toUpper, hascii, if_true] at hp
        simp only [toUpper, h8, if_true]
        simp only [hasPrefix, decide_eq_true_eq, hk8] at hp
        rw [← hp, List.map_take]
      · have hna : mac.all (fun b => decide (b < 128)) = false := by simpa using hascii
        rcases hup with h | h
        · exact absurd h hascii
        · simp only [toUpper, hna, if_false, Bool.false_eq_true] at hp
          obtain ⟨h8, hmap⟩ := h mac k hna hk8 hkey hp
          simp only [toUpper, h8, if_true]
          exact hmap
    rw [hkeyeq] at hnone
    exact lookup_of_mem _ k v hmem hnone

/-- C30. For a MAC of at least 8 bytes `getLocalVendor` returns the value of
the static table for the upper-cased first 8 bytes when that is a key, and
`Unknown` otherwise, whatever the order in which the map is visited; for a
shorter text it returns the empty text. Every key of the table is 8 bytes
of upper-case hex digits and colons. For a MAC that is not ASCII the
statement rests on the library's upper-casing mapping no other rune to a hex
digit or a colon. -/
theorem local_vendor_is_exact_lookup (up : Bytes → Bytes) (order : GoMap → GoMap)
    (mac : Bytes) (horder : ∀ m, (order m).Perm m)
    (hup : mac.all (fun b => decide (b < 128)) = true ∨ UpperKeepsHex up) :
    getLocalVendor up order mac
        = (if mac.length < 8 then []
          else
            match getComprehensiveVendorDB.get (toUpper up (mac.take 8)) with
            | some vendor => vendor
            | none => ascii "Unknown")
      ∧ ∀ e ∈ vendorTable, (ascii e.1).length = 8 ∧ (ascii e.1).all keyByte = true := by
  refine ⟨?_, vendorTable_keys⟩
  unfold getLocalVendor
  by_cases hlen : mac.length < 8
  · simp only [hlen, if_true]
  · simp only [hlen, if_false]
    cases hget : getComprehensiveVendorDB.get (toUpper up (mac.take 8)) with
    | some vendor => rfl
    | none =>
      simp only
      have hfind : (order getComprehensiveVendorDB).find?
          (fun e => hasPrefix (toUpper up mac) e.1) = none := by
        rw [List.find?_eq_none]
        intro e he
        have hmem : e ∈ getComprehensiveVendorDB := (horder _).subset he
        obtain ⟨k, v⟩ := e
        have := prefix_scan_empty up mac hup hget k v hmem
        simp [this]
      rw [hfind]

theorem local_vendor_is_exact_lookup_witness :
    (∀ m : GoMap, (List.reverse m).Perm m)
      ∧ getLocalVendor id List.reverse (ascii "00:50:56:aa:bb:cc") = ascii "VMware"
      ∧ getLocalVendor id List.reverse ([195, 169] ++ ascii ":50:56:aa:bb:cc") = ascii "Unknown"
      ∧ getLocalVendor id List.reverse (ascii "00:50") = [] :=
  ⟨fun m => List.reverse_perm m,
    (local_vendor_is_exact_lookup id List.reverse (ascii "00:50:56:aa:bb:cc")
      (fun m => List.reverse_perm m) (Or.inl (by decide))).1,
    (local_vendor_is_exact_lookup id List.reverse ([195, 169] ++ ascii ":50:56:aa:bb:cc")
      (fun m => List.reverse_perm m) (Or.inr upperKeepsHex_id)).1,
    (local_vendor_is_exact_lookup id List.reverse (ascii "00:50")
      (fun m => List.reverse_perm m) (Or.inl (by decide))).1⟩

/-! ## `parsePortList`: what it returns on a valid list -/

theorem parsePortTokens_decimal (toks : List (List Char)) (acc : List Int)
    (h : ∀ tok ∈ toks, trimSpace tok = [] ∨ isDecimalPort (trimSpace tok)) :
    parsePortTokens toks acc
      = .ok (acc ++ ((toks.map trimSpace).filter (fun t => decide (t ≠ []))).map
          numericValue) := by
  induction toks generalizing acc with
  | nil => simp [parsePortTokens]
  | cons tok rest ih =>
    have hrest : ∀ t ∈ rest, trimSpace t = [] ∨ isDecimalPort (trimSpace t) :=
      fun t ht => h t (List.mem_cons_of_mem _ ht)
    by_cases he : trimSpace tok = []
    · simp only [parsePortTokens, he, if_true, List.map_cons, ne_eq, not_true_eq_false,
        decide_False, List.filter_cons_of_neg, Bool.false_eq_true, not_false_eq_true]
      exact ih acc hrest
    · rcases h tok (List.mem_cons_self _ _) with he2 | ⟨hn, h1, h2⟩
      · exact absurd he2 he
      · rcases atoi_port (trimSpace tok) with ⟨hbad, _⟩ | ⟨_, hval, _, _⟩
        · exfalso
          rcases hbad with hb | hb | hb
          · rw [hn] at hb
            cases hb
          · omega
          · omega
        · have hr : ¬ (numericValue (trimSpace tok) < 1
              ∨ numericValue (trimSpace tok) > 65535) := by omega
          simp only [parsePortTokens, he, if_false, hval, hr, List.map_cons]
          rw [ih _ hrest]
          simp [he]

/-- C20. On a text in which every piece between the commas is, after
trimming, empty or a decimal integer between 1 and 65535 (an optional sign,
then digits), `parsePortList` returns without error the values of the pieces
that are not empty, in the order of the text, duplicates kept. The text
`22, 80,,443` gives 22, 80, 443; `1,65535` gives 1, 65535; the empty text
gives no port. -/
theorem parsePortList_valid (portStr : String)
    (h : ∀ tok ∈ splitOn ',' portStr.data,
      trimSpace tok = [] ∨ isDecimalPort (trimSpace tok)) :
    parsePortList portStr = .ok (decimalValues portStr)
      ∧ parsePortList "" = .ok []
      ∧ parsePortList "22, 80,,443" = .ok [22, 80, 443]
      ∧ parsePortList "1,65535" = .ok [1, 65535]
      ∧ parsePortList "+80, 443,80" = .ok [80, 443, 80] := by
  refine ⟨?_, rfl, rfl, rfl, rfl⟩
  rw [parsePortList_tokens, parsePortTokens_decimal _ _ h]
  rfl

theorem parsePortList_valid_witness :
    (∀ tok ∈ splitOn ',' "+1, 65535,, 080 ,".data,
        trimSpace tok = [] ∨ isDecimalPort (trimSpace tok))
      ∧ parsePortList "+1, 65535,, 080 ," = .ok [1, 65535, 80] :=
  ⟨by decide, (parsePortList_valid "+1, 65535,, 080 ," (by decide)).1⟩

/-! ## `getEnhancedVendor` called by several workers at once -/

theorem move_call (up : Bytes → Bytes) (p : Process) (env : VendorEnv) (mac : Bytes) :
    Process.move up p (.call env mac)
      = { p with
          calls := p.calls ++
            [{ env := env, mac := mac
               pc := if mac.length < 8 then .returned [] else .lookup }] } := rfl

theorem move_single (up : Bytes → Bytes) (st : VendorState) (c : Lookup) (n : Nat) :
    Process.move up { caches := st, calls := [c], saves := n } (.step 0)
      = { caches := (c.step up st).2.1
          calls := [(c.step up st).1]
          saves := if (c.step up st).2.2 then n + 1 else n } := rfl

theorem run_cons (up : Bytes → Bytes) (p : Process) (m : Move) (ms : List Move) :
    Process.run up p (m :: ms) = Process.run up (Process.move up p m) ms := rfl

theorem run_nil (up : Bytes → Bytes) (p : Process) : Process.run up p [] = p := rfl

/-- A call that no other call overlaps: run through its critical sections one
after the other, it returns what `getEnhancedVendor` returns and leaves the
caches that `getEnhancedVendor` leaves. -/
theorem call_alone (up : Bytes → Bytes) (env : VendorEnv) (st : VendorState) (mac : Bytes) :
    (Process.run up { caches := st, calls := [], saves := 0 }
        [.call env mac, .step 0, .step 0, .step 0, .step 0, .step 0, .step 0, .step 0,
         .step 0, .step 0]).caches
        = (getEnhancedVendor up env st mac).2.1
      ∧ (Process.run up { caches := st, calls := [], saves := 0 }
        [.call env mac, .step 0, .step 0, .step 0, .step 0, .step 0, .step 0, .step 0,
         .step 0, .step 0]).pcs
        = [.returned (getEnhancedVendor up env st mac).1] := by
  rw [run_cons, move_call]
  simp only [List.nil_append]
  by_cases hlen : mac.length < 8
  · simp only [hlen, if_true, run_cons, run_nil, move_single, Lookup.step, getEnhancedVendor,
      Process.pcs, List.map_cons, List.map_nil, and_self]
  · simp only [hlen, if_false]
    unfold getEnhancedVendor
    simp only [hlen, if_false]
    cases h1 : st.vendorCache.get (toUpper up (mac.take 8)) with
    | some v =>
      simp only [run_cons, run_nil, move_single, Lookup.step, h1,
        Process.pcs, List.map_cons, List.map_nil, and_self]
    | none =>
      cases ho : st.ieeeOUICache.isEmpty with
      | false =>
        cases hg : (st.ieeeOUICache).get (toUpper up (mac.take 8)) with
        | some v =>
          cases he : st.vendorCache.isEmpty <;>
            simp only [run_cons, run_nil, move_single, Lookup.step, lazyLoadOUI, h1, he, ho,  hg, Process.pcs,
                  List.map_cons, List.map_nil, if_true, if_false, Bool.false_eq_true, and_self]
        | none =>
          by_cases hlv : getLocalVendor up env.order mac ≠ []
              ∧ getLocalVendor up env.order mac ≠ ascii "Unknown"
          · cases he : st.vendorCache.isEmpty <;>
              simp only [run_cons, run_nil, move_single, Lookup.step, lazyLoadOUI, h1, he, ho,  hg, Process.pcs,
                  List.map_cons, List.map_nil, if_true, if_false, Bool.false_eq_true, and_self, if_pos hlv]
          · by_cases hon : getOnlineVendor env (toUpper up (mac.take 8)) ≠ []
            · cases he : st.vendorCache.isEmpty <;>
                simp only [run_cons, run_nil, move_single, Lookup.step, lazyLoadOUI, h1, he, ho,  hg, Process.pcs,
                  List.map_cons, List.map_nil, if_true, if_false, Bool.false_eq_true, and_self, if_neg hlv, if_pos hon]
            · cases he : st.vendorCache.isEmpty <;>
                simp only [run_cons, run_nil, move_single, Lookup.step, lazyLoadOUI, h1, he, ho,  hg, Process.pcs,
                  List.map_cons, List.map_nil, if_true, if_false, Bool.false_eq_true, and_self, if_neg hlv, if_neg hon]
      | true =>
        cases hl : (loadCache env.ouiFile st.ieeeOUICache).isEmpty with
        | false =>
          cases hg : (loadCache env.ouiFile st.ieeeOUICache).get (toUpper up (mac.take 8)) with
          | some v =>
            cases he : st.vendorCache.isEmpty <;>
              simp only [run_cons, run_nil, move_single, Lookup.step, lazyLoadOUI, h1, he, ho, hl, hg, Process.pcs,
                    List.map_cons, List.map_nil, if_true, if_false, Bool.false_eq_true, and_self]
          | none =>
            by_cases hlv : getLocalVendor up env.order mac ≠ []
                ∧ getLocalVendor up env.order mac ≠ ascii "Unknown"
            · cases he : st.vendorCache.isEmpty <;>
                simp only [run_cons, run_nil, move_single, Lookup.step, lazyLoadOUI, h1, he, ho, hl, hg, Process.pcs,
                    List.map_cons, List.map_nil, if_true, if_false, Bool.false_eq_true, and_self, if_pos hlv]
            · by_cases hon : getOnlineVendor env (toUpper up (mac.take 8)) ≠ []
              · cases he : st.vendorCache.isEmpty <;>
                  simp only [run_cons, run_nil, move_single, Lookup.step, lazyLoadOUI, h1, he, ho, hl, hg, Process.pcs,
                    List.map_cons, List.map_nil, if_true, if_false, Bool.false_eq_true, and_self, if_neg hlv, if_pos hon]
              · cases he : st.vendorCache.isEmpty <;>
                  simp only [run_cons, run_nil, move_single, Lookup.step, lazyLoadOUI, h1, he, ho, hl, hg, Process.pcs,
                    List.map_cons, List.map_nil, if_true, if_false, Bool.false_eq_true, and_self, if_neg hlv, if_neg hon]
        | true =>
          cases hg : (downloadAndParseIEEEOUI env (loadCache env.ouiFile st.ieeeOUICache)).get (toUpper up (mac.take 8)) with
          | some v =>
            cases he : st.vendorCache.isEmpty <;>
              simp only [run_cons, run_nil, move_single, Lookup.step, lazyLoadOUI, h1, he, ho, hl, hg, Process.pcs,
                    List.map_cons, List.map_nil, if_true, if_false, Bool.false_eq_true, and_self]
          | none =>
            by_cases hlv : getLocalVendor up env.order mac ≠ []
                ∧ getLocalVendor up env.order mac ≠ ascii "Unknown"
            · cases he : st.vendorCache.isEmpty <;>
                simp only [run_cons, run_nil, move_single, Lookup.step, lazyLoadOUI, h1, he, ho, hl, hg, Process.pcs,
                    List.map_cons, List.map_nil, if_true, if_false, Bool.false_eq_true, and_self, if_pos hlv]
            · by_cases hon : getOnlineVendor env (toUpper up (mac.take 8)) ≠ []
              · cases he : st.vendorCache.isEmpty <;>
                  simp only [run_cons, run_nil, move_single, Lookup.step, lazyLoadOUI, h1, he, ho, hl, hg, Process.pcs,
                    List.map_cons, List.map_nil, if_true, if_false, Bool.false_eq_true, and_self, if_neg hlv, if_pos hon]
              · cases he : st.vendorCache.isEmpty <;>
                  simp only [run_cons, run_nil, move_single, Lookup.step, lazyLoadOUI, h1, he, ho, hl, hg, Process.pcs,
                    List.map_cons, List.map_nil, if_true, if_false, Bool.false_eq_true, and_self, if_neg hlv, if_neg hon]

/-- C12 (divergence). Three calls in a process that has just started, with a
saved resolved cache that holds `Unknown` for the prefix `AA:BB:CC` and a
saved OUI cache that holds `Acme` for it. The first call, for another
prefix, sees the resolved cache empty and has not yet loaded the file when
the second call, for `AA:BB:CC:00:00:01`, runs to its end: it returns `Acme`
and the resolved cache holds `Acme`. Then the first call loads the file,
which puts `Unknown` in the place of `Acme`, and the third call, begun after
that for `aa:bb:cc:00:00:02`, returns `Unknown`. No request was answered and
no file written during the run. When no two calls overlap, the third returns
what the second returned. -/
theorem pending_load_replaces_vendor :
    (Process.run id Process.init (raceMoves.take 12)).pcs
        = [.load, .returned (ascii "Acme")]
      ∧ (Process.run id Process.init (raceMoves.take 12)).caches.vendorCache.get
          (ascii "AA:BB:CC") = some (ascii "Acme")
      ∧ (Process.run id Process.init (raceMoves.take 13)).pcs
        = [.checkOUI, .returned (ascii "Acme")]
      ∧ (Process.run id Process.init (raceMoves.take 13)).caches.vendorCache.get
          (ascii "AA:BB:CC") = some (ascii "Unknown")
      ∧ (Process.run id Process.init raceMoves).pcs
        = [.checkOUI, .returned (ascii "Acme"), .returned (ascii "Unknown")]
      ∧ (Process.run id Process.init raceMoves).saves = 0
      ∧ toUpper id ((ascii "aa:bb:cc:00:00:02").take 8)
        = toUpper id ((ascii "AA:BB:CC:00:00:01").take 8)
      ∧ (getEnhancedVendor id raceEnv
            (runLookups id VendorState.init
              [(raceEnv, ascii "AA:BB:CC:00:00:01"), (raceEnv, ascii "11:22:33:44:55:66")])
            (ascii "aa:bb:cc:00:00:02")).1 = ascii "Acme" := by
  refine ⟨?_, ?_, ?_, ?_, ?_, ?_, ?_, ?_⟩ <;> decide

end ViewNet
